import Mathlib

/-!
# Small-Chinese-Chess: a verification development of `cnchess.cpp`

A shallow embedding of the Xiangqi rules engine and its alpha-beta search.

Modelling conventions.
* `int32_t` coordinates are `Int`; no coordinate computed by the program leaves a small
  range, so no wrap-around is modelled for them.
* The `int32_t` accumulator of `board_calc_score` is an `Int` reduced modulo `2^32` after
  each addition (`wrap_int32`). The other `int32_t` values of the search are scores, `alpha`,
  `beta`, `INT32_MIN` and `INT32_MAX`, which the program compares and copies but never
  computes with.
* The grid is `std::array<std::array<Piece, 13>, 14>`: a vector of 14 vectors of 13 pieces.
  Indexing it outside its bounds is undefined behaviour in the source; in the model every read
  and write is bounds-checked and yields `none` there, so functions that touch the grid return
  `Option`.
* The unbounded `for (;;)` ray scans take a fuel argument; running out of fuel is `none`.
* `std::vector` / `std::deque` are `List`, with `emplace_back` appending at the end.
* The three tables that the source includes from text files (`chessBoardPieceChar.txt`,
  `chessBoardPieceValue.txt`, `chessBoardPosValue.txt`) are parameters (`ValueTables`).
-/

namespace CnChess

/-! ## Constants -/

def BOARD_ROW_LEN : Int := 14
def BOARD_COL_LEN : Int := 13
def BOARD_ACTUAL_ROW_LEN : Int := 10
def BOARD_ACTUAL_COL_LEN : Int := 9
def BOARD_ACTUAL_ROW_BEGIN : Int := 2
def BOARD_ACTUAL_COL_BEGIN : Int := 2

def BOARD_RIVER_UP : Int := BOARD_ACTUAL_ROW_BEGIN + 4
def BOARD_RIVER_DOWN : Int := BOARD_ACTUAL_ROW_BEGIN + 5

def BOARD_9_PALACE_UP_TOP : Int := BOARD_ACTUAL_ROW_BEGIN
def BOARD_9_PALACE_UP_BOTTOM : Int := BOARD_ACTUAL_ROW_BEGIN + 2
def BOARD_9_PALACE_UP_LEFT : Int := BOARD_ACTUAL_COL_BEGIN + 3
def BOARD_9_PALACE_UP_RIGHT : Int := BOARD_ACTUAL_COL_BEGIN + 5

def BOARD_9_PALACE_DOWN_TOP : Int := BOARD_ACTUAL_ROW_BEGIN + 7
def BOARD_9_PALACE_DOWN_BOTTOM : Int := BOARD_ACTUAL_ROW_BEGIN + 9
def BOARD_9_PALACE_DOWN_LEFT : Int := BOARD_ACTUAL_COL_BEGIN + 3
def BOARD_9_PALACE_DOWN_RIGHT : Int := BOARD_ACTUAL_COL_BEGIN + 5

def INT32_MAX : Int := 2147483647
def INT32_MIN : Int := -2147483648

/-! ## Pieces -/

inductive PieceSide where
  | PS_UP
  | PS_DOWN
  | PS_EXTRA
  deriving DecidableEq, Repr

inductive PieceType where
  | PT_PAWN
  | PT_CANNON
  | PT_ROOK
  | PT_KNIGHT
  | PT_BISHOP
  | PT_ADVISOR
  | PT_GENERAL
  | PT_EMPTY
  | PT_OUT
  deriving DecidableEq, Repr

inductive Piece where
  | P_UP
  | P_UC
  | P_UR
  | P_UN
  | P_UB
  | P_UA
  | P_UG
  | P_DP
  | P_DC
  | P_DR
  | P_DN
  | P_DB
  | P_DA
  | P_DG
  | P_EE
  | P_EO
  deriving DecidableEq, Repr

open PieceSide PieceType Piece

/-- The table `pieceSideMapping`, read through `piece_get_side`. -/
def piece_get_side : Piece → PieceSide
  | P_UP => PS_UP | P_UC => PS_UP | P_UR => PS_UP | P_UN => PS_UP
  | P_UB => PS_UP | P_UA => PS_UP | P_UG => PS_UP
  | P_DP => PS_DOWN | P_DC => PS_DOWN | P_DR => PS_DOWN | P_DN => PS_DOWN
  | P_DB => PS_DOWN | P_DA => PS_DOWN | P_DG => PS_DOWN
  | P_EE => PS_EXTRA | P_EO => PS_EXTRA

/-- The table `pieceTypeMapping`, read through `piece_get_type`. -/
def piece_get_type : Piece → PieceType
  | P_UP => PT_PAWN | P_UC => PT_CANNON | P_UR => PT_ROOK | P_UN => PT_KNIGHT
  | P_UB => PT_BISHOP | P_UA => PT_ADVISOR | P_UG => PT_GENERAL
  | P_DP => PT_PAWN | P_DC => PT_CANNON | P_DR => PT_ROOK | P_DN => PT_KNIGHT
  | P_DB => PT_BISHOP | P_DA => PT_ADVISOR | P_DG => PT_GENERAL
  | P_EE => PT_EMPTY | P_EO => PT_OUT

/-- The table `pieceSideReverseMapping`, read through `piece_side_get_reverse`. -/
def piece_side_get_reverse : PieceSide → PieceSide
  | PS_UP => PS_DOWN
  | PS_DOWN => PS_UP
  | PS_EXTRA => PS_EXTRA

/-- The two value tables of the source, whose contents come from text files that are included
at compile time: `pieceValueMapping` and `piecePosValueMapping`. -/
structure ValueTables where
  pieceValueMapping : Piece → Int
  piecePosValueMapping : Piece → Int → Int → Int

def piece_get_value (V : ValueTables) (p : Piece) : Int :=
  V.pieceValueMapping p

def piece_get_pos_value (V : ValueTables) (p : Piece) (r c : Int) : Int :=
  V.piecePosValueMapping p r c

/-! ## Board, moves, history -/

/-- The type of the member `data`: `std::array<std::array<Piece, 13>, 14>`. -/
abbrev Grid := Mathlib.Vector (Mathlib.Vector Piece 13) 14

def CHESS_BOARD_DEFAULT_TEMPLATE : Grid :=
  ⟨[ ⟨[P_EO, P_EO, P_EO, P_EO, P_EO, P_EO, P_EO, P_EO, P_EO, P_EO, P_EO, P_EO, P_EO], rfl⟩,
     ⟨[P_EO, P_EO, P_EO, P_EO, P_EO, P_EO, P_EO, P_EO, P_EO, P_EO, P_EO, P_EO, P_EO], rfl⟩,
     ⟨[P_EO, P_EO, P_UR, P_UN, P_UB, P_UA, P_UG, P_UA, P_UB, P_UN, P_UR, P_EO, P_EO], rfl⟩,
     ⟨[P_EO, P_EO, P_EE, P_EE, P_EE, P_EE, P_EE, P_EE, P_EE, P_EE, P_EE, P_EO, P_EO], rfl⟩,
     ⟨[P_EO, P_EO, P_EE, P_UC, P_EE, P_EE, P_EE, P_EE, P_EE, P_UC, P_EE, P_EO, P_EO], rfl⟩,
     ⟨[P_EO, P_EO, P_UP, P_EE, P_UP, P_EE, P_UP, P_EE, P_UP, P_EE, P_UP, P_EO, P_EO], rfl⟩,
     ⟨[P_EO, P_EO, P_EE, P_EE, P_EE, P_EE, P_EE, P_EE, P_EE, P_EE, P_EE, P_EO, P_EO], rfl⟩,
     ⟨[P_EO, P_EO, P_EE, P_EE, P_EE, P_EE, P_EE, P_EE, P_EE, P_EE, P_EE, P_EO, P_EO], rfl⟩,
     ⟨[P_EO, P_EO, P_DP, P_EE, P_DP, P_EE, P_DP, P_EE, P_DP, P_EE, P_DP, P_EO, P_EO], rfl⟩,
     ⟨[P_EO, P_EO, P_EE, P_DC, P_EE, P_EE, P_EE, P_EE, P_EE, P_DC, P_EE, P_EO, P_EO], rfl⟩,
     ⟨[P_EO, P_EO, P_EE, P_EE, P_EE, P_EE, P_EE, P_EE, P_EE, P_EE, P_EE, P_EO, P_EO], rfl⟩,
     ⟨[P_EO, P_EO, P_DR, P_DN, P_DB, P_DA, P_DG, P_DA, P_DB, P_DN, P_DR, P_EO, P_EO], rfl⟩,
     ⟨[P_EO, P_EO, P_EO, P_EO, P_EO, P_EO, P_EO, P_EO, P_EO, P_EO, P_EO, P_EO, P_EO], rfl⟩,
     ⟨[P_EO, P_EO, P_EO, P_EO, P_EO, P_EO, P_EO, P_EO, P_EO, P_EO, P_EO, P_EO, P_EO], rfl⟩ ], rfl⟩

structure MoveNode where
  beginRow : Int
  beginCol : Int
  endRow : Int
  endCol : Int
  deriving DecidableEq, Repr

/-- The default constructor `MoveNode()`. -/
def MoveNode.zero : MoveNode := ⟨0, 0, 0, 0⟩

structure HistoryNode where
  move : MoveNode
  beginPiece : Piece
  endPiece : Piece
  deriving DecidableEq, Repr

/-- The two members of `class ChessBoard`. -/
structure ChessBoard where
  data : Grid
  history : List HistoryNode
  deriving DecidableEq

/-- The constructor `ChessBoard()`: the template is copied, the history is empty. -/
def ChessBoard.new : ChessBoard :=
  { data := CHESS_BOARD_DEFAULT_TEMPLATE, history := [] }

/-- Coordinates that index the 14 x 13 grid. -/
def inGrid (r c : Int) : Prop :=
  0 ≤ r ∧ r < BOARD_ROW_LEN ∧ 0 ≤ c ∧ c < BOARD_COL_LEN

instance (r c : Int) : Decidable (inGrid r c) := by
  unfold inGrid; infer_instance

theorem inGrid_row {r c : Int} (h : inGrid r c) : r.toNat < 14 := by
  unfold inGrid BOARD_ROW_LEN at h; omega

theorem inGrid_col {r c : Int} (h : inGrid r c) : c.toNat < 13 := by
  unfold inGrid BOARD_COL_LEN at h; omega

/-- Method `ChessBoard::get`: `data[r][c]`, defined only inside the grid. -/
def ChessBoard.get (cb : ChessBoard) (r c : Int) : Option Piece :=
  if h : inGrid r c then
    some ((cb.data.get ⟨r.toNat, inGrid_row h⟩).get ⟨c.toNat, inGrid_col h⟩)
  else none

/-- Method `ChessBoard::set`: `data[r][c] = p`, defined only inside the grid. -/
def ChessBoard.set (cb : ChessBoard) (r c : Int) (p : Piece) : Option ChessBoard :=
  if h : inGrid r c then
    let i : Fin 14 := ⟨r.toNat, inGrid_row h⟩
    let j : Fin 13 := ⟨c.toNat, inGrid_col h⟩
    some { cb with data := cb.data.set i ((cb.data.get i).set j p) }
  else none

/-- Method `ChessBoard::move`. -/
def ChessBoard.move (cb : ChessBoard) (moveNode : MoveNode) : Option ChessBoard := do
  let beginPiece ← cb.get moveNode.beginRow moveNode.beginCol
  let endPiece ← cb.get moveNode.endRow moveNode.endCol
  -- record the history.
  let cb1 : ChessBoard := { cb with history := cb.history ++ [⟨moveNode, beginPiece, endPiece⟩] }
  -- move the pieces.
  let cb2 ← cb1.set moveNode.beginRow moveNode.beginCol P_EE
  cb2.set moveNode.endRow moveNode.endCol beginPiece

/-- Method `ChessBoard::undo`. -/
def ChessBoard.undo (cb : ChessBoard) : Option ChessBoard :=
  match cb.history.getLast? with
  | none => some cb
  | some node => do
    let cb1 ← cb.set node.move.beginRow node.move.beginCol node.beginPiece
    let cb2 ← cb1.set node.move.endRow node.move.endCol node.endPiece
    some { cb2 with history := cb2.history.dropLast }

/-! ## Move generator -/

abbrev PossibleMoves := List MoveNode

def check_possible_move_and_insert (cb : ChessBoard) (pm : PossibleMoves)
    (beginRow beginCol endRow endCol : Int) : Option PossibleMoves := do
  let beginP ← cb.get beginRow beginCol
  let endP ← cb.get endRow endCol
  -- not out of chess board, and not the same side.
  if endP ≠ P_EO ∧ piece_get_side beginP ≠ piece_get_side endP then
    some (pm ++ [⟨beginRow, beginCol, endRow, endCol⟩])
  else
    some pm

/-- The body of `gen_possible_moves_for_pawn`, run on the function's own vector `pm`, whose
final value is returned here. The source declares that parameter as `PossibleMoves pm`, by value:
see the caller `gen_possible_moves_cell` for what becomes of it. -/
def gen_possible_moves_for_pawn (cb : ChessBoard) (pm : PossibleMoves) (r c : Int)
    (side : PieceSide) : Option PossibleMoves :=
  if side = PS_UP then do
    let pm ← check_possible_move_and_insert cb pm r c (r + 1) c
    if r > BOARD_RIVER_UP then do
      let pm ← check_possible_move_and_insert cb pm r c r (c - 1)
      check_possible_move_and_insert cb pm r c r (c + 1)
    else
      some pm
  else if side = PS_DOWN then do
    let pm ← check_possible_move_and_insert cb pm r c (r - 1) c
    if r < BOARD_RIVER_DOWN then do
      let pm ← check_possible_move_and_insert cb pm r c r (c - 1)
      check_possible_move_and_insert cb pm r c r (c + 1)
    else
      some pm
  else
    some pm

/-- Fuel given to the `for (;;)` ray scans. A scan that reads more than 14 cells has either left
the grid or is standing still. -/
def SCAN_FUEL : Nat := 16

/-- The first loop of `gen_possible_moves_for_cannon_one_direction` and of
`gen_possible_moves_for_rook_one_direction` (the two are the same text): from `(row, col)`,
insert a move to every empty cell and stop on the first cell that is not empty. Returns the
values of `row`, `col`, `p` and `pm` at the `break`. -/
def scan_empty_cells (cb : ChessBoard) (r c rGap cGap : Int) :
    Nat → Int → Int → PossibleMoves → Option (Int × Int × Piece × PossibleMoves)
  | 0, _, _, _ => none
  | fuel + 1, row, col, pm => do
    let p ← cb.get row col
    if p = P_EE then
      scan_empty_cells cb r c rGap cGap fuel (row + rGap) (col + cGap)
        (pm ++ [⟨r, c, row, col⟩])
    else
      some (row, col, p, pm)

/-- The second loop of `gen_possible_moves_for_cannon_one_direction`: skip empty cells, insert
a move onto the first piece met when it is an enemy, and stop. -/
def scan_cannon_target (cb : ChessBoard) (r c rGap cGap : Int) (side : PieceSide) :
    Nat → Int → Int → PossibleMoves → Option PossibleMoves
  | 0, _, _, _ => none
  | fuel + 1, row, col, pm => do
    let p ← cb.get row col
    if p = P_EE then
      scan_cannon_target cb r c rGap cGap side fuel (row + rGap) (col + cGap) pm
    else if piece_get_side p = piece_side_get_reverse side then
      some (pm ++ [⟨r, c, row, col⟩])
    else
      some pm

def gen_possible_moves_for_cannon_one_direction (cb : ChessBoard) (pm : PossibleMoves)
    (r c rGap cGap : Int) (side : PieceSide) : Option PossibleMoves := do
  let (row, col, p, pm) ← scan_empty_cells cb r c rGap cGap SCAN_FUEL (r + rGap) (c + cGap) pm
  -- not out of chess board, check if we can add an enemy piece.
  if p ≠ P_EO then
    scan_cannon_target cb r c rGap cGap side SCAN_FUEL (row + rGap) (col + cGap) pm
  else
    some pm

def gen_possible_moves_for_cannon (cb : ChessBoard) (pm : PossibleMoves) (r c : Int)
    (side : PieceSide) : Option PossibleMoves := do
  -- go up, down, left, right.
  let pm ← gen_possible_moves_for_cannon_one_direction cb pm r c (-1) 0 side
  let pm ← gen_possible_moves_for_cannon_one_direction cb pm r c 1 0 side
  let pm ← gen_possible_moves_for_cannon_one_direction cb pm r c 0 (-1) side
  gen_possible_moves_for_cannon_one_direction cb pm r c 0 1 side

def gen_possible_moves_for_rook_one_direction (cb : ChessBoard) (pm : PossibleMoves)
    (r c rGap cGap : Int) (side : PieceSide) : Option PossibleMoves := do
  let (row, col, p, pm) ← scan_empty_cells cb r c rGap cGap SCAN_FUEL (r + rGap) (c + cGap) pm
  -- enemy piece, then insert it.
  if piece_get_side p = piece_side_get_reverse side then
    some (pm ++ [⟨r, c, row, col⟩])
  else
    some pm

def gen_possible_moves_for_rook (cb : ChessBoard) (pm : PossibleMoves) (r c : Int)
    (side : PieceSide) : Option PossibleMoves := do
  let pm ← gen_possible_moves_for_rook_one_direction cb pm r c (-1) 0 side
  let pm ← gen_possible_moves_for_rook_one_direction cb pm r c 1 0 side
  let pm ← gen_possible_moves_for_rook_one_direction cb pm r c 0 (-1) side
  gen_possible_moves_for_rook_one_direction cb pm r c 0 1 side

/-- One leg of the knight: `if ((p = cb.get(lr, lc)) == P_EE) { insert; insert; }`. -/
def knight_leg (cb : ChessBoard) (pm : PossibleMoves) (r c lr lc r1 c1 r2 c2 : Int) :
    Option PossibleMoves := do
  let p ← cb.get lr lc
  -- if not lame horse leg ?
  if p = P_EE then do
    let pm ← check_possible_move_and_insert cb pm r c r1 c1
    check_possible_move_and_insert cb pm r c r2 c2
  else
    some pm

def gen_possible_moves_for_knight (cb : ChessBoard) (pm : PossibleMoves) (r c : Int)
    (_side : PieceSide) : Option PossibleMoves := do
  let pm ← knight_leg cb pm r c (r + 1) c (r + 2) (c + 1) (r + 2) (c - 1)
  let pm ← knight_leg cb pm r c (r - 1) c (r - 2) (c + 1) (r - 2) (c - 1)
  let pm ← knight_leg cb pm r c r (c + 1) (r + 1) (c + 2) (r - 1) (c + 2)
  knight_leg cb pm r c r (c - 1) (r + 1) (c - 2) (r - 1) (c - 2)

/-- One eye of the bishop: `if ((p = cb.get(er, ec)) == P_EE) { insert; }`. -/
def bishop_eye (cb : ChessBoard) (pm : PossibleMoves) (r c er ec r1 c1 : Int) :
    Option PossibleMoves := do
  let p ← cb.get er ec
  -- bishop can move only if Xiang Yan is empty.
  if p = P_EE then
    check_possible_move_and_insert cb pm r c r1 c1
  else
    some pm

def gen_possible_moves_for_bishop (cb : ChessBoard) (pm : PossibleMoves) (r c : Int)
    (side : PieceSide) : Option PossibleMoves :=
  if side = PS_UP then do
    -- bishop can't cross river.
    let pm ← (if r + 2 ≤ BOARD_RIVER_UP then (do
        let pm ← bishop_eye cb pm r c (r + 1) (c + 1) (r + 2) (c + 2)
        bishop_eye cb pm r c (r + 1) (c - 1) (r + 2) (c - 2))
      else some pm)
    let pm ← bishop_eye cb pm r c (r - 1) (c + 1) (r - 2) (c + 2)
    bishop_eye cb pm r c (r - 1) (c - 1) (r - 2) (c - 2)
  else if side = PS_DOWN then do
    let pm ← (if r - 2 ≥ BOARD_RIVER_DOWN then (do
        let pm ← bishop_eye cb pm r c (r - 1) (c + 1) (r - 2) (c + 2)
        bishop_eye cb pm r c (r - 1) (c - 1) (r - 2) (c - 2))
      else some pm)
    let pm ← bishop_eye cb pm r c (r + 1) (c + 1) (r + 2) (c + 2)
    bishop_eye cb pm r c (r + 1) (c - 1) (r + 2) (c - 2)
  else
    some pm

/-- A guarded insertion: `if (cond) { check_possible_move_and_insert(...); }`. -/
def insert_when (cond : Prop) [Decidable cond] (cb : ChessBoard) (pm : PossibleMoves)
    (r c r1 c1 : Int) : Option PossibleMoves :=
  if cond then check_possible_move_and_insert cb pm r c r1 c1 else some pm

def gen_possible_moves_for_advisor (cb : ChessBoard) (pm : PossibleMoves) (r c : Int)
    (side : PieceSide) : Option PossibleMoves :=
  if side = PS_UP then do
    -- walk diagonal lines.
    let pm ← insert_when (r + 1 ≤ BOARD_9_PALACE_UP_BOTTOM ∧ c + 1 ≤ BOARD_9_PALACE_UP_RIGHT)
      cb pm r c (r + 1) (c + 1)
    let pm ← insert_when (r + 1 ≤ BOARD_9_PALACE_UP_BOTTOM ∧ c - 1 ≥ BOARD_9_PALACE_UP_LEFT)
      cb pm r c (r + 1) (c - 1)
    let pm ← insert_when (r - 1 ≥ BOARD_9_PALACE_UP_TOP ∧ c + 1 ≤ BOARD_9_PALACE_UP_RIGHT)
      cb pm r c (r - 1) (c + 1)
    insert_when (r - 1 ≥ BOARD_9_PALACE_UP_TOP ∧ c - 1 ≥ BOARD_9_PALACE_UP_LEFT)
      cb pm r c (r - 1) (c - 1)
  else if side = PS_DOWN then do
    let pm ← insert_when
      (r + 1 ≤ BOARD_9_PALACE_DOWN_BOTTOM ∧ c + 1 ≤ BOARD_9_PALACE_DOWN_RIGHT)
      cb pm r c (r + 1) (c + 1)
    let pm ← insert_when
      (r + 1 ≤ BOARD_9_PALACE_DOWN_BOTTOM ∧ c - 1 ≥ BOARD_9_PALACE_DOWN_LEFT)
      cb pm r c (r + 1) (c - 1)
    let pm ← insert_when (r - 1 ≥ BOARD_9_PALACE_DOWN_TOP ∧ c + 1 ≤ BOARD_9_PALACE_DOWN_RIGHT)
      cb pm r c (r - 1) (c + 1)
    insert_when (r - 1 ≥ BOARD_9_PALACE_DOWN_TOP ∧ c - 1 ≥ BOARD_9_PALACE_DOWN_LEFT)
      cb pm r c (r - 1) (c - 1)
  else
    some pm

/-- The upper general's loop `for (row = r + 1; row < 12; ++row)`: skip empty cells, insert the
capture when the first piece met is `P_DG`. -/
def scan_general_up (cb : ChessBoard) (r c : Int) :
    Nat → Int → PossibleMoves → Option PossibleMoves
  | 0, _, _ => none
  | fuel + 1, row, pm =>
    if row < BOARD_ACTUAL_ROW_BEGIN + BOARD_ACTUAL_ROW_LEN then do
      let p ← cb.get row c
      if p = P_EE then
        scan_general_up cb r c fuel (row + 1) pm
      else if p = P_DG then
        some (pm ++ [⟨r, c, row, c⟩])
      else
        some pm
    else
      some pm

/-- The lower general's loop `for (row = r - 1; row >= 2; --row)`. -/
def scan_general_down (cb : ChessBoard) (r c : Int) :
    Nat → Int → PossibleMoves → Option PossibleMoves
  | 0, _, _ => none
  | fuel + 1, row, pm =>
    if row ≥ BOARD_ACTUAL_ROW_BEGIN then do
      let p ← cb.get row c
      if p = P_EE then
        scan_general_down cb r c fuel (row - 1) pm
      else if p = P_UG then
        some (pm ++ [⟨r, c, row, c⟩])
      else
        some pm
    else
      some pm

def gen_possible_moves_for_general (cb : ChessBoard) (pm : PossibleMoves) (r c : Int)
    (side : PieceSide) : Option PossibleMoves :=
  if side = PS_UP then do
    -- walk horizontal or vertical.
    let pm ← insert_when (r + 1 ≤ BOARD_9_PALACE_UP_BOTTOM) cb pm r c (r + 1) c
    let pm ← insert_when (r - 1 ≥ BOARD_9_PALACE_UP_TOP) cb pm r c (r - 1) c
    let pm ← insert_when (c + 1 ≤ BOARD_9_PALACE_UP_RIGHT) cb pm r c r (c + 1)
    let pm ← insert_when (c - 1 ≥ BOARD_9_PALACE_UP_LEFT) cb pm r c r (c - 1)
    -- check if both generals faced each other directly.
    scan_general_up cb r c SCAN_FUEL (r + 1) pm
  else if side = PS_DOWN then do
    let pm ← insert_when (r + 1 ≤ BOARD_9_PALACE_DOWN_BOTTOM) cb pm r c (r + 1) c
    let pm ← insert_when (r - 1 ≥ BOARD_9_PALACE_DOWN_TOP) cb pm r c (r - 1) c
    let pm ← insert_when (c + 1 ≤ BOARD_9_PALACE_DOWN_RIGHT) cb pm r c r (c + 1)
    let pm ← insert_when (c - 1 ≥ BOARD_9_PALACE_DOWN_LEFT) cb pm r c r (c - 1)
    scan_general_down cb r c SCAN_FUEL (r - 1) pm
  else
    some pm

/-- The values of `r` in `for (r = BOARD_ACTUAL_ROW_BEGIN; r < endRow; ++r)`. -/
def playableRows : List Int := [2, 3, 4, 5, 6, 7, 8, 9, 10, 11]

/-- The values of `c` in `for (c = BOARD_ACTUAL_COL_BEGIN; c < endCol; ++c)`. -/
def playableCols : List Int := [2, 3, 4, 5, 6, 7, 8, 9, 10]

/-- The body of the double loop of `gen_possible_moves` at cell `(r, c)`.

`gen_possible_moves_for_pawn` receives its vector by value (`PossibleMoves pm`, where the six
other generators take `PossibleMoves& pm`): it runs on a copy, and the caller's `pm` is
unchanged by the call. -/
def gen_possible_moves_cell (cb : ChessBoard) (side : PieceSide) (r c : Int)
    (pm : PossibleMoves) : Option PossibleMoves := do
  let p ← cb.get r c
  if piece_get_side p = side then
    match piece_get_type p with
    | PT_PAWN => do
      let _ ← gen_possible_moves_for_pawn cb pm r c side
      some pm
    | PT_CANNON => gen_possible_moves_for_cannon cb pm r c side
    | PT_ROOK => gen_possible_moves_for_rook cb pm r c side
    | PT_KNIGHT => gen_possible_moves_for_knight cb pm r c side
    | PT_BISHOP => gen_possible_moves_for_bishop cb pm r c side
    | PT_ADVISOR => gen_possible_moves_for_advisor cb pm r c side
    | PT_GENERAL => gen_possible_moves_for_general cb pm r c side
    | PT_EMPTY => some pm
    | PT_OUT => some pm
  else
    some pm

/-- The inner loop of `gen_possible_moves`, over the columns of row `r`. -/
def gen_possible_moves_row (cb : ChessBoard) (side : PieceSide) (r : Int) :
    List Int → PossibleMoves → Option PossibleMoves
  | [], pm => some pm
  | c :: cs, pm => do
    let pm ← gen_possible_moves_cell cb side r c pm
    gen_possible_moves_row cb side r cs pm

/-- The outer loop of `gen_possible_moves`, over the rows. -/
def gen_possible_moves_rows (cb : ChessBoard) (side : PieceSide) :
    List Int → PossibleMoves → Option PossibleMoves
  | [], pm => some pm
  | r :: rs, pm => do
    let pm ← gen_possible_moves_row cb side r playableCols pm
    gen_possible_moves_rows cb side rs pm

def gen_possible_moves (cb : ChessBoard) (side : PieceSide) : Option PossibleMoves :=
  gen_possible_moves_rows cb side playableRows []

/-! ## Evaluation -/

/-- The value an `int32_t` holds after an arithmetic result `x`: `x` reduced modulo `2^32`
into the range `-2^31 .. 2^31 - 1`. -/
def wrap_int32 (x : Int) : Int :=
  (x + 2147483648) % 4294967296 - 2147483648

/-- The inner loop of `board_calc_score`, over the columns of row `r`. The accumulator
`totalScore` is an `int32_t`: each `+=` is followed by `wrap_int32`. -/
def board_calc_score_row (V : ValueTables) (cb : ChessBoard) (r : Int) :
    List Int → Int → Option Int
  | [], totalScore => some totalScore
  | c :: cs, totalScore => do
    let p ← cb.get r c
    if p ≠ P_EE then
      let totalScore := wrap_int32 (totalScore + piece_get_value V p)
      let totalScore := wrap_int32 (totalScore +
        piece_get_pos_value V p (r - BOARD_ACTUAL_ROW_BEGIN) (c - BOARD_ACTUAL_COL_BEGIN))
      board_calc_score_row V cb r cs totalScore
    else
      board_calc_score_row V cb r cs totalScore

/-- The outer loop of `board_calc_score`, over the rows. -/
def board_calc_score_rows (V : ValueTables) (cb : ChessBoard) :
    List Int → Int → Option Int
  | [], totalScore => some totalScore
  | r :: rs, totalScore => do
    let totalScore ← board_calc_score_row V cb r playableCols totalScore
    board_calc_score_rows V cb rs totalScore

/-- Function `board_calc_score`, with its `int32_t` accumulator `totalScore` starting at 0. -/
def board_calc_score (V : ValueTables) (cb : ChessBoard) : Option Int :=
  board_calc_score_rows V cb playableRows 0

/-! ## Search -/

/-- The loop of the `PS_UP` branch of `min_max` over the remaining moves; `child` is the
recursive call `min_max(cb, searchDepth - 1, alpha, beta, PS_DOWN)`. -/
def min_max_loop_up (child : ChessBoard → Int → Int → Option (Int × ChessBoard)) :
    List MoveNode → ChessBoard → Int → Int → Int → Option (Int × ChessBoard)
  | [], cb, _, _, minValue => some (minValue, cb)
  | node :: rest, cb, alpha, beta, minValue => do
    let cb ← cb.move node
    let (minMaxValue, cb) ← child cb alpha beta
    let minValue := min minValue minMaxValue
    let cb ← cb.undo
    let beta := min beta minValue
    if alpha ≥ beta then
      some (minValue, cb)
    else
      min_max_loop_up child rest cb alpha beta minValue

/-- The loop of the `PS_DOWN` branch of `min_max` over the remaining moves; `child` is the
recursive call `min_max(cb, searchDepth - 1, alpha, beta, PS_UP)`. -/
def min_max_loop_down (child : ChessBoard → Int → Int → Option (Int × ChessBoard)) :
    List MoveNode → ChessBoard → Int → Int → Int → Option (Int × ChessBoard)
  | [], cb, _, _, maxValue => some (maxValue, cb)
  | node :: rest, cb, alpha, beta, maxValue => do
    let cb ← cb.move node
    let (minMaxValue, cb) ← child cb alpha beta
    let maxValue := max maxValue minMaxValue
    let cb ← cb.undo
    let alpha := max alpha maxValue
    if alpha ≥ beta then
      some (maxValue, cb)
    else
      min_max_loop_down child rest cb alpha beta maxValue

/-- Function `min_max`. The board is passed by reference in the source and is returned here
together with the value. `searchDepth` is a `uint8_t`; the recursion only ever decrements it
from a non-zero value. -/
def min_max (V : ValueTables) (cb : ChessBoard) (searchDepth : Nat) (alpha beta : Int)
    (side : PieceSide) : Option (Int × ChessBoard) :=
  match searchDepth with
  | 0 => do
    let score ← board_calc_score V cb
    some (score, cb)
  | d + 1 =>
    if side = PS_UP then do
      let minValue := INT32_MAX
      let possibleMoves ← gen_possible_moves cb PS_UP
      min_max_loop_up (fun cb alpha beta => min_max V cb d alpha beta PS_DOWN)
        possibleMoves cb alpha beta minValue
    else if side = PS_DOWN then do
      let maxValue := INT32_MIN
      let possibleMoves ← gen_possible_moves cb PS_DOWN
      min_max_loop_down (fun cb alpha beta => min_max V cb d alpha beta PS_UP)
        possibleMoves cb alpha beta maxValue
    else
      -- never need this, just for return value.
      some (0, cb)

/-- The loop of the `PS_UP` branch of `gen_best_move`. -/
def gen_best_move_loop_up (V : ValueTables) (searchDepth : Nat) (alpha beta : Int) :
    List MoveNode → ChessBoard → Int → MoveNode → Option (MoveNode × ChessBoard)
  | [], cb, _, bestMove => some (bestMove, cb)
  | node :: rest, cb, minValue, bestMove => do
    let cb ← cb.move node
    let (value, cb) ← min_max V cb searchDepth alpha beta PS_DOWN
    let cb ← cb.undo
    if value ≤ minValue then
      gen_best_move_loop_up V searchDepth alpha beta rest cb value node
    else
      gen_best_move_loop_up V searchDepth alpha beta rest cb minValue bestMove

/-- The loop of the `PS_DOWN` branch of `gen_best_move`. -/
def gen_best_move_loop_down (V : ValueTables) (searchDepth : Nat) (alpha beta : Int) :
    List MoveNode → ChessBoard → Int → MoveNode → Option (MoveNode × ChessBoard)
  | [], cb, _, bestMove => some (bestMove, cb)
  | node :: rest, cb, maxValue, bestMove => do
    let cb ← cb.move node
    let (value, cb) ← min_max V cb searchDepth alpha beta PS_UP
    let cb ← cb.undo
    if value ≥ maxValue then
      gen_best_move_loop_down V searchDepth alpha beta rest cb value node
    else
      gen_best_move_loop_down V searchDepth alpha beta rest cb maxValue bestMove

/-- Function `gen_best_move`, returning the move together with the board it leaves. -/
def gen_best_move (V : ValueTables) (cb : ChessBoard) (side : PieceSide) (searchDepth : Nat) :
    Option (MoveNode × ChessBoard) :=
  let alpha := INT32_MIN
  let beta := INT32_MAX
  let bestMove := MoveNode.zero
  if side = PS_UP then do
    let minValue := beta
    let possibleMoves ← gen_possible_moves cb PS_UP
    gen_best_move_loop_up V searchDepth alpha beta possibleMoves cb minValue bestMove
  else if side = PS_DOWN then do
    let maxValue := alpha
    let possibleMoves ← gen_possible_moves cb PS_DOWN
    gen_best_move_loop_down V searchDepth alpha beta possibleMoves cb maxValue bestMove
  else
    some (bestMove, cb)

/-! ## Winner check -/

/-- The inner loop of `check_winner` over the columns of a palace row: true when the general
`g` is met, at which point the loop breaks. -/
def palace_row_has (cb : ChessBoard) (g : Piece) (r : Int) : List Int → Option Bool
  | [] => some false
  | c :: cs => do
    let p ← cb.get r c
    if p = g then some true else palace_row_has cb g r cs

/-- The outer loop of `check_winner` over the rows of a palace; `alive` is the flag
(`upAlive` or `downAlive`) that the inner loop sets. -/
def palace_has (cb : ChessBoard) (g : Piece) (cols : List Int) :
    List Int → Bool → Option Bool
  | [], alive => some alive
  | r :: rs, alive => do
    let found ← palace_row_has cb g r cols
    palace_has cb g cols rs (alive || found)

/-- The values of `c` in the palace loops (both palaces span the same columns). -/
def palaceCols : List Int := [5, 6, 7]

/-- The values of `r` in the loop over the upper palace. -/
def palaceUpRows : List Int := [2, 3, 4]

/-- The values of `r` in the loop over the lower palace. -/
def palaceDownRows : List Int := [9, 10, 11]

def check_winner (cb : ChessBoard) : Option PieceSide := do
  let upAlive ← palace_has cb P_UG palaceCols palaceUpRows false
  let downAlive ← palace_has cb P_DG palaceCols palaceDownRows false
  if upAlive ∧ downAlive then
    some PS_EXTRA
  else if upAlive then
    some PS_UP
  else
    some PS_DOWN

/-! ## Legality check and move notation -/

/-- Function `check_rule`: `std::find` with `MoveNode::operator==` over the generated moves. -/
def check_rule (cb : ChessBoard) (moveNode : MoveNode) : Option Bool := do
  let p ← cb.get moveNode.beginRow moveNode.beginCol
  let pm ← gen_possible_moves cb (piece_get_side p)
  some (pm.contains moveNode)

/-- A `std::string`: its characters in order. A `char` is a Lean `Char`; the program only
compares and converts characters of the 7-bit range, where the signedness of `char` plays no
part. -/
abbrev StdString := List Char

/-- The conversion `static_cast<int32_t>(ch)`. -/
def char_to_int (ch : Char) : Int := ch.toNat

/-- The conversion `static_cast<char>(x)`: the value modulo 2^8. -/
def int_to_char (x : Int) : Char := Char.ofNat (x % 256).toNat

/-- Function `check_input_is_a_move`. Reading `input[i]` is defined when `i` is less than the
size. -/
def check_input_is_a_move (input : StdString) : Option Bool :=
  if input.length < 4 then
    some false
  else do
    let c0 ← input[0]?
    let c1 ← input[1]?
    let c2 ← input[2]?
    let c3 ← input[3]?
    some (decide (c0 ≥ 'a' ∧ c0 ≤ 'i') && decide (c1 ≥ '0' ∧ c1 ≤ '9') &&
      decide (c2 ≥ 'a' ∧ c2 ≤ 'i') && decide (c3 ≥ '0' ∧ c3 ≤ '9'))

/-- Function `convert_input_to_move`. -/
def convert_input_to_move (input : StdString) : Option MoveNode := do
  let c0 ← input[0]?
  let c1 ← input[1]?
  let c2 ← input[2]?
  let c3 ← input[3]?
  some
    { beginRow := 9 - (char_to_int c1 - char_to_int '0') + BOARD_ACTUAL_ROW_BEGIN
      beginCol := char_to_int c0 - char_to_int 'a' + BOARD_ACTUAL_COL_BEGIN
      endRow := 9 - (char_to_int c3 - char_to_int '0') + BOARD_ACTUAL_ROW_BEGIN
      endCol := char_to_int c2 - char_to_int 'a' + BOARD_ACTUAL_COL_BEGIN }

/-- Function `convert_move_to_str`. -/
def convert_move_to_str (move : MoveNode) : StdString :=
  [ int_to_char (move.beginCol - BOARD_ACTUAL_COL_BEGIN + char_to_int 'a'),
    int_to_char (9 - (move.beginRow - BOARD_ACTUAL_ROW_BEGIN) + char_to_int '0'),
    int_to_char (move.endCol - BOARD_ACTUAL_COL_BEGIN + char_to_int 'a'),
    int_to_char (9 - (move.endRow - BOARD_ACTUAL_ROW_BEGIN) + char_to_int '0') ]

/-! ## Definitions used in the statements -/

/-- The piece on a cell, for use in statements: `P_EO` where `get` is undefined. -/
def ChessBoard.cell (cb : ChessBoard) (r c : Int) : Piece :=
  (cb.get r c).getD P_EO

/-- Both ends of a move index the grid. -/
def MoveNode.inGrid (m : MoveNode) : Prop :=
  CnChess.inGrid m.beginRow m.beginCol ∧ CnChess.inGrid m.endRow m.endCol

instance (m : MoveNode) : Decidable m.inGrid := by
  unfold MoveNode.inGrid; infer_instance

/-- A move of `side` that the generator may emit: the begin cell holds a piece of `side`, the
end cell is on the board and does not hold a piece of `side`. -/
def PseudoLegal (cb : ChessBoard) (side : PieceSide) (m : MoveNode) : Prop :=
  ∃ bp ep, cb.get m.beginRow m.beginCol = some bp ∧ piece_get_side bp = side ∧
    cb.get m.endRow m.endCol = some ep ∧ ep ≠ P_EO ∧ piece_get_side ep ≠ side

/-- A pseudo-legal move of `side` that starts on `(r, c)`. -/
def CellMove (cb : ChessBoard) (side : PieceSide) (r c : Int) (m : MoveNode) : Prop :=
  m.beginRow = r ∧ m.beginCol = c ∧ PseudoLegal cb side m

/-- Whenever the step `f` succeeds, it has appended moves satisfying `P` and nothing else. -/
def Ext (P : MoveNode → Prop) (f : PossibleMoves → Option PossibleMoves) : Prop :=
  ∀ pm pm1, f pm = some pm1 → ∃ l, pm1 = pm ++ l ∧ ∀ m ∈ l, P m

/-- The step `f` succeeds on every input vector. -/
def Total (f : PossibleMoves → Option PossibleMoves) : Prop :=
  ∀ pm, ∃ pm1, f pm = some pm1

/-- The upper palace: rows 2..4, columns 5..7 of the grid. -/
def inUpperPalace (r c : Int) : Prop :=
  BOARD_9_PALACE_UP_TOP ≤ r ∧ r ≤ BOARD_9_PALACE_UP_BOTTOM ∧
    BOARD_9_PALACE_UP_LEFT ≤ c ∧ c ≤ BOARD_9_PALACE_UP_RIGHT

instance (r c : Int) : Decidable (inUpperPalace r c) := by
  unfold inUpperPalace; infer_instance

/-- The lower palace: rows 9..11, columns 5..7 of the grid. -/
def inLowerPalace (r c : Int) : Prop :=
  BOARD_9_PALACE_DOWN_TOP ≤ r ∧ r ≤ BOARD_9_PALACE_DOWN_BOTTOM ∧
    BOARD_9_PALACE_DOWN_LEFT ≤ c ∧ c ≤ BOARD_9_PALACE_DOWN_RIGHT

instance (r c : Int) : Decidable (inLowerPalace r c) := by
  unfold inLowerPalace; infer_instance

/-- The upper general `P_UG` stands on some cell of the upper palace. -/
def upperGeneralInPalace (cb : ChessBoard) : Prop :=
  ∃ r c, inUpperPalace r c ∧ cb.cell r c = P_UG

/-- The lower general `P_DG` stands on some cell of the lower palace. -/
def lowerGeneralInPalace (cb : ChessBoard) : Prop :=
  ∃ r c, inLowerPalace r c ∧ cb.cell r c = P_DG

/-- The playable area: rows 2..11 and columns 2..10 of the grid. -/
def playable (r c : Int) : Prop :=
  BOARD_ACTUAL_ROW_BEGIN ≤ r ∧ r < BOARD_ACTUAL_ROW_BEGIN + BOARD_ACTUAL_ROW_LEN ∧
    BOARD_ACTUAL_COL_BEGIN ≤ c ∧ c < BOARD_ACTUAL_COL_BEGIN + BOARD_ACTUAL_COL_LEN

instance (r c : Int) : Decidable (playable r c) := by
  unfold playable; infer_instance

/-- A well-formed board: every padding cell of the grid holds `P_EO`, every playable cell
holds a piece other than `P_EO`. -/
def WellFormed (cb : ChessBoard) : Prop :=
  ∀ i : Fin 14, ∀ j : Fin 13,
    if playable (i.val : Int) (j.val : Int) then (cb.data.get i).get j ≠ P_EO
    else (cb.data.get i).get j = P_EO

instance (cb : ChessBoard) : Decidable (WellFormed cb) := by
  unfold WellFormed; infer_instance

/-- The move comes from no pawn: the piece on its begin cell is not a pawn. -/
def NotFromPawn (cb : ChessBoard) (m : MoveNode) : Prop :=
  ∀ bp, cb.get m.beginRow m.beginCol = some bp → piece_get_type bp ≠ PT_PAWN

/-- The starting layout without the two pawns of the middle file, (5, 6) and (8, 6): the two
generals face each other along column 6 with nothing in between. -/
def facingGeneralsBoard : ChessBoard :=
  { data :=
      ⟨[ ⟨[P_EO, P_EO, P_EO, P_EO, P_EO, P_EO, P_EO, P_EO, P_EO, P_EO, P_EO, P_EO, P_EO], rfl⟩,
         ⟨[P_EO, P_EO, P_EO, P_EO, P_EO, P_EO, P_EO, P_EO, P_EO, P_EO, P_EO, P_EO, P_EO], rfl⟩,
         ⟨[P_EO, P_EO, P_UR, P_UN, P_UB, P_UA, P_UG, P_UA, P_UB, P_UN, P_UR, P_EO, P_EO], rfl⟩,
         ⟨[P_EO, P_EO, P_EE, P_EE, P_EE, P_EE, P_EE, P_EE, P_EE, P_EE, P_EE, P_EO, P_EO], rfl⟩,
         ⟨[P_EO, P_EO, P_EE, P_UC, P_EE, P_EE, P_EE, P_EE, P_EE, P_UC, P_EE, P_EO, P_EO], rfl⟩,
         ⟨[P_EO, P_EO, P_UP, P_EE, P_UP, P_EE, P_EE, P_EE, P_UP, P_EE, P_UP, P_EO, P_EO], rfl⟩,
         ⟨[P_EO, P_EO, P_EE, P_EE, P_EE, P_EE, P_EE, P_EE, P_EE, P_EE, P_EE, P_EO, P_EO], rfl⟩,
         ⟨[P_EO, P_EO, P_EE, P_EE, P_EE, P_EE, P_EE, P_EE, P_EE, P_EE, P_EE, P_EO, P_EO], rfl⟩,
         ⟨[P_EO, P_EO, P_DP, P_EE, P_DP, P_EE, P_EE, P_EE, P_DP, P_EE, P_DP, P_EO, P_EO], rfl⟩,
         ⟨[P_EO, P_EO, P_EE, P_DC, P_EE, P_EE, P_EE, P_EE, P_EE, P_DC, P_EE, P_EO, P_EO], rfl⟩,
         ⟨[P_EO, P_EO, P_EE, P_EE, P_EE, P_EE, P_EE, P_EE, P_EE, P_EE, P_EE, P_EO, P_EO], rfl⟩,
         ⟨[P_EO, P_EO, P_DR, P_DN, P_DB, P_DA, P_DG, P_DA, P_DB, P_DN, P_DR, P_EO, P_EO], rfl⟩,
         ⟨[P_EO, P_EO, P_EO, P_EO, P_EO, P_EO, P_EO, P_EO, P_EO, P_EO, P_EO, P_EO, P_EO], rfl⟩,
         ⟨[P_EO, P_EO, P_EO, P_EO, P_EO, P_EO, P_EO, P_EO, P_EO, P_EO, P_EO, P_EO, P_EO], rfl⟩ ],
        rfl⟩,
    history := [] }

/-- The four directions in which rooks and cannons scan. -/
def isUnitDir (rGap cGap : Int) : Prop :=
  (rGap = -1 ∧ cGap = 0) ∨ (rGap = 1 ∧ cGap = 0) ∨ (rGap = 0 ∧ cGap = -1) ∨
    (rGap = 0 ∧ cGap = 1)

/-- The move from `(r, c)` to the cell `k` steps away in direction `(rGap, cGap)`. -/
def rayMove (r c rGap cGap : Int) (k : Nat) : MoveNode :=
  ⟨r, c, r + k * rGap, c + k * cGap⟩

/-- The move ends on the ray from `(r, c)` in direction `(rGap, cGap)`, some `k` steps away
with `1 ≤ k ≤ 13`; further cells of the ray are outside the grid. -/
def onRay (r c rGap cGap : Int) (m : MoveNode) : Prop :=
  ∃ k ∈ List.range 14, 1 ≤ k ∧ m.endRow = r + (k : Int) * rGap ∧ m.endCol = c + (k : Int) * cGap

instance (r c rGap cGap : Int) (m : MoveNode) : Decidable (onRay r c rGap cGap m) := by
  unfold onRay; infer_instance

/-- The move starts on `(r, c)`. -/
def startsAt (r c : Int) (m : MoveNode) : Prop :=
  m.beginRow = r ∧ m.beginCol = c

instance (r c : Int) (m : MoveNode) : Decidable (startsAt r c m) := by
  unfold startsAt; infer_instance

/-- What the cannon on `(r, c)` of `side` may do along one ray, as a list of moves `L`.
The screen is the first cell of the ray that is not empty, `k0` steps away. `L` is made of
(i) one move to each of the `k0 - 1` empty cells before the screen, nearest first, followed by
(ii) `caps`: nothing when the screen is `P_EO`, the edge of the board; otherwise, with `k1` the
distance of the first cell beyond the screen that is not empty, the single move onto that cell
when it holds an enemy piece, and nothing when it does not. -/
def CannonRay (cb : ChessBoard) (side : PieceSide) (r c rGap cGap : Int)
    (L : List MoveNode) : Prop :=
  ∃ k0 : Nat, 1 ≤ k0 ∧
    (∀ i : Nat, 1 ≤ i → i < k0 → cb.cell (r + i * rGap) (c + i * cGap) = P_EE) ∧
    cb.cell (r + k0 * rGap) (c + k0 * cGap) ≠ P_EE ∧
    ∃ caps : List MoveNode,
      L = (List.range (k0 - 1)).map (fun i => rayMove r c rGap cGap (i + 1)) ++ caps ∧
      (cb.cell (r + k0 * rGap) (c + k0 * cGap) = P_EO → caps = []) ∧
      (cb.cell (r + k0 * rGap) (c + k0 * cGap) ≠ P_EO →
        ∃ k1 : Nat, k0 < k1 ∧
          (∀ i : Nat, k0 < i → i < k1 → cb.cell (r + i * rGap) (c + i * cGap) = P_EE) ∧
          cb.cell (r + k1 * rGap) (c + k1 * cGap) ≠ P_EE ∧
          caps = if piece_get_side (cb.cell (r + k1 * rGap) (c + k1 * cGap)) =
              piece_side_get_reverse side
            then [rayMove r c rGap cGap k1] else [])

/-- Every move of the list goes from `(r, c)` to a cell of the ray, at most ten steps away. -/
def AllOnRay (r c rGap cGap : Int) (L : List MoveNode) : Prop :=
  ∀ m ∈ L, ∃ k : Nat, 1 ≤ k ∧ k ≤ 10 ∧ m = rayMove r c rGap cGap k

/-! ### The reference search, written from the specification -/

/-- The values of the children of a node: `child` evaluated on the board after each move of
the list, in order. -/
def naive_values (child : ChessBoard → Option Int) (cb : ChessBoard) :
    List MoveNode → Option (List Int)
  | [] => some []
  | m :: ms => do
    let cb1 ← cb.move m
    let v ← child cb1
    let vs ← naive_values child cb ms
    some (v :: vs)

/-- The minimum of a list of values, or `dflt` when the list is empty. -/
def minimumOr (dflt : Int) : List Int → Int
  | [] => dflt
  | v :: vs => vs.foldl min v

/-- The maximum of a list of values, or `dflt` when the list is empty. -/
def maximumOr (dflt : Int) : List Int → Int
  | [] => dflt
  | v :: vs => vs.foldl max v

/-- The unpruned reference minimax of the specification: at depth 0 the score of the board;
for the upper side the minimum over the generated moves of the value of the board after the
move, one level less deep, for the lower side, or `INT32_MAX` when there is no move; for the
lower side the maximum, or `INT32_MIN`. It is not defined for `PS_EXTRA` at a positive
depth. -/
def naive (V : ValueTables) : Nat → ChessBoard → PieceSide → Option Int
  | 0, cb, _ => board_calc_score V cb
  | d + 1, cb, PS_UP => do
    let ms ← gen_possible_moves cb PS_UP
    let vs ← naive_values (fun cb1 => naive V d cb1 PS_DOWN) cb ms
    some (minimumOr INT32_MAX vs)
  | d + 1, cb, PS_DOWN => do
    let ms ← gen_possible_moves cb PS_DOWN
    let vs ← naive_values (fun cb1 => naive V d cb1 PS_UP) cb ms
    some (maximumOr INT32_MIN vs)
  | _ + 1, _, PS_EXTRA => none

/-- The scores of all boards fit in an `int32_t`. -/
def ScoresFitInt32 (V : ValueTables) : Prop :=
  ∀ cb s, board_calc_score V cb = some s → INT32_MIN ≤ s ∧ s ≤ INT32_MAX

/-- What a fail-soft alpha-beta search with window `(alpha, beta)` promises of the value `v`
it returns, `n` being the exact value: `v` is exact inside the window, an upper bound of `n`
at or below `alpha`, a lower bound of `n` at or above `beta`. -/
def FailSoft (alpha beta n v : Int) : Prop :=
  (v ≤ alpha → n ≤ v) ∧ (beta ≤ v → v ≤ n) ∧ (alpha < v → v < beta → v = n)

/-- Sample value tables, used in the instances only. They follow the sign convention of the
source's comment ("upper side piece's value is negative, down side is positive"): material
values, and a bonus of one point per row advanced for pawns. -/
def sampleTables : ValueTables where
  pieceValueMapping
    | P_UP => -30 | P_UC => -285 | P_UR => -600 | P_UN => -270
    | P_UB => -120 | P_UA => -120 | P_UG => -6000
    | P_DP => 30 | P_DC => 285 | P_DR => 600 | P_DN => 270
    | P_DB => 120 | P_DA => 120 | P_DG => 6000
    | P_EE => 0 | P_EO => 0
  piecePosValueMapping p r _ :=
    match p with
    | P_UP => if 0 ≤ r ∧ r ≤ 9 then -r else 0
    | P_DP => if 0 ≤ r ∧ r ≤ 9 then 9 - r else 0
    | _ => 0

/-- The value `gen_best_move` computes for the move `m`: that of
`min_max(board after m, searchDepth, INT32_MIN, INT32_MAX, side)`. -/
def childValue (V : ValueTables) (cb : ChessBoard) (searchDepth : Nat) (side : PieceSide)
    (m : MoveNode) : Option Int := do
  let cb1 ← cb.move m
  let (v, _) ← min_max V cb1 searchDepth INT32_MIN INT32_MAX side
  some v

/-- The moves the generator returns for the lower side on the starting board. -/
def lowerOpeningMoves : PossibleMoves :=
  (gen_possible_moves ChessBoard.new PS_DOWN).getD []

/-- What the cell `(r, c)` holding `p` adds to the score: nothing when empty, otherwise the
value of the piece plus its position value at row `r - 2`, column `c - 2` of the table. -/
def cell_score (V : ValueTables) (p : Piece) (r c : Int) : Int :=
  if p ≠ P_EE then piece_get_value V p + piece_get_pos_value V p (r - 2) (c - 2) else 0

/-- The sum of `cell_score` over the 90 playable cells, rows 2..11 and columns 2..10. -/
def score_sum (V : ValueTables) (cb : ChessBoard) : Int :=
  (playableRows.map (fun r =>
    (playableCols.map (fun c => cell_score V (cb.cell r c) r c)).sum)).sum

/-- What `check_possible_move_and_insert` appends for the move `(r, c) -> (r1, c1)`: the move
when the end cell is on the board and the two cells hold pieces of different sides, nothing
otherwise. -/
def insertList (cb : ChessBoard) (r c r1 c1 : Int) : List MoveNode :=
  if cb.cell r1 c1 ≠ P_EO ∧ piece_get_side (cb.cell r c) ≠ piece_get_side (cb.cell r1 c1) then
    [⟨r, c, r1, c1⟩]
  else []

/-- What one leg of the knight appends: the two moves over the leg `(lr, lc)`, each as
`insertList` has it, when the leg is empty; nothing otherwise. -/
def legList (cb : ChessBoard) (r c lr lc r1 c1 r2 c2 : Int) : List MoveNode :=
  if cb.cell lr lc = P_EE then insertList cb r c r1 c1 ++ insertList cb r c r2 c2 else []

/-- The offsets `(A, B)` of the eight knight moves, each with the offset `(la, lb)` of the leg
it passes over. -/
def KnightStep (A B la lb : Int) : Prop :=
  (A = 2 ∧ (B = 1 ∨ B = -1) ∧ la = 1 ∧ lb = 0) ∨
  (A = -2 ∧ (B = 1 ∨ B = -1) ∧ la = -1 ∧ lb = 0) ∨
  (B = 2 ∧ (A = 1 ∨ A = -1) ∧ la = 0 ∧ lb = 1) ∨
  (B = -2 ∧ (A = 1 ∨ A = -1) ∧ la = 0 ∧ lb = -1)

/-- The general of a side. -/
def generalOf : PieceSide → Piece
  | PS_UP => P_UG
  | PS_DOWN => P_DG
  | PS_EXTRA => P_EE

/-- The palace box of a side: the upper palace for `PS_UP`, the lower one for `PS_DOWN`. -/
def inPalace : PieceSide → Int → Int → Prop
  | PS_UP, r, c => inUpperPalace r c
  | PS_DOWN, r, c => inLowerPalace r c
  | PS_EXTRA, _, _ => False

/-- The move is one step up, down, left or right. -/
def oneStepOrthogonal (m : MoveNode) : Prop :=
  ((m.endRow = m.beginRow + 1 ∨ m.endRow = m.beginRow - 1) ∧ m.endCol = m.beginCol) ∨
  (m.endRow = m.beginRow ∧ (m.endCol = m.beginCol + 1 ∨ m.endCol = m.beginCol - 1))

/-- What `gen_possible_moves_for_general` may insert for the general of `side` on `(r, c)`:
a move onto the enemy general, or one of the four steps, each under the guard the source puts
on it, which looks at the one border of the palace that lies in the direction of the step. -/
def GeneralMove (cb : ChessBoard) (side : PieceSide) (r c : Int) (m : MoveNode) : Prop :=
  cb.cell m.endRow m.endCol = generalOf (piece_side_get_reverse side) ∨
  (side = PS_UP ∧
    ((r + 1 ≤ BOARD_9_PALACE_UP_BOTTOM ∧ m.endRow = r + 1 ∧ m.endCol = c) ∨
     (r - 1 ≥ BOARD_9_PALACE_UP_TOP ∧ m.endRow = r - 1 ∧ m.endCol = c) ∨
     (c + 1 ≤ BOARD_9_PALACE_UP_RIGHT ∧ m.endRow = r ∧ m.endCol = c + 1) ∨
     (c - 1 ≥ BOARD_9_PALACE_UP_LEFT ∧ m.endRow = r ∧ m.endCol = c - 1))) ∨
  (side = PS_DOWN ∧
    ((r + 1 ≤ BOARD_9_PALACE_DOWN_BOTTOM ∧ m.endRow = r + 1 ∧ m.endCol = c) ∨
     (r - 1 ≥ BOARD_9_PALACE_DOWN_TOP ∧ m.endRow = r - 1 ∧ m.endCol = c) ∨
     (c + 1 ≤ BOARD_9_PALACE_DOWN_RIGHT ∧ m.endRow = r ∧ m.endCol = c + 1) ∨
     (c - 1 ≥ BOARD_9_PALACE_DOWN_LEFT ∧ m.endRow = r ∧ m.endCol = c - 1)))

/-- The board that the upper general's flying capture (2, 6) -> (11, 6) leaves when played on
`facingGeneralsBoard`: the upper general stands on (11, 6), in the lower palace, and there is
no lower general. -/
def afterFlyingCaptureBoard : ChessBoard :=
  { data :=
      ⟨[ ⟨[P_EO, P_EO, P_EO, P_EO, P_EO, P_EO, P_EO, P_EO, P_EO, P_EO, P_EO, P_EO, P_EO], rfl⟩,
         ⟨[P_EO, P_EO, P_EO, P_EO, P_EO, P_EO, P_EO, P_EO, P_EO, P_EO, P_EO, P_EO, P_EO], rfl⟩,
         ⟨[P_EO, P_EO, P_UR, P_UN, P_UB, P_UA, P_EE, P_UA, P_UB, P_UN, P_UR, P_EO, P_EO], rfl⟩,
         ⟨[P_EO, P_EO, P_EE, P_EE, P_EE, P_EE, P_EE, P_EE, P_EE, P_EE, P_EE, P_EO, P_EO], rfl⟩,
         ⟨[P_EO, P_EO, P_EE, P_UC, P_EE, P_EE, P_EE, P_EE, P_EE, P_UC, P_EE, P_EO, P_EO], rfl⟩,
         ⟨[P_EO, P_EO, P_UP, P_EE, P_UP, P_EE, P_EE, P_EE, P_UP, P_EE, P_UP, P_EO, P_EO], rfl⟩,
         ⟨[P_EO, P_EO, P_EE, P_EE, P_EE, P_EE, P_EE, P_EE, P_EE, P_EE, P_EE, P_EO, P_EO], rfl⟩,
         ⟨[P_EO, P_EO, P_EE, P_EE, P_EE, P_EE, P_EE, P_EE, P_EE, P_EE, P_EE, P_EO, P_EO], rfl⟩,
         ⟨[P_EO, P_EO, P_DP, P_EE, P_DP, P_EE, P_EE, P_EE, P_DP, P_EE, P_DP, P_EO, P_EO], rfl⟩,
         ⟨[P_EO, P_EO, P_EE, P_DC, P_EE, P_EE, P_EE, P_EE, P_EE, P_DC, P_EE, P_EO, P_EO], rfl⟩,
         ⟨[P_EO, P_EO, P_EE, P_EE, P_EE, P_EE, P_EE, P_EE, P_EE, P_EE, P_EE, P_EO, P_EO], rfl⟩,
         ⟨[P_EO, P_EO, P_DR, P_DN, P_DB, P_DA, P_UG, P_DA, P_DB, P_DN, P_DR, P_EO, P_EO], rfl⟩,
         ⟨[P_EO, P_EO, P_EO, P_EO, P_EO, P_EO, P_EO, P_EO, P_EO, P_EO, P_EO, P_EO, P_EO], rfl⟩,
         ⟨[P_EO, P_EO, P_EO, P_EO, P_EO, P_EO, P_EO, P_EO, P_EO, P_EO, P_EO, P_EO, P_EO], rfl⟩ ],
        rfl⟩,
    history := [⟨⟨2, 6, 11, 6⟩, P_UG, P_DG⟩] }

instance (side : PieceSide) (r c : Int) : Decidable (inPalace side r c) := by
  cases side <;> unfold inPalace <;> infer_instance

/-- A board whose ninety playable cells are all empty: neither side has a piece to move. -/
def emptyBoard : ChessBoard :=
  { data :=
      ⟨[ ⟨[P_EO, P_EO, P_EO, P_EO, P_EO, P_EO, P_EO, P_EO, P_EO, P_EO, P_EO, P_EO, P_EO], rfl⟩,
         ⟨[P_EO, P_EO, P_EO, P_EO, P_EO, P_EO, P_EO, P_EO, P_EO, P_EO, P_EO, P_EO, P_EO], rfl⟩,
         ⟨[P_EO, P_EO, P_EE, P_EE, P_EE, P_EE, P_EE, P_EE, P_EE, P_EE, P_EE, P_EO, P_EO], rfl⟩,
         ⟨[P_EO, P_EO, P_EE, P_EE, P_EE, P_EE, P_EE, P_EE, P_EE, P_EE, P_EE, P_EO, P_EO], rfl⟩,
         ⟨[P_EO, P_EO, P_EE, P_EE, P_EE, P_EE, P_EE, P_EE, P_EE, P_EE, P_EE, P_EO, P_EO], rfl⟩,
         ⟨[P_EO, P_EO, P_EE, P_EE, P_EE, P_EE, P_EE, P_EE, P_EE, P_EE, P_EE, P_EO, P_EO], rfl⟩,
         ⟨[P_EO, P_EO, P_EE, P_EE, P_EE, P_EE, P_EE, P_EE, P_EE, P_EE, P_EE, P_EO, P_EO], rfl⟩,
         ⟨[P_EO, P_EO, P_EE, P_EE, P_EE, P_EE, P_EE, P_EE, P_EE, P_EE, P_EE, P_EO, P_EO], rfl⟩,
         ⟨[P_EO, P_EO, P_EE, P_EE, P_EE, P_EE, P_EE, P_EE, P_EE, P_EE, P_EE, P_EO, P_EO], rfl⟩,
         ⟨[P_EO, P_EO, P_EE, P_EE, P_EE, P_EE, P_EE, P_EE, P_EE, P_EE, P_EE, P_EO, P_EO], rfl⟩,
         ⟨[P_EO, P_EO, P_EE, P_EE, P_EE, P_EE, P_EE, P_EE, P_EE, P_EE, P_EE, P_EO, P_EO], rfl⟩,
         ⟨[P_EO, P_EO, P_EE, P_EE, P_EE, P_EE, P_EE, P_EE, P_EE, P_EE, P_EE, P_EO, P_EO], rfl⟩,
         ⟨[P_EO, P_EO, P_EO, P_EO, P_EO, P_EO, P_EO, P_EO, P_EO, P_EO, P_EO, P_EO, P_EO], rfl⟩,
         ⟨[P_EO, P_EO, P_EO, P_EO, P_EO, P_EO, P_EO, P_EO, P_EO, P_EO, P_EO, P_EO, P_EO], rfl⟩ ],
        rfl⟩,
    history := [] }

/-- What the rook on `(r, c)` of `side` may do along one ray whose first cell that is not
empty is `k0` steps away: one move to each of the `k0 - 1` empty cells before that cell,
nearest first, then the move onto that cell when it holds an enemy piece. -/
def rookRayList (cb : ChessBoard) (side : PieceSide) (r c rGap cGap : Int) (k0 : Nat) :
    List MoveNode :=
  (List.range (k0 - 1)).map (fun i => rayMove r c rGap cGap (i + 1)) ++
    (if piece_get_side (cb.cell (r + k0 * rGap) (c + k0 * cGap)) = piece_side_get_reverse side
      then [rayMove r c rGap cGap k0] else [])

/-- What `bishop_eye` appends: the move `(r, c) -> (r1, c1)`, as `insertList` has it, when the
eye `(er, ec)` is empty; nothing otherwise. -/
def eyeList (cb : ChessBoard) (r c er ec r1 c1 : Int) : List MoveNode :=
  if cb.cell er ec = P_EE then insertList cb r c r1 c1 else []

/-- What `insert_when` appends: the move `(r, c) -> (r1, c1)`, as `insertList` has it, when
the guard holds; nothing otherwise. -/
def guardList (cond : Prop) [Decidable cond] (cb : ChessBoard) (r c r1 c1 : Int) :
    List MoveNode :=
  if cond then insertList cb r c r1 c1 else []

/-- The row is on `side`'s own side of the river: rows up to `BOARD_RIVER_UP` for the upper
side, rows from `BOARD_RIVER_DOWN` for the lower side. -/
def onOwnSide : PieceSide → Int → Prop
  | PS_UP, r => r ≤ BOARD_RIVER_UP
  | PS_DOWN, r => r ≥ BOARD_RIVER_DOWN
  | PS_EXTRA, _ => False

instance (side : PieceSide) (r : Int) : Decidable (onOwnSide side r) := by
  cases side <;> unfold onOwnSide <;> infer_instance

/-- Row `r1` lies ahead of row `r` for `side`: further down the grid for the upper side, whose
general looks towards larger rows, further up for the lower side. -/
def aheadOf : PieceSide → Int → Int → Prop
  | PS_UP, r, r1 => r < r1
  | PS_DOWN, r, r1 => r1 < r
  | PS_EXTRA, _, _ => False

instance (side : PieceSide) (r r1 : Int) : Decidable (aheadOf side r r1) := by
  cases side <;> unfold aheadOf <;> infer_instance

/-! # Properties -/

/-! ## Reading and writing cells -/

theorem get_eq_cell (cb : ChessBoard) {r c : Int} (h : inGrid r c) :
    cb.get r c = some (cb.cell r c) := by
  simp [ChessBoard.cell, ChessBoard.get, h]

theorem get_eq_none (cb : ChessBoard) {r c : Int} (h : ¬ inGrid r c) :
    cb.get r c = none := by
  simp [ChessBoard.get, h]

theorem get_eq_some_iff (cb : ChessBoard) {r c : Int} {p : Piece} :
    cb.get r c = some p ↔ inGrid r c ∧ cb.cell r c = p := by
  by_cases h : inGrid r c
  · simp [get_eq_cell cb h, h]
  · simp [get_eq_none cb h, h]

theorem inGrid_of_get {cb : ChessBoard} {r c : Int} {p : Piece} (h : cb.get r c = some p) :
    inGrid r c :=
  ((get_eq_some_iff cb).mp h).1

theorem set_spec (cb : ChessBoard) {r c : Int} (p : Piece) (h : inGrid r c) :
    ∃ cb1, cb.set r c p = some cb1 ∧ cb1.history = cb.history ∧
      ∀ r1 c1, cb1.get r1 c1 = if r1 = r ∧ c1 = c then some p else cb.get r1 c1 := by
  refine ⟨ChessBoard.mk (cb.data.set ⟨r.toNat, inGrid_row h⟩
    ((cb.data.get ⟨r.toNat, inGrid_row h⟩).set ⟨c.toNat, inGrid_col h⟩ p)) cb.history, ?_, rfl, ?_⟩
  · simp only [ChessBoard.set, h, dite_true]
  intro r1 c1
  by_cases h1 : inGrid r1 c1
  · simp only [ChessBoard.get, h1, dite_true]
    have hr : (⟨r1.toNat, inGrid_row h1⟩ : Fin 14) = ⟨r.toNat, inGrid_row h⟩ ↔ r1 = r := by
      unfold inGrid at h h1; simp only [Fin.mk.injEq]; omega
    have hc : (⟨c1.toNat, inGrid_col h1⟩ : Fin 13) = ⟨c.toNat, inGrid_col h⟩ ↔ c1 = c := by
      unfold inGrid at h h1; simp only [Fin.mk.injEq]; omega
    by_cases e1 : r1 = r
    · subst e1
      by_cases e2 : c1 = c
      · subst e2
        simp [Mathlib.Vector.get_set_same]
      · have : (⟨c.toNat, inGrid_col h⟩ : Fin 13) ≠ ⟨c1.toNat, inGrid_col h1⟩ :=
          fun e => e2 (hc.mp e.symm)
        simp [Mathlib.Vector.get_set_same, Mathlib.Vector.get_set_of_ne this, e2]
    · have : (⟨r.toNat, inGrid_row h⟩ : Fin 14) ≠ ⟨r1.toNat, inGrid_row h1⟩ :=
        fun e => e1 (hr.mp e.symm)
      simp [Mathlib.Vector.get_set_of_ne this, e1]
  · have : ¬ (r1 = r ∧ c1 = c) := by
      rintro ⟨rfl, rfl⟩; exact h1 h
    simp [ChessBoard.get, h1, this]

theorem board_ext {a b : ChessBoard} (hh : a.history = b.history)
    (hg : ∀ r c, inGrid r c → a.get r c = b.get r c) : a = b := by
  cases a with
  | mk da ha =>
  cases b with
  | mk db hb =>
  simp only at hh
  subst hh
  congr 1
  apply Mathlib.Vector.ext
  intro i
  apply Mathlib.Vector.ext
  intro j
  have hij : inGrid (i.val : Int) (j.val : Int) := by
    unfold inGrid BOARD_ROW_LEN BOARD_COL_LEN; omega
  have := hg i.val j.val hij
  simpa [ChessBoard.get, hij] using this

/-! ## Move and undo -/

theorem move_spec (cb : ChessBoard) (m : MoveNode) (h : m.inGrid) :
    ∃ cb1, cb.move m = some cb1 ∧
      cb1.history = cb.history ++
        [⟨m, cb.cell m.beginRow m.beginCol, cb.cell m.endRow m.endCol⟩] ∧
      ∀ r c, cb1.get r c =
        if r = m.endRow ∧ c = m.endCol then some (cb.cell m.beginRow m.beginCol)
        else if r = m.beginRow ∧ c = m.beginCol then some P_EE
        else cb.get r c := by
  obtain ⟨hb, he⟩ := h
  obtain ⟨cb2, h2, hh2, hg2⟩ := set_spec
    { cb with history := cb.history ++
        [⟨m, cb.cell m.beginRow m.beginCol, cb.cell m.endRow m.endCol⟩] } P_EE hb
  obtain ⟨cb3, h3, hh3, hg3⟩ := set_spec cb2 (cb.cell m.beginRow m.beginCol) he
  refine ⟨cb3, ?_, by rw [hh3, hh2], ?_⟩
  · simp only [ChessBoard.move, get_eq_cell cb hb, get_eq_cell cb he, Option.bind_eq_bind,
      Option.some_bind, h2, h3]
  · intro r c
    rw [hg3, hg2]
    rfl

theorem undo_spec (cb : ChessBoard) (hs : List HistoryNode) (node : HistoryNode)
    (hh : cb.history = hs ++ [node]) (h : node.move.inGrid) :
    ∃ cb1, cb.undo = some cb1 ∧ cb1.history = hs ∧
      ∀ r c, cb1.get r c =
        if r = node.move.endRow ∧ c = node.move.endCol then some node.endPiece
        else if r = node.move.beginRow ∧ c = node.move.beginCol then some node.beginPiece
        else cb.get r c := by
  obtain ⟨hb, he⟩ := h
  obtain ⟨cb2, h2, hh2, hg2⟩ := set_spec cb node.beginPiece hb
  obtain ⟨cb3, h3, hh3, hg3⟩ := set_spec cb2 node.endPiece he
  refine ⟨{ cb3 with history := cb3.history.dropLast }, ?_, ?_, ?_⟩
  · have hl : cb.history.getLast? = some node := by simp [hh]
    simp only [ChessBoard.undo, hl, Option.bind_eq_bind, Option.some_bind, h2, h3]
  · simp [hh3, hh2, hh]
  · intro r c
    show cb3.get r c = _
    rw [hg3, hg2]

theorem move_undo (cb : ChessBoard) (m : MoveNode) (h : m.inGrid) :
    (cb.move m).bind ChessBoard.undo = some cb := by
  obtain ⟨cb1, h1, hh1, hg1⟩ := move_spec cb m h
  obtain ⟨cb2, h2, hh2, hg2⟩ := undo_spec cb1 _ _ hh1 h
  rw [h1, Option.some_bind, h2]
  congr 1
  apply board_ext hh2
  intro r c hrc
  rw [hg2, hg1]
  simp only
  by_cases e1 : r = m.endRow ∧ c = m.endCol
  · rw [if_pos e1, e1.1, e1.2, get_eq_cell cb h.2]
  · rw [if_neg e1]
    by_cases e2 : r = m.beginRow ∧ c = m.beginCol
    · rw [if_pos e2, e2.1, e2.2, get_eq_cell cb h.1]
    · rw [if_neg e2, if_neg e1, if_neg e2]

/-! ## Steps of the generator: what they append -/

theorem Ext_pure {P : MoveNode → Prop} : Ext P (fun pm => some pm) := by
  intro pm pm1 h
  exact ⟨[], by simpa using (Option.some.inj h).symm, by simp⟩

theorem Ext_push {P : MoveNode → Prop} (m : MoveNode) (h : P m) :
    Ext P (fun pm => some (pm ++ [m])) := by
  intro pm pm1 e
  exact ⟨[m], (Option.some.inj e).symm, by simpa using h⟩

theorem Ext_bind {P : MoveNode → Prop} {f g : PossibleMoves → Option PossibleMoves}
    (hf : Ext P f) (hg : Ext P g) : Ext P (fun pm => (f pm).bind g) := by
  intro pm pm2 h
  cases hfp : f pm with
  | none => simp [hfp] at h
  | some pm1 =>
    simp only [hfp, Option.some_bind] at h
    obtain ⟨l1, e1, p1⟩ := hf pm pm1 hfp
    obtain ⟨l2, e2, p2⟩ := hg pm1 pm2 h
    refine ⟨l1 ++ l2, by rw [e2, e1, List.append_assoc], ?_⟩
    intro m hm
    rcases List.mem_append.mp hm with h1 | h1
    · exact p1 m h1
    · exact p2 m h1

theorem Ext_ite {P : MoveNode → Prop} {f g : PossibleMoves → Option PossibleMoves}
    (cond : Prop) [Decidable cond] (hf : cond → Ext P f) (hg : ¬ cond → Ext P g) :
    Ext P (fun pm => if cond then f pm else g pm) := by
  by_cases hc : cond
  · simpa [hc] using hf hc
  · simpa [hc] using hg hc

theorem Ext_read {P : MoveNode → Prop} (cb : ChessBoard) (r c : Int)
    {F : Piece → PossibleMoves → Option PossibleMoves}
    (h : ∀ p, cb.get r c = some p → Ext P (F p)) :
    Ext P (fun pm => (cb.get r c).bind (fun p => F p pm)) := by
  intro pm pm1 e
  cases hp : cb.get r c with
  | none => simp [hp] at e
  | some p =>
    simp only [hp, Option.some_bind] at e
    exact h p hp pm pm1 e

theorem Ext_mono {P Q : MoveNode → Prop} {f : PossibleMoves → Option PossibleMoves}
    (hPQ : ∀ m, P m → Q m) (hf : Ext P f) : Ext Q f := by
  intro pm pm1 e
  obtain ⟨l, el, pl⟩ := hf pm pm1 e
  exact ⟨l, el, fun m hm => hPQ m (pl m hm)⟩

theorem check_possible_move_and_insert_ext (cb : ChessBoard) (side : PieceSide)
    {r c : Int} {bp : Piece} (hb : cb.get r c = some bp) (hs : piece_get_side bp = side)
    (r1 c1 : Int) :
    Ext (CellMove cb side r c) (fun pm => check_possible_move_and_insert cb pm r c r1 c1) := by
  unfold check_possible_move_and_insert
  simp only [hb, Option.bind_eq_bind, Option.some_bind]
  refine Ext_read cb r1 c1 (fun ep he => ?_)
  refine Ext_ite _ (fun hc => ?_) (fun _ => Ext_pure)
  refine Ext_push _ ⟨rfl, rfl, bp, ep, hb, hs, he, hc.1, ?_⟩
  rw [← hs]
  exact fun e => hc.2 e.symm

theorem insert_when_ext (cond : Prop) [Decidable cond] (cb : ChessBoard) (side : PieceSide)
    {r c : Int} {bp : Piece} (hb : cb.get r c = some bp) (hs : piece_get_side bp = side)
    (r1 c1 : Int) :
    Ext (CellMove cb side r c) (fun pm => insert_when cond cb pm r c r1 c1) := by
  unfold insert_when
  exact Ext_ite _ (fun _ => check_possible_move_and_insert_ext cb side hb hs r1 c1)
    (fun _ => Ext_pure)

theorem knight_leg_ext (cb : ChessBoard) (side : PieceSide)
    {r c : Int} {bp : Piece} (hb : cb.get r c = some bp) (hs : piece_get_side bp = side)
    (lr lc r1 c1 r2 c2 : Int) :
    Ext (CellMove cb side r c) (fun pm => knight_leg cb pm r c lr lc r1 c1 r2 c2) := by
  unfold knight_leg
  refine Ext_read cb lr lc (fun p _ => ?_)
  refine Ext_ite _ (fun _ => ?_) (fun _ => Ext_pure)
  exact Ext_bind (check_possible_move_and_insert_ext cb side hb hs r1 c1)
    (check_possible_move_and_insert_ext cb side hb hs r2 c2)

theorem gen_possible_moves_for_knight_ext (cb : ChessBoard) (side : PieceSide)
    {r c : Int} {bp : Piece} (hb : cb.get r c = some bp) (hs : piece_get_side bp = side) :
    Ext (CellMove cb side r c) (fun pm => gen_possible_moves_for_knight cb pm r c side) := by
  unfold gen_possible_moves_for_knight
  exact Ext_bind (knight_leg_ext cb side hb hs _ _ _ _ _ _)
    (Ext_bind (knight_leg_ext cb side hb hs _ _ _ _ _ _)
      (Ext_bind (knight_leg_ext cb side hb hs _ _ _ _ _ _)
        (knight_leg_ext cb side hb hs _ _ _ _ _ _)))

theorem bishop_eye_ext (cb : ChessBoard) (side : PieceSide)
    {r c : Int} {bp : Piece} (hb : cb.get r c = some bp) (hs : piece_get_side bp = side)
    (er ec r1 c1 : Int) :
    Ext (CellMove cb side r c) (fun pm => bishop_eye cb pm r c er ec r1 c1) := by
  unfold bishop_eye
  refine Ext_read cb er ec (fun p _ => ?_)
  exact Ext_ite _ (fun _ => check_possible_move_and_insert_ext cb side hb hs r1 c1)
    (fun _ => Ext_pure)

theorem gen_possible_moves_for_bishop_ext (cb : ChessBoard) (side : PieceSide)
    {r c : Int} {bp : Piece} (hb : cb.get r c = some bp) (hs : piece_get_side bp = side) :
    Ext (CellMove cb side r c) (fun pm => gen_possible_moves_for_bishop cb pm r c side) := by
  unfold gen_possible_moves_for_bishop
  refine Ext_ite _ (fun _ => ?_) (fun _ => Ext_ite _ (fun _ => ?_) (fun _ => Ext_pure))
  · refine Ext_bind (Ext_ite _ (fun _ => ?_) (fun _ => Ext_pure)) ?_
    · exact Ext_bind (bishop_eye_ext cb side hb hs _ _ _ _) (bishop_eye_ext cb side hb hs _ _ _ _)
    · exact Ext_bind (bishop_eye_ext cb side hb hs _ _ _ _) (bishop_eye_ext cb side hb hs _ _ _ _)
  · refine Ext_bind (Ext_ite _ (fun _ => ?_) (fun _ => Ext_pure)) ?_
    · exact Ext_bind (bishop_eye_ext cb side hb hs _ _ _ _) (bishop_eye_ext cb side hb hs _ _ _ _)
    · exact Ext_bind (bishop_eye_ext cb side hb hs _ _ _ _) (bishop_eye_ext cb side hb hs _ _ _ _)

theorem gen_possible_moves_for_advisor_ext (cb : ChessBoard) (side : PieceSide)
    {r c : Int} {bp : Piece} (hb : cb.get r c = some bp) (hs : piece_get_side bp = side) :
    Ext (CellMove cb side r c) (fun pm => gen_possible_moves_for_advisor cb pm r c side) := by
  unfold gen_possible_moves_for_advisor
  refine Ext_ite _ (fun _ => ?_) (fun _ => Ext_ite _ (fun _ => ?_) (fun _ => Ext_pure))
  · exact Ext_bind (insert_when_ext _ cb side hb hs _ _)
      (Ext_bind (insert_when_ext _ cb side hb hs _ _)
        (Ext_bind (insert_when_ext _ cb side hb hs _ _) (insert_when_ext _ cb side hb hs _ _)))
  · exact Ext_bind (insert_when_ext _ cb side hb hs _ _)
      (Ext_bind (insert_when_ext _ cb side hb hs _ _)
        (Ext_bind (insert_when_ext _ cb side hb hs _ _) (insert_when_ext _ cb side hb hs _ _)))

theorem scan_general_up_ext (cb : ChessBoard)
    {r c : Int} {bp : Piece} (hb : cb.get r c = some bp) (hs : piece_get_side bp = PS_UP)
    (fuel : Nat) (row : Int) :
    Ext (CellMove cb PS_UP r c) (fun pm => scan_general_up cb r c fuel row pm) := by
  induction fuel generalizing row with
  | zero => intro pm pm1 h; simp [scan_general_up] at h
  | succ n ih =>
    unfold scan_general_up
    refine Ext_ite _ (fun _ => ?_) (fun _ => Ext_pure)
    refine Ext_read cb row c (fun p hp => ?_)
    refine Ext_ite _ (fun _ => ih (row + 1)) (fun _ => ?_)
    refine Ext_ite _ (fun e => ?_) (fun _ => Ext_pure)
    subst e
    exact Ext_push _ ⟨rfl, rfl, bp, P_DG, hb, hs, hp, by decide, by decide⟩

theorem scan_general_down_ext (cb : ChessBoard)
    {r c : Int} {bp : Piece} (hb : cb.get r c = some bp) (hs : piece_get_side bp = PS_DOWN)
    (fuel : Nat) (row : Int) :
    Ext (CellMove cb PS_DOWN r c) (fun pm => scan_general_down cb r c fuel row pm) := by
  induction fuel generalizing row with
  | zero => intro pm pm1 h; simp [scan_general_down] at h
  | succ n ih =>
    unfold scan_general_down
    refine Ext_ite _ (fun _ => ?_) (fun _ => Ext_pure)
    refine Ext_read cb row c (fun p hp => ?_)
    refine Ext_ite _ (fun _ => ih (row - 1)) (fun _ => ?_)
    refine Ext_ite _ (fun e => ?_) (fun _ => Ext_pure)
    subst e
    exact Ext_push _ ⟨rfl, rfl, bp, P_UG, hb, hs, hp, by decide, by decide⟩

theorem gen_possible_moves_for_general_ext (cb : ChessBoard) (side : PieceSide)
    {r c : Int} {bp : Piece} (hb : cb.get r c = some bp) (hs : piece_get_side bp = side) :
    Ext (CellMove cb side r c) (fun pm => gen_possible_moves_for_general cb pm r c side) := by
  unfold gen_possible_moves_for_general
  refine Ext_ite _ (fun e => ?_) (fun _ => Ext_ite _ (fun e => ?_) (fun _ => Ext_pure))
  · subst e
    exact Ext_bind (insert_when_ext _ cb _ hb hs _ _)
      (Ext_bind (insert_when_ext _ cb _ hb hs _ _)
        (Ext_bind (insert_when_ext _ cb _ hb hs _ _)
          (Ext_bind (insert_when_ext _ cb _ hb hs _ _) (scan_general_up_ext cb hb hs _ _))))
  · subst e
    exact Ext_bind (insert_when_ext _ cb _ hb hs _ _)
      (Ext_bind (insert_when_ext _ cb _ hb hs _ _)
        (Ext_bind (insert_when_ext _ cb _ hb hs _ _)
          (Ext_bind (insert_when_ext _ cb _ hb hs _ _) (scan_general_down_ext cb hb hs _ _))))

/-- What the first loop of a ray scan returns: the moves it appended go to empty cells, and
it stopped on a cell that is not empty. -/
theorem scan_empty_cells_ext (cb : ChessBoard) (r c rGap cGap : Int) (fuel : Nat) :
    ∀ (row col : Int) (pm : PossibleMoves) (row1 col1 : Int) (p : Piece) (pm1 : PossibleMoves),
      scan_empty_cells cb r c rGap cGap fuel row col pm = some (row1, col1, p, pm1) →
      (∃ l, pm1 = pm ++ l ∧
        ∀ m ∈ l, m.beginRow = r ∧ m.beginCol = c ∧ cb.get m.endRow m.endCol = some P_EE) ∧
      cb.get row1 col1 = some p ∧ p ≠ P_EE := by
  induction fuel with
  | zero => intro row col pm row1 col1 p pm1 h; simp [scan_empty_cells] at h
  | succ n ih =>
    intro row col pm row1 col1 p pm1 h
    unfold scan_empty_cells at h
    cases hq : cb.get row col with
    | none => simp [hq] at h
    | some q =>
      simp only [hq, Option.bind_eq_bind, Option.some_bind] at h
      by_cases e : q = P_EE
      · simp only [e, if_true] at h
        obtain ⟨⟨l, el, pl⟩, hstop⟩ := ih _ _ _ _ _ _ _ h
        refine ⟨⟨⟨r, c, row, col⟩ :: l, by simp [el], ?_⟩, hstop⟩
        intro m hm
        rcases List.mem_cons.mp hm with rfl | hm
        · exact ⟨rfl, rfl, by rw [← e]; exact hq⟩
        · exact pl m hm
      · simp only [e, if_false, Option.some.injEq, Prod.mk.injEq] at h
        obtain ⟨rfl, rfl, rfl, rfl⟩ := h
        exact ⟨⟨[], by simp, by simp⟩, hq, e⟩

theorem scan_cannon_target_ext (cb : ChessBoard) (side : PieceSide)
    {r c : Int} {bp : Piece} (hb : cb.get r c = some bp) (hs : piece_get_side bp = side)
    (hx : side ≠ PS_EXTRA) (rGap cGap : Int) (fuel : Nat) (row col : Int) :
    Ext (CellMove cb side r c)
      (fun pm => scan_cannon_target cb r c rGap cGap side fuel row col pm) := by
  induction fuel generalizing row col with
  | zero => intro pm pm1 h; simp [scan_cannon_target] at h
  | succ n ih =>
    unfold scan_cannon_target
    refine Ext_read cb row col (fun p hp => ?_)
    refine Ext_ite _ (fun _ => ih _ _) (fun _ => ?_)
    refine Ext_ite _ (fun e => ?_) (fun _ => Ext_pure)
    refine Ext_push _ ⟨rfl, rfl, bp, p, hb, hs, hp, ?_, ?_⟩
    · rintro rfl
      cases side <;> simp [piece_get_side, piece_side_get_reverse] at e hx
    · rw [e]
      cases side <;> simp [piece_side_get_reverse] at hx ⊢

theorem empty_cell_move (cb : ChessBoard) (side : PieceSide)
    {r c : Int} {bp : Piece} (hb : cb.get r c = some bp) (hs : piece_get_side bp = side)
    (hx : side ≠ PS_EXTRA) {m : MoveNode}
    (hm : m.beginRow = r ∧ m.beginCol = c ∧ cb.get m.endRow m.endCol = some P_EE) :
    CellMove cb side r c m := by
  obtain ⟨h1, h2, h3⟩ := hm
  refine ⟨h1, h2, bp, P_EE, by rw [h1, h2]; exact hb, hs, h3, by decide, ?_⟩
  intro e
  exact hx (by rw [← e]; rfl)

theorem gen_possible_moves_for_cannon_one_direction_ext (cb : ChessBoard) (side : PieceSide)
    {r c : Int} {bp : Piece} (hb : cb.get r c = some bp) (hs : piece_get_side bp = side)
    (hx : side ≠ PS_EXTRA) (rGap cGap : Int) :
    Ext (CellMove cb side r c)
      (fun pm => gen_possible_moves_for_cannon_one_direction cb pm r c rGap cGap side) := by
  intro pm pm2 h
  unfold gen_possible_moves_for_cannon_one_direction at h
  cases h1 : scan_empty_cells cb r c rGap cGap SCAN_FUEL (r + rGap) (c + cGap) pm with
  | none => simp [h1] at h
  | some res =>
    obtain ⟨row1, col1, p, pm1⟩ := res
    simp only [h1, Option.bind_eq_bind, Option.some_bind] at h
    obtain ⟨⟨l1, e1, p1⟩, _⟩ := scan_empty_cells_ext cb r c rGap cGap _ _ _ _ _ _ _ _ h1
    have hl1 : ∀ m ∈ l1, CellMove cb side r c m :=
      fun m hm => empty_cell_move cb side hb hs hx (p1 m hm)
    by_cases hp : p ≠ P_EO
    · rw [if_pos hp] at h
      obtain ⟨l2, e2, p2⟩ := scan_cannon_target_ext cb side hb hs hx rGap cGap _ _ _ pm1 pm2 h
      refine ⟨l1 ++ l2, by rw [e2, e1, List.append_assoc], ?_⟩
      intro m hm
      rcases List.mem_append.mp hm with hm | hm
      · exact hl1 m hm
      · exact p2 m hm
    · rw [if_neg hp, Option.some.injEq] at h
      exact ⟨l1, by rw [← h, e1], hl1⟩

theorem gen_possible_moves_for_cannon_ext (cb : ChessBoard) (side : PieceSide)
    {r c : Int} {bp : Piece} (hb : cb.get r c = some bp) (hs : piece_get_side bp = side)
    (hx : side ≠ PS_EXTRA) :
    Ext (CellMove cb side r c) (fun pm => gen_possible_moves_for_cannon cb pm r c side) := by
  unfold gen_possible_moves_for_cannon
  exact Ext_bind (gen_possible_moves_for_cannon_one_direction_ext cb side hb hs hx _ _)
    (Ext_bind (gen_possible_moves_for_cannon_one_direction_ext cb side hb hs hx _ _)
      (Ext_bind (gen_possible_moves_for_cannon_one_direction_ext cb side hb hs hx _ _)
        (gen_possible_moves_for_cannon_one_direction_ext cb side hb hs hx _ _)))

theorem gen_possible_moves_for_rook_one_direction_ext (cb : ChessBoard) (side : PieceSide)
    {r c : Int} {bp : Piece} (hb : cb.get r c = some bp) (hs : piece_get_side bp = side)
    (hx : side ≠ PS_EXTRA) (rGap cGap : Int) :
    Ext (CellMove cb side r c)
      (fun pm => gen_possible_moves_for_rook_one_direction cb pm r c rGap cGap side) := by
  intro pm pm2 h
  unfold gen_possible_moves_for_rook_one_direction at h
  cases h1 : scan_empty_cells cb r c rGap cGap SCAN_FUEL (r + rGap) (c + cGap) pm with
  | none => simp [h1] at h
  | some res =>
    obtain ⟨row1, col1, p, pm1⟩ := res
    simp only [h1, Option.bind_eq_bind, Option.some_bind] at h
    obtain ⟨⟨l1, e1, p1⟩, hstop, _⟩ := scan_empty_cells_ext cb r c rGap cGap _ _ _ _ _ _ _ _ h1
    have hl1 : ∀ m ∈ l1, CellMove cb side r c m :=
      fun m hm => empty_cell_move cb side hb hs hx (p1 m hm)
    by_cases hp : piece_get_side p = piece_side_get_reverse side
    · simp only [hp, if_true, Option.some.injEq] at h
      refine ⟨l1 ++ [⟨r, c, row1, col1⟩], by rw [← h, e1, List.append_assoc], ?_⟩
      intro m hm
      rcases List.mem_append.mp hm with hm | hm
      · exact hl1 m hm
      · rw [List.mem_singleton] at hm
        subst hm
        refine ⟨rfl, rfl, bp, p, hb, hs, hstop, ?_, ?_⟩
        · rintro rfl
          cases side <;> simp [piece_get_side, piece_side_get_reverse] at hp hx
        · rw [hp]
          cases side <;> simp [piece_side_get_reverse] at hx ⊢
    · simp only [hp, if_false, Option.some.injEq] at h
      exact ⟨l1, by rw [← h, e1], hl1⟩

theorem gen_possible_moves_for_rook_ext (cb : ChessBoard) (side : PieceSide)
    {r c : Int} {bp : Piece} (hb : cb.get r c = some bp) (hs : piece_get_side bp = side)
    (hx : side ≠ PS_EXTRA) :
    Ext (CellMove cb side r c) (fun pm => gen_possible_moves_for_rook cb pm r c side) := by
  unfold gen_possible_moves_for_rook
  exact Ext_bind (gen_possible_moves_for_rook_one_direction_ext cb side hb hs hx _ _)
    (Ext_bind (gen_possible_moves_for_rook_one_direction_ext cb side hb hs hx _ _)
      (Ext_bind (gen_possible_moves_for_rook_one_direction_ext cb side hb hs hx _ _)
        (gen_possible_moves_for_rook_one_direction_ext cb side hb hs hx _ _)))

theorem Ext_discard {P : MoveNode → Prop} (g : PossibleMoves → Option PossibleMoves) :
    Ext P (fun pm => (g pm).bind (fun _ => some pm)) := by
  intro pm pm1 h
  cases hg : g pm with
  | none => simp [hg] at h
  | some x =>
    simp only [hg, Option.some_bind, Option.some.injEq] at h
    exact ⟨[], by simp [h], by simp⟩

theorem gen_possible_moves_cell_ext (cb : ChessBoard) (side : PieceSide) (r c : Int) :
    Ext (fun m => CellMove cb side r c m ∧ NotFromPawn cb m)
      (gen_possible_moves_cell cb side r c) := by
  unfold gen_possible_moves_cell
  refine Ext_read cb r c (fun p hp => ?_)
  refine Ext_ite _ (fun hs => ?_) (fun _ => Ext_pure)
  have hx : piece_get_type p ≠ PT_EMPTY → piece_get_type p ≠ PT_OUT → side ≠ PS_EXTRA := by
    rw [← hs]; cases p <;> simp [piece_get_type, piece_get_side]
  have hnp : piece_get_type p ≠ PT_PAWN →
      ∀ m, CellMove cb side r c m → CellMove cb side r c m ∧ NotFromPawn cb m := by
    intro ht m hm
    refine ⟨hm, fun bp hbp => ?_⟩
    rw [hm.1, hm.2.1, hp] at hbp
    rw [← Option.some.inj hbp]
    exact ht
  cases ht : piece_get_type p <;> simp only [ht] at hx hnp ⊢
  · exact Ext_discard _
  · exact Ext_mono (hnp (by decide))
      (gen_possible_moves_for_cannon_ext cb side hp hs (hx (by decide) (by decide)))
  · exact Ext_mono (hnp (by decide))
      (gen_possible_moves_for_rook_ext cb side hp hs (hx (by decide) (by decide)))
  · exact Ext_mono (hnp (by decide)) (gen_possible_moves_for_knight_ext cb side hp hs)
  · exact Ext_mono (hnp (by decide)) (gen_possible_moves_for_bishop_ext cb side hp hs)
  · exact Ext_mono (hnp (by decide)) (gen_possible_moves_for_advisor_ext cb side hp hs)
  · exact Ext_mono (hnp (by decide)) (gen_possible_moves_for_general_ext cb side hp hs)
  · exact Ext_pure
  · exact Ext_pure

theorem gen_possible_moves_row_ext (cb : ChessBoard) (side : PieceSide) (r : Int)
    (cols : List Int) :
    Ext (fun m => ∃ c ∈ cols, CellMove cb side r c m ∧ NotFromPawn cb m)
      (gen_possible_moves_row cb side r cols) := by
  induction cols with
  | nil => exact Ext_pure
  | cons c cs ih =>
    have h1 : Ext (fun m => ∃ c1 ∈ c :: cs, CellMove cb side r c1 m ∧ NotFromPawn cb m)
        (gen_possible_moves_cell cb side r c) :=
      Ext_mono (fun m hm => ⟨c, List.mem_cons_self _ _, hm⟩)
        (gen_possible_moves_cell_ext cb side r c)
    have h2 : Ext (fun m => ∃ c1 ∈ c :: cs, CellMove cb side r c1 m ∧ NotFromPawn cb m)
        (gen_possible_moves_row cb side r cs) :=
      Ext_mono (fun m ⟨c1, hc1, hm⟩ => ⟨c1, List.mem_cons_of_mem _ hc1, hm⟩) ih
    exact Ext_bind h1 h2

theorem gen_possible_moves_rows_ext (cb : ChessBoard) (side : PieceSide) (rows : List Int) :
    Ext (fun m => ∃ r ∈ rows, ∃ c ∈ playableCols, CellMove cb side r c m ∧ NotFromPawn cb m)
      (gen_possible_moves_rows cb side rows) := by
  induction rows with
  | nil => exact Ext_pure
  | cons r rs ih =>
    have h1 : Ext (fun m => ∃ r1 ∈ r :: rs, ∃ c ∈ playableCols,
        CellMove cb side r1 c m ∧ NotFromPawn cb m)
        (gen_possible_moves_row cb side r playableCols) :=
      Ext_mono (fun m hm => ⟨r, List.mem_cons_self _ _, hm⟩)
        (gen_possible_moves_row_ext cb side r playableCols)
    have h2 : Ext (fun m => ∃ r1 ∈ r :: rs, ∃ c ∈ playableCols,
        CellMove cb side r1 c m ∧ NotFromPawn cb m)
        (gen_possible_moves_rows cb side rs) :=
      Ext_mono (fun m ⟨r1, hr1, hm⟩ => ⟨r1, List.mem_cons_of_mem _ hr1, hm⟩) ih
    exact Ext_bind h1 h2

/-- Every move the generator returns starts on a playable cell, is a pseudo-legal move of the
side asked for, and does not start on a pawn. This holds on every board on which the generator
returns. -/
theorem gen_possible_moves_sound {cb : ChessBoard} {side : PieceSide} {ms : PossibleMoves}
    (h : gen_possible_moves cb side = some ms) {m : MoveNode} (hm : m ∈ ms) :
    ∃ r ∈ playableRows, ∃ c ∈ playableCols, CellMove cb side r c m ∧ NotFromPawn cb m := by
  obtain ⟨l, el, pl⟩ := gen_possible_moves_rows_ext cb side playableRows [] ms h
  rw [List.nil_append] at el
  subst el
  exact pl m hm

/-! ## The winner check -/

theorem palace_row_has_eq (cb : ChessBoard) (g : Piece) (r : Int) (cols : List Int)
    (h : ∀ c ∈ cols, inGrid r c) :
    palace_row_has cb g r cols = some (cols.any (fun c => decide (cb.cell r c = g))) := by
  induction cols with
  | nil => rfl
  | cons c cs ih =>
    have hc := h c (List.mem_cons_self _ _)
    have ih1 := ih (fun c1 h1 => h c1 (List.mem_cons_of_mem _ h1))
    unfold palace_row_has
    simp only [get_eq_cell cb hc, Option.bind_eq_bind, Option.some_bind, List.any_cons]
    by_cases e : cb.cell r c = g
    · simp [e]
    · simp [e, ih1]

theorem palace_has_eq (cb : ChessBoard) (g : Piece) (cols rows : List Int) (alive : Bool)
    (h : ∀ r ∈ rows, ∀ c ∈ cols, inGrid r c) :
    palace_has cb g cols rows alive =
      some (alive || rows.any (fun r => cols.any (fun c => decide (cb.cell r c = g)))) := by
  induction rows generalizing alive with
  | nil => simp [palace_has]
  | cons r rs ih =>
    unfold palace_has
    rw [palace_row_has_eq cb g r cols (h r (List.mem_cons_self _ _))]
    simp only [Option.bind_eq_bind, Option.some_bind]
    rw [ih _ (fun r1 h1 => h r1 (List.mem_cons_of_mem _ h1))]
    simp [Bool.or_assoc]

theorem upper_palace_any (cb : ChessBoard) :
    palaceUpRows.any (fun r => palaceCols.any (fun c => decide (cb.cell r c = P_UG))) = true ↔
      upperGeneralInPalace cb := by
  unfold upperGeneralInPalace inUpperPalace BOARD_9_PALACE_UP_TOP BOARD_9_PALACE_UP_BOTTOM
    BOARD_9_PALACE_UP_LEFT BOARD_9_PALACE_UP_RIGHT BOARD_ACTUAL_ROW_BEGIN BOARD_ACTUAL_COL_BEGIN
  simp only [List.any_eq_true, decide_eq_true_eq, palaceUpRows, palaceCols]
  constructor
  · rintro ⟨r, hr, c, hc, e⟩
    refine ⟨r, c, ?_, e⟩
    simp only [List.mem_cons, List.mem_singleton, List.not_mem_nil, or_false] at hr hc
    omega
  · rintro ⟨r, c, hb, e⟩
    refine ⟨r, ?_, c, ?_, e⟩
    · simp only [List.mem_cons, List.mem_singleton, List.not_mem_nil, or_false]; omega
    · simp only [List.mem_cons, List.mem_singleton, List.not_mem_nil, or_false]; omega

theorem lower_palace_any (cb : ChessBoard) :
    palaceDownRows.any (fun r => palaceCols.any (fun c => decide (cb.cell r c = P_DG))) = true ↔
      lowerGeneralInPalace cb := by
  unfold lowerGeneralInPalace inLowerPalace BOARD_9_PALACE_DOWN_TOP BOARD_9_PALACE_DOWN_BOTTOM
    BOARD_9_PALACE_DOWN_LEFT BOARD_9_PALACE_DOWN_RIGHT BOARD_ACTUAL_ROW_BEGIN
    BOARD_ACTUAL_COL_BEGIN
  simp only [List.any_eq_true, decide_eq_true_eq, palaceDownRows, palaceCols]
  constructor
  · rintro ⟨r, hr, c, hc, e⟩
    refine ⟨r, c, ?_, e⟩
    simp only [List.mem_cons, List.mem_singleton, List.not_mem_nil, or_false] at hr hc
    omega
  · rintro ⟨r, c, hb, e⟩
    refine ⟨r, ?_, c, ?_, e⟩
    · simp only [List.mem_cons, List.mem_singleton, List.not_mem_nil, or_false]; omega
    · simp only [List.mem_cons, List.mem_singleton, List.not_mem_nil, or_false]; omega

theorem check_winner_eq (cb : ChessBoard) :
    check_winner cb = some
      (if palaceUpRows.any (fun r => palaceCols.any (fun c => decide (cb.cell r c = P_UG)))
        then
          (if palaceDownRows.any
              (fun r => palaceCols.any (fun c => decide (cb.cell r c = P_DG)))
            then PS_EXTRA else PS_UP)
        else PS_DOWN) := by
  unfold check_winner
  rw [palace_has_eq cb P_UG palaceCols palaceUpRows false (by decide),
    palace_has_eq cb P_DG palaceCols palaceDownRows false (by decide)]
  simp only [Option.bind_eq_bind, Option.some_bind, Bool.false_or]
  cases palaceUpRows.any (fun r => palaceCols.any (fun c => decide (cb.cell r c = P_UG))) <;>
    cases palaceDownRows.any (fun r => palaceCols.any (fun c => decide (cb.cell r c = P_DG))) <;>
    simp

/-- C9. On every board `check_winner` returns: `PS_EXTRA` exactly when `P_UG` is in the upper
palace and `P_DG` in the lower palace; `PS_UP` exactly when `P_UG` is in the upper palace and
`P_DG` is not in the lower palace; `PS_DOWN` exactly when `P_UG` is not in the upper palace,
which includes the case where neither general is found. On the starting layout with the upper
general's cell set to empty it returns `PS_DOWN`. -/
theorem check_winner_spec :
    (∀ cb : ChessBoard,
      (check_winner cb = some PS_EXTRA ↔ upperGeneralInPalace cb ∧ lowerGeneralInPalace cb) ∧
      (check_winner cb = some PS_UP ↔ upperGeneralInPalace cb ∧ ¬ lowerGeneralInPalace cb) ∧
      (check_winner cb = some PS_DOWN ↔ ¬ upperGeneralInPalace cb)) ∧
    (ChessBoard.new.set 2 6 P_EE).bind check_winner = some PS_DOWN ∧
    ((ChessBoard.new.set 2 6 P_EE).bind (fun cb => cb.set 11 6 P_EE)).bind check_winner =
      some PS_DOWN := by
  refine ⟨fun cb => ?_, by decide, by decide⟩
  rw [check_winner_eq, ← upper_palace_any, ← lower_palace_any]
  cases palaceUpRows.any (fun r => palaceCols.any (fun c => decide (cb.cell r c = P_UG))) <;>
    cases palaceDownRows.any (fun r => palaceCols.any (fun c => decide (cb.cell r c = P_DG))) <;>
    simp

/-! ## Well-formed boards -/

theorem wf_cell {cb : ChessBoard} (hwf : WellFormed cb) {r c : Int} (h : inGrid r c) :
    (playable r c → cb.cell r c ≠ P_EO) ∧ (¬ playable r c → cb.cell r c = P_EO) := by
  have hr : ((r.toNat : Nat) : Int) = r := Int.toNat_of_nonneg h.1
  have hc : ((c.toNat : Nat) : Int) = c := Int.toNat_of_nonneg h.2.2.1
  have := hwf ⟨r.toNat, inGrid_row h⟩ ⟨c.toNat, inGrid_col h⟩
  simp only [hr, hc] at this
  have hcell : cb.cell r c =
      (cb.data.get ⟨r.toNat, inGrid_row h⟩).get ⟨c.toNat, inGrid_col h⟩ := by
    simp [ChessBoard.cell, ChessBoard.get, h]
  rw [hcell]
  by_cases hp : playable r c
  · rw [if_pos hp] at this
    exact ⟨fun _ => this, fun h1 => absurd hp h1⟩
  · rw [if_neg hp] at this
    exact ⟨fun h1 => absurd h1 hp, fun _ => this⟩

theorem playable_inGrid {r c : Int} (h : playable r c) : inGrid r c := by
  unfold playable BOARD_ACTUAL_ROW_BEGIN BOARD_ACTUAL_ROW_LEN BOARD_ACTUAL_COL_BEGIN
    BOARD_ACTUAL_COL_LEN at h
  unfold inGrid BOARD_ROW_LEN BOARD_COL_LEN
  omega

/-- A cell at most two steps away from a playable cell, in each coordinate, is in the grid:
this is what the two rows and columns of padding are for. -/
theorem near_inGrid {r c : Int} (h : playable r c) {r1 c1 : Int}
    (hr : r - 2 ≤ r1 ∧ r1 ≤ r + 2) (hc : c - 2 ≤ c1 ∧ c1 ≤ c + 2) : inGrid r1 c1 := by
  unfold playable BOARD_ACTUAL_ROW_BEGIN BOARD_ACTUAL_ROW_LEN BOARD_ACTUAL_COL_BEGIN
    BOARD_ACTUAL_COL_LEN at h
  unfold inGrid BOARD_ROW_LEN BOARD_COL_LEN
  omega

theorem mem_playableRows {r : Int} : r ∈ playableRows ↔ 2 ≤ r ∧ r < 12 := by
  simp only [playableRows, List.mem_cons, List.mem_singleton, List.not_mem_nil, or_false]
  omega

theorem mem_playableCols {c : Int} : c ∈ playableCols ↔ 2 ≤ c ∧ c < 11 := by
  simp only [playableCols, List.mem_cons, List.mem_singleton, List.not_mem_nil, or_false]
  omega

theorem playable_iff {r c : Int} : playable r c ↔ r ∈ playableRows ∧ c ∈ playableCols := by
  rw [mem_playableRows, mem_playableCols]
  unfold playable BOARD_ACTUAL_ROW_BEGIN BOARD_ACTUAL_ROW_LEN BOARD_ACTUAL_COL_BEGIN
    BOARD_ACTUAL_COL_LEN
  omega

/-! ## Steps of the generator: they succeed on well-formed boards -/

theorem Total_pure : Total (fun pm => some pm) := fun pm => ⟨pm, rfl⟩

theorem Total_bind {f g : PossibleMoves → Option PossibleMoves}
    (hf : Total f) (hg : Total g) : Total (fun pm => (f pm).bind g) := by
  intro pm
  obtain ⟨pm1, h1⟩ := hf pm
  obtain ⟨pm2, h2⟩ := hg pm1
  exact ⟨pm2, by simp only [h1, Option.some_bind, h2]⟩

theorem Total_ite {f g : PossibleMoves → Option PossibleMoves}
    (cond : Prop) [Decidable cond] (hf : cond → Total f) (hg : ¬ cond → Total g) :
    Total (fun pm => if cond then f pm else g pm) := by
  by_cases hc : cond
  · simpa [hc] using hf hc
  · simpa [hc] using hg hc

theorem Total_read (cb : ChessBoard) {r c : Int} (h : inGrid r c)
    {F : Piece → PossibleMoves → Option PossibleMoves}
    (hF : Total (F (cb.cell r c))) :
    Total (fun pm => (cb.get r c).bind (fun p => F p pm)) := by
  intro pm
  obtain ⟨pm1, h1⟩ := hF pm
  exact ⟨pm1, by simp only [get_eq_cell cb h, Option.some_bind, h1]⟩

theorem check_possible_move_and_insert_total (cb : ChessBoard) {r c r1 c1 : Int}
    (h : inGrid r c) (h1 : inGrid r1 c1) :
    Total (fun pm => check_possible_move_and_insert cb pm r c r1 c1) := by
  intro pm
  unfold check_possible_move_and_insert
  simp only [get_eq_cell cb h, get_eq_cell cb h1, Option.bind_eq_bind, Option.some_bind]
  split <;> exact ⟨_, rfl⟩

theorem insert_when_total (cond : Prop) [Decidable cond] (cb : ChessBoard) {r c r1 c1 : Int}
    (h : inGrid r c) (h1 : inGrid r1 c1) :
    Total (fun pm => insert_when cond cb pm r c r1 c1) := by
  unfold insert_when
  exact Total_ite _ (fun _ => check_possible_move_and_insert_total cb h h1)
    (fun _ => Total_pure)

theorem knight_leg_total (cb : ChessBoard) {r c lr lc r1 c1 r2 c2 : Int}
    (h : inGrid r c) (hl : inGrid lr lc) (h1 : inGrid r1 c1) (h2 : inGrid r2 c2) :
    Total (fun pm => knight_leg cb pm r c lr lc r1 c1 r2 c2) := by
  unfold knight_leg
  refine Total_read cb hl ?_
  exact Total_ite _ (fun _ => Total_bind (check_possible_move_and_insert_total cb h h1)
    (check_possible_move_and_insert_total cb h h2)) (fun _ => Total_pure)

theorem bishop_eye_total (cb : ChessBoard) {r c er ec r1 c1 : Int}
    (h : inGrid r c) (he : inGrid er ec) (h1 : inGrid r1 c1) :
    Total (fun pm => bishop_eye cb pm r c er ec r1 c1) := by
  unfold bishop_eye
  refine Total_read cb he ?_
  exact Total_ite _ (fun _ => check_possible_move_and_insert_total cb h h1)
    (fun _ => Total_pure)

theorem gen_possible_moves_for_pawn_total (cb : ChessBoard) (side : PieceSide) {r c : Int}
    (h : playable r c) :
    Total (fun pm => gen_possible_moves_for_pawn cb pm r c side) := by
  have h0 := playable_inGrid h
  have n : ∀ {r1 c1 : Int}, (r - 2 ≤ r1 ∧ r1 ≤ r + 2) → (c - 2 ≤ c1 ∧ c1 ≤ c + 2) →
      inGrid r1 c1 := fun hr hc => near_inGrid h hr hc
  have step : ∀ r1 c1, (r - 2 ≤ r1 ∧ r1 ≤ r + 2) → (c - 2 ≤ c1 ∧ c1 ≤ c + 2) →
      Total (fun pm => check_possible_move_and_insert cb pm r c r1 c1) :=
    fun r1 c1 hr hc => check_possible_move_and_insert_total cb h0 (n hr hc)
  unfold gen_possible_moves_for_pawn
  refine Total_ite _ (fun _ => ?_) (fun _ => Total_ite _ (fun _ => ?_) (fun _ => Total_pure))
  · refine Total_bind (step _ _ (by omega) (by omega)) ?_
    exact Total_ite _ (fun _ => Total_bind (step _ _ (by omega) (by omega))
      (step _ _ (by omega) (by omega))) (fun _ => Total_pure)
  · refine Total_bind (step _ _ (by omega) (by omega)) ?_
    exact Total_ite _ (fun _ => Total_bind (step _ _ (by omega) (by omega))
      (step _ _ (by omega) (by omega))) (fun _ => Total_pure)

theorem gen_possible_moves_for_knight_total (cb : ChessBoard) (side : PieceSide) {r c : Int}
    (h : playable r c) :
    Total (fun pm => gen_possible_moves_for_knight cb pm r c side) := by
  have h0 := playable_inGrid h
  have leg : ∀ lr lc r1 c1 r2 c2, (r - 2 ≤ lr ∧ lr ≤ r + 2) → (c - 2 ≤ lc ∧ lc ≤ c + 2) →
      (r - 2 ≤ r1 ∧ r1 ≤ r + 2) → (c - 2 ≤ c1 ∧ c1 ≤ c + 2) →
      (r - 2 ≤ r2 ∧ r2 ≤ r + 2) → (c - 2 ≤ c2 ∧ c2 ≤ c + 2) →
      Total (fun pm => knight_leg cb pm r c lr lc r1 c1 r2 c2) :=
    fun _ _ _ _ _ _ a b a1 b1 a2 b2 =>
      knight_leg_total cb h0 (near_inGrid h a b) (near_inGrid h a1 b1) (near_inGrid h a2 b2)
  unfold gen_possible_moves_for_knight
  exact Total_bind (leg _ _ _ _ _ _ (by omega) (by omega) (by omega) (by omega) (by omega)
      (by omega))
    (Total_bind (leg _ _ _ _ _ _ (by omega) (by omega) (by omega) (by omega) (by omega)
        (by omega))
      (Total_bind (leg _ _ _ _ _ _ (by omega) (by omega) (by omega) (by omega) (by omega)
          (by omega))
        (leg _ _ _ _ _ _ (by omega) (by omega) (by omega) (by omega) (by omega) (by omega))))

theorem gen_possible_moves_for_bishop_total (cb : ChessBoard) (side : PieceSide) {r c : Int}
    (h : playable r c) :
    Total (fun pm => gen_possible_moves_for_bishop cb pm r c side) := by
  have h0 := playable_inGrid h
  have eye : ∀ er ec r1 c1, (r - 2 ≤ er ∧ er ≤ r + 2) → (c - 2 ≤ ec ∧ ec ≤ c + 2) →
      (r - 2 ≤ r1 ∧ r1 ≤ r + 2) → (c - 2 ≤ c1 ∧ c1 ≤ c + 2) →
      Total (fun pm => bishop_eye cb pm r c er ec r1 c1) :=
    fun _ _ _ _ a b a1 b1 =>
      bishop_eye_total cb h0 (near_inGrid h a b) (near_inGrid h a1 b1)
  have two : ∀ er ec r1 c1 er2 ec2 r2 c2,
      (r - 2 ≤ er ∧ er ≤ r + 2) → (c - 2 ≤ ec ∧ ec ≤ c + 2) →
      (r - 2 ≤ r1 ∧ r1 ≤ r + 2) → (c - 2 ≤ c1 ∧ c1 ≤ c + 2) →
      (r - 2 ≤ er2 ∧ er2 ≤ r + 2) → (c - 2 ≤ ec2 ∧ ec2 ≤ c + 2) →
      (r - 2 ≤ r2 ∧ r2 ≤ r + 2) → (c - 2 ≤ c2 ∧ c2 ≤ c + 2) →
      Total (fun pm => (bishop_eye cb pm r c er ec r1 c1).bind
        (fun pm => bishop_eye cb pm r c er2 ec2 r2 c2)) :=
    fun _ _ _ _ _ _ _ _ a b a1 b1 a2 b2 a3 b3 =>
      Total_bind (eye _ _ _ _ a b a1 b1) (eye _ _ _ _ a2 b2 a3 b3)
  unfold gen_possible_moves_for_bishop
  refine Total_ite _ (fun _ => ?_) (fun _ => Total_ite _ (fun _ => ?_) (fun _ => Total_pure))
  · refine Total_bind (Total_ite _ (fun _ => ?_) (fun _ => Total_pure)) ?_
    · exact two _ _ _ _ _ _ _ _ (by omega) (by omega) (by omega) (by omega) (by omega)
        (by omega) (by omega) (by omega)
    · exact two _ _ _ _ _ _ _ _ (by omega) (by omega) (by omega) (by omega) (by omega)
        (by omega) (by omega) (by omega)
  · refine Total_bind (Total_ite _ (fun _ => ?_) (fun _ => Total_pure)) ?_
    · exact two _ _ _ _ _ _ _ _ (by omega) (by omega) (by omega) (by omega) (by omega)
        (by omega) (by omega) (by omega)
    · exact two _ _ _ _ _ _ _ _ (by omega) (by omega) (by omega) (by omega) (by omega)
        (by omega) (by omega) (by omega)

theorem gen_possible_moves_for_advisor_total (cb : ChessBoard) (side : PieceSide) {r c : Int}
    (h : playable r c) :
    Total (fun pm => gen_possible_moves_for_advisor cb pm r c side) := by
  have h0 := playable_inGrid h
  have step : ∀ (cond : Prop) [Decidable cond] (r1 c1 : Int),
      (r - 2 ≤ r1 ∧ r1 ≤ r + 2) → (c - 2 ≤ c1 ∧ c1 ≤ c + 2) →
      Total (fun pm => insert_when cond cb pm r c r1 c1) :=
    fun cond _ _ _ hr hc => insert_when_total cond cb h0 (near_inGrid h hr hc)
  unfold gen_possible_moves_for_advisor
  refine Total_ite _ (fun _ => ?_) (fun _ => Total_ite _ (fun _ => ?_) (fun _ => Total_pure))
  · exact Total_bind (step _ _ _ (by omega) (by omega))
      (Total_bind (step _ _ _ (by omega) (by omega))
        (Total_bind (step _ _ _ (by omega) (by omega)) (step _ _ _ (by omega) (by omega))))
  · exact Total_bind (step _ _ _ (by omega) (by omega))
      (Total_bind (step _ _ _ (by omega) (by omega))
        (Total_bind (step _ _ _ (by omega) (by omega)) (step _ _ _ (by omega) (by omega))))

theorem scan_general_up_total (cb : ChessBoard) (r c : Int) (hc : 0 ≤ c ∧ c < 13)
    (fuel : Nat) (row : Int) (h0 : 0 ≤ row) (hf : (12 - row).toNat < fuel) :
    Total (fun pm => scan_general_up cb r c fuel row pm) := by
  induction fuel generalizing row with
  | zero => omega
  | succ n ih =>
    unfold scan_general_up BOARD_ACTUAL_ROW_BEGIN BOARD_ACTUAL_ROW_LEN
    refine Total_ite _ (fun hlt => ?_) (fun _ => Total_pure)
    refine Total_read cb (by unfold inGrid BOARD_ROW_LEN BOARD_COL_LEN; omega) ?_
    refine Total_ite _ (fun _ => ih (row + 1) (by omega) (by omega)) (fun _ => ?_)
    exact Total_ite _ (fun _ => fun pm => ⟨_, rfl⟩) (fun _ => Total_pure)

theorem scan_general_down_total (cb : ChessBoard) (r c : Int) (hc : 0 ≤ c ∧ c < 13)
    (fuel : Nat) (row : Int) (h0 : row < 14) (hf : row.toNat < fuel) :
    Total (fun pm => scan_general_down cb r c fuel row pm) := by
  induction fuel generalizing row with
  | zero => omega
  | succ n ih =>
    unfold scan_general_down BOARD_ACTUAL_ROW_BEGIN
    refine Total_ite _ (fun hlt => ?_) (fun _ => Total_pure)
    refine Total_read cb (by unfold inGrid BOARD_ROW_LEN BOARD_COL_LEN; omega) ?_
    refine Total_ite _ (fun _ => ih (row - 1) (by omega) (by omega)) (fun _ => ?_)
    exact Total_ite _ (fun _ => fun pm => ⟨_, rfl⟩) (fun _ => Total_pure)

theorem gen_possible_moves_for_general_total (cb : ChessBoard) (side : PieceSide) {r c : Int}
    (h : playable r c) :
    Total (fun pm => gen_possible_moves_for_general cb pm r c side) := by
  have h0 := playable_inGrid h
  have step : ∀ (cond : Prop) [Decidable cond] (r1 c1 : Int),
      (r - 2 ≤ r1 ∧ r1 ≤ r + 2) → (c - 2 ≤ c1 ∧ c1 ≤ c + 2) →
      Total (fun pm => insert_when cond cb pm r c r1 c1) :=
    fun cond _ _ _ hr hc => insert_when_total cond cb h0 (near_inGrid h hr hc)
  have hb : 2 ≤ r ∧ r < 12 ∧ 2 ≤ c ∧ c < 11 := h
  unfold gen_possible_moves_for_general
  refine Total_ite _ (fun _ => ?_) (fun _ => Total_ite _ (fun _ => ?_) (fun _ => Total_pure))
  · exact Total_bind (step _ _ _ (by omega) (by omega))
      (Total_bind (step _ _ _ (by omega) (by omega))
        (Total_bind (step _ _ _ (by omega) (by omega))
          (Total_bind (step _ _ _ (by omega) (by omega))
            (scan_general_up_total cb r c (by omega) _ _ (by omega)
              (by unfold SCAN_FUEL; omega)))))
  · exact Total_bind (step _ _ _ (by omega) (by omega))
      (Total_bind (step _ _ _ (by omega) (by omega))
        (Total_bind (step _ _ _ (by omega) (by omega))
          (Total_bind (step _ _ _ (by omega) (by omega))
            (scan_general_down_total cb r c (by omega) _ _ (by omega)
              (by unfold SCAN_FUEL; omega)))))

/-! ## Ray scans -/

theorem rayMove_succ (r c rGap cGap row col : Int) (i : Nat) :
    (⟨r, c, row + rGap + i * rGap, col + cGap + i * cGap⟩ : MoveNode) =
      ⟨r, c, row + (i + 1 : Nat) * rGap, col + (i + 1 : Nat) * cGap⟩ := by
  congr 1 <;> push_cast <;> ring

/-- The first loop on a ray whose first `k` cells are empty and whose next cell holds `p`,
not empty: it inserts the `k` moves to the empty cells, in order, and stops on that cell. -/
theorem scan_empty_cells_run (cb : ChessBoard) (r c rGap cGap : Int) (k : Nat) :
    ∀ (fuel : Nat) (row col : Int) (pm : PossibleMoves) (p : Piece), k < fuel →
      (∀ i : Nat, i < k → cb.get (row + i * rGap) (col + i * cGap) = some P_EE) →
      cb.get (row + k * rGap) (col + k * cGap) = some p → p ≠ P_EE →
      scan_empty_cells cb r c rGap cGap fuel row col pm =
        some (row + k * rGap, col + k * cGap, p,
          pm ++ (List.range k).map
            (fun i : Nat => (⟨r, c, row + (i : Int) * rGap, col + (i : Int) * cGap⟩ :
              MoveNode))) := by
  induction k with
  | zero =>
    intro fuel row col pm p hf _ hk hp
    obtain ⟨n, rfl⟩ : ∃ n, fuel = n + 1 := ⟨fuel - 1, by omega⟩
    simp only [Nat.cast_zero, zero_mul, add_zero] at hk
    simp [scan_empty_cells, hk, hp]
  | succ k ih =>
    intro fuel row col pm p hf he hk hp
    obtain ⟨n, rfl⟩ : ∃ n, fuel = n + 1 := ⟨fuel - 1, by omega⟩
    have h0 : cb.get row col = some P_EE := by simpa using he 0 (by omega)
    have e1 : ∀ i : Nat, row + rGap + i * rGap = row + (i + 1 : Nat) * rGap := by
      intro i; push_cast; ring
    have e2 : ∀ i : Nat, col + cGap + i * cGap = col + (i + 1 : Nat) * cGap := by
      intro i; push_cast; ring
    have := ih n (row + rGap) (col + cGap) (pm ++ [⟨r, c, row, col⟩]) p (by omega)
      (fun i hi => by rw [e1, e2]; exact he (i + 1) (by omega))
      (by rw [e1, e2]; exact hk) hp
    unfold scan_empty_cells
    simp only [h0, Option.bind_eq_bind, Option.some_bind, if_true, this]
    simp only [e1, e2, List.range_succ_eq_map, List.map_cons, List.map_map, List.append_assoc,
      List.singleton_append, Nat.cast_zero, zero_mul, add_zero]
    rfl

/-- The second loop of the cannon on a ray whose first `k` cells are empty and whose next cell
holds `p`, not empty: it inserts the move onto that cell exactly when `p` is an enemy. -/
theorem scan_cannon_target_run (cb : ChessBoard) (r c rGap cGap : Int) (side : PieceSide)
    (k : Nat) :
    ∀ (fuel : Nat) (row col : Int) (pm : PossibleMoves) (p : Piece), k < fuel →
      (∀ i : Nat, i < k → cb.get (row + i * rGap) (col + i * cGap) = some P_EE) →
      cb.get (row + k * rGap) (col + k * cGap) = some p → p ≠ P_EE →
      scan_cannon_target cb r c rGap cGap side fuel row col pm =
        some (if piece_get_side p = piece_side_get_reverse side
          then pm ++ [⟨r, c, row + k * rGap, col + k * cGap⟩] else pm) := by
  induction k with
  | zero =>
    intro fuel row col pm p hf _ hk hp
    obtain ⟨n, rfl⟩ : ∃ n, fuel = n + 1 := ⟨fuel - 1, by omega⟩
    simp only [Nat.cast_zero, zero_mul, add_zero] at hk ⊢
    unfold scan_cannon_target
    simp only [hk, Option.bind_eq_bind, Option.some_bind, hp, if_false]
    split <;> rfl
  | succ k ih =>
    intro fuel row col pm p hf he hk hp
    obtain ⟨n, rfl⟩ : ∃ n, fuel = n + 1 := ⟨fuel - 1, by omega⟩
    have h0 : cb.get row col = some P_EE := by simpa using he 0 (by omega)
    have e1 : ∀ i : Nat, row + rGap + i * rGap = row + (i + 1 : Nat) * rGap := by
      intro i; push_cast; ring
    have e2 : ∀ i : Nat, col + cGap + i * cGap = col + (i + 1 : Nat) * cGap := by
      intro i; push_cast; ring
    have := ih n (row + rGap) (col + cGap) pm p (by omega)
      (fun i hi => by rw [e1, e2]; exact he (i + 1) (by omega))
      (by rw [e1, e2]; exact hk) hp
    unfold scan_cannon_target
    simp only [h0, Option.bind_eq_bind, Option.some_bind, if_true, this, e1, e2]

/-- On a stretch of a ray that stays inside the grid and ends on a cell that is not empty,
there is a first cell that is not empty. -/
theorem exists_first_nonempty (cb : ChessBoard) (row col rGap cGap : Int) (n : Nat)
    (hin : ∀ i : Nat, i ≤ n → inGrid (row + i * rGap) (col + i * cGap))
    (hn : cb.cell (row + n * rGap) (col + n * cGap) ≠ P_EE) :
    ∃ k : Nat, k ≤ n ∧
      (∀ i : Nat, i < k → cb.get (row + i * rGap) (col + i * cGap) = some P_EE) ∧
      cb.cell (row + k * rGap) (col + k * cGap) ≠ P_EE := by
  classical
  have hex : ∃ k : Nat, cb.cell (row + (k : Int) * rGap) (col + (k : Int) * cGap) ≠ P_EE :=
    ⟨n, hn⟩
  refine ⟨Nat.find hex, Nat.find_min' hex hn, ?_, Nat.find_spec hex⟩
  intro i hi
  have hne := Nat.find_min hex hi
  have hle : i ≤ n := le_trans (le_of_lt hi) (Nat.find_min' hex hn)
  rw [get_eq_cell cb (hin i hle)]
  simpa using hne

/-- From a playable cell, each of the four rays leaves the playable area after at most ten
steps, and the first cell outside it is still in the grid. -/
theorem ray_reaches_border {r c : Int} (hpl : playable r c) {rGap cGap : Int}
    (hd : isUnitDir rGap cGap) :
    ∃ n : Nat, 1 ≤ n ∧ n ≤ 10 ∧
      (∀ i : Nat, i ≤ n → inGrid (r + i * rGap) (c + i * cGap)) ∧
      (∀ i : Nat, i < n → playable (r + i * rGap) (c + i * cGap)) ∧
      ¬ playable (r + n * rGap) (c + n * cGap) := by
  unfold playable BOARD_ACTUAL_ROW_BEGIN BOARD_ACTUAL_ROW_LEN BOARD_ACTUAL_COL_BEGIN
    BOARD_ACTUAL_COL_LEN at *
  unfold inGrid BOARD_ROW_LEN BOARD_COL_LEN
  rcases hd with ⟨rfl, rfl⟩ | ⟨rfl, rfl⟩ | ⟨rfl, rfl⟩ | ⟨rfl, rfl⟩
  · refine ⟨(r - 1).toNat, by omega, by omega, fun i hi => by omega, fun i hi => by omega,
      by omega⟩
  · refine ⟨(12 - r).toNat, by omega, by omega, fun i hi => by omega, fun i hi => by omega,
      by omega⟩
  · refine ⟨(c - 1).toNat, by omega, by omega, fun i hi => by omega, fun i hi => by omega,
      by omega⟩
  · refine ⟨(11 - c).toNat, by omega, by omega, fun i hi => by omega, fun i hi => by omega,
      by omega⟩

/-- On a well-formed board, walking from a playable cell along one of the four rays: starting
after `k` steps, with the cell at `k` playable, there is a first cell that is not empty, at
some distance `k1` with `k < k1 ≤ 10`; it is in the grid and all cells before it are
playable. -/
theorem first_nonempty_after {cb : ChessBoard} (hwf : WellFormed cb) {r c : Int}
    (hpl : playable r c) {rGap cGap : Int} (hd : isUnitDir rGap cGap) (k : Nat)
    (hk : playable (r + k * rGap) (c + k * cGap)) :
    ∃ k1 : Nat, k < k1 ∧ k1 ≤ 10 ∧
      (∀ i : Nat, k < i → i < k1 → cb.get (r + i * rGap) (c + i * cGap) = some P_EE) ∧
      inGrid (r + k1 * rGap) (c + k1 * cGap) ∧
      cb.cell (r + k1 * rGap) (c + k1 * cGap) ≠ P_EE := by
  obtain ⟨n, hn1, hn10, hin, hplay, hout⟩ := ray_reaches_border hpl hd
  have hkn : k < n := by
    by_contra hge
    have hge : n ≤ k := by omega
    -- the cell at `k` would lie at or beyond the border
    unfold playable BOARD_ACTUAL_ROW_BEGIN BOARD_ACTUAL_ROW_LEN BOARD_ACTUAL_COL_BEGIN
      BOARD_ACTUAL_COL_LEN at *
    rcases hd with ⟨rfl, rfl⟩ | ⟨rfl, rfl⟩ | ⟨rfl, rfl⟩ | ⟨rfl, rfl⟩ <;> omega
  have e1 : ∀ i : Nat, r + ((k + 1 : Nat) : Int) * rGap + i * rGap =
      r + ((k + 1 + i : Nat) : Int) * rGap := by
    intro i; push_cast; ring
  have e2 : ∀ i : Nat, c + ((k + 1 : Nat) : Int) * cGap + i * cGap =
      c + ((k + 1 + i : Nat) : Int) * cGap := by
    intro i; push_cast; ring
  obtain ⟨j, hj, hempty, hstop⟩ := exists_first_nonempty cb
    (r + ((k + 1 : Nat) : Int) * rGap) (c + ((k + 1 : Nat) : Int) * cGap) rGap cGap (n - (k + 1))
    (fun i hi => by rw [e1, e2]; exact hin _ (by omega))
    (by
      rw [e1, e2]
      have : k + 1 + (n - (k + 1)) = n := by omega
      rw [this, (wf_cell hwf (hin n (le_refl n))).2 hout]
      decide)
  refine ⟨k + 1 + j, by omega, by omega, ?_, ?_, ?_⟩
  · intro i hki hik
    have := hempty (i - (k + 1)) (by omega)
    rw [e1, e2] at this
    have e : k + 1 + (i - (k + 1)) = i := by omega
    rwa [e] at this
  · exact hin _ (by omega)
  · rw [e1, e2] at hstop
    exact hstop

/-- The first loop of a rook or cannon on a well-formed board, from a playable cell along one
of the four rays: it stops on the first cell that is not empty, at a distance `k0` between 1
and 10, having inserted the moves to the `k0 - 1` empty cells before it, nearest first. -/
theorem scan_empty_cells_wf {cb : ChessBoard} (hwf : WellFormed cb) {r c : Int}
    (hpl : playable r c) {rGap cGap : Int} (hd : isUnitDir rGap cGap) :
    ∃ k0 : Nat, 1 ≤ k0 ∧ k0 ≤ 10 ∧
      (∀ i : Nat, 1 ≤ i → i < k0 → cb.get (r + i * rGap) (c + i * cGap) = some P_EE) ∧
      inGrid (r + k0 * rGap) (c + k0 * cGap) ∧
      cb.cell (r + k0 * rGap) (c + k0 * cGap) ≠ P_EE ∧
      ∀ pm, scan_empty_cells cb r c rGap cGap SCAN_FUEL (r + rGap) (c + cGap) pm =
        some (r + k0 * rGap, c + k0 * cGap, cb.cell (r + k0 * rGap) (c + k0 * cGap),
          pm ++ (List.range (k0 - 1)).map (fun i => rayMove r c rGap cGap (i + 1))) := by
  obtain ⟨k0, h1, h10, hempty, hin, hne⟩ :=
    first_nonempty_after hwf hpl hd 0 (by simpa using hpl)
  refine ⟨k0, by omega, h10, fun i hi hik => hempty i (by omega) hik, hin, hne, ?_⟩
  intro pm
  have e1 : ∀ i : Nat, r + rGap + i * rGap = r + ((i + 1 : Nat) : Int) * rGap := by
    intro i; push_cast; ring
  have e2 : ∀ i : Nat, c + cGap + i * cGap = c + ((i + 1 : Nat) : Int) * cGap := by
    intro i; push_cast; ring
  have hk : k0 - 1 + 1 = k0 := by omega
  have := scan_empty_cells_run cb r c rGap cGap (k0 - 1) SCAN_FUEL (r + rGap) (c + cGap) pm
    (cb.cell (r + k0 * rGap) (c + k0 * cGap)) (by unfold SCAN_FUEL; omega)
    (fun i hi => by rw [e1, e2]; exact hempty _ (by omega) (by omega))
    (by rw [e1, e2, hk]; exact get_eq_cell cb hin) hne
  rw [this]
  simp only [e1, e2, hk]
  rfl

theorem cell_of_get {cb : ChessBoard} {r c : Int} {p : Piece} (h : cb.get r c = some p) :
    cb.cell r c = p := by
  simp [ChessBoard.cell, h]

theorem playable_of_ne_out {cb : ChessBoard} (hwf : WellFormed cb) {r c : Int}
    (h : inGrid r c) (hne : cb.cell r c ≠ P_EO) : playable r c := by
  by_contra hn
  exact hne ((wf_cell hwf h).2 hn)

/-- The cannon on a well-formed board, from a playable cell along one of the four rays. The
screen is the first cell that is not empty, at distance `k0`. The moves inserted are: the moves
to the `k0 - 1` empty cells before the screen, nearest first; then, when the screen is a piece
and not the edge of the board, the move onto the first cell beyond the screen that is not
empty, at distance `k1`, provided it holds an enemy piece. -/
theorem cannon_direction_wf {cb : ChessBoard} (hwf : WellFormed cb) {r c : Int}
    (hpl : playable r c) {rGap cGap : Int} (hd : isUnitDir rGap cGap) (side : PieceSide) :
    ∃ k0 : Nat, 1 ≤ k0 ∧ k0 ≤ 10 ∧
      (∀ i : Nat, 1 ≤ i → i < k0 → cb.cell (r + i * rGap) (c + i * cGap) = P_EE) ∧
      cb.cell (r + k0 * rGap) (c + k0 * cGap) ≠ P_EE ∧
      ∃ caps : List MoveNode,
        (∀ pm, gen_possible_moves_for_cannon_one_direction cb pm r c rGap cGap side =
          some (pm ++ ((List.range (k0 - 1)).map (fun i => rayMove r c rGap cGap (i + 1)) ++
            caps))) ∧
        (cb.cell (r + k0 * rGap) (c + k0 * cGap) = P_EO → caps = []) ∧
        (cb.cell (r + k0 * rGap) (c + k0 * cGap) ≠ P_EO →
          ∃ k1 : Nat, k0 < k1 ∧ k1 ≤ 10 ∧
            (∀ i : Nat, k0 < i → i < k1 → cb.cell (r + i * rGap) (c + i * cGap) = P_EE) ∧
            cb.cell (r + k1 * rGap) (c + k1 * cGap) ≠ P_EE ∧
            caps = if piece_get_side (cb.cell (r + k1 * rGap) (c + k1 * cGap)) =
                piece_side_get_reverse side
              then [rayMove r c rGap cGap k1] else []) := by
  obtain ⟨k0, h1, h10, hempty, hin, hne, hscan⟩ := scan_empty_cells_wf hwf hpl hd
  refine ⟨k0, h1, h10, fun i hi hik => cell_of_get (hempty i hi hik), hne, ?_⟩
  by_cases hout : cb.cell (r + k0 * rGap) (c + k0 * cGap) = P_EO
  · refine ⟨[], ?_, fun _ => rfl, fun h => absurd hout h⟩
    intro pm
    unfold gen_possible_moves_for_cannon_one_direction
    simp only [hscan, Option.bind_eq_bind, Option.some_bind, hout, ne_eq, not_true, if_false,
      List.append_nil]
  · have hpk : playable (r + k0 * rGap) (c + k0 * cGap) := playable_of_ne_out hwf hin hout
    obtain ⟨k1, hlt, hk10, hempty1, hin1, hne1⟩ := first_nonempty_after hwf hpl hd k0 hpk
    refine ⟨if piece_get_side (cb.cell (r + k1 * rGap) (c + k1 * cGap)) =
        piece_side_get_reverse side then [rayMove r c rGap cGap k1] else [], ?_,
      fun h => absurd h hout,
      fun _ => ⟨k1, hlt, hk10, fun i hi hik => cell_of_get (hempty1 i hi hik), hne1, rfl⟩⟩
    intro pm
    have e1 : ∀ i : Nat, r + (k0 : Int) * rGap + rGap + i * rGap =
        r + ((k0 + 1 + i : Nat) : Int) * rGap := by
      intro i; push_cast; ring
    have e2 : ∀ i : Nat, c + (k0 : Int) * cGap + cGap + i * cGap =
        c + ((k0 + 1 + i : Nat) : Int) * cGap := by
      intro i; push_cast; ring
    have hk : k0 + 1 + (k1 - k0 - 1) = k1 := by omega
    have := scan_cannon_target_run cb r c rGap cGap side (k1 - k0 - 1) SCAN_FUEL
      (r + k0 * rGap + rGap) (c + k0 * cGap + cGap)
      (pm ++ (List.range (k0 - 1)).map (fun i => rayMove r c rGap cGap (i + 1)))
      (cb.cell (r + k1 * rGap) (c + k1 * cGap)) (by unfold SCAN_FUEL; omega)
      (fun i hi => by rw [e1, e2]; exact hempty1 _ (by omega) (by omega))
      (by rw [e1, e2, hk]; exact get_eq_cell cb hin1) hne1
    unfold gen_possible_moves_for_cannon_one_direction
    simp only [hscan, Option.bind_eq_bind, Option.some_bind, hout, ne_eq, not_false_eq_true,
      if_true, this, e1, e2, hk]
    split
    · simp [rayMove]
    · simp

theorem gen_possible_moves_for_cannon_total {cb : ChessBoard} (hwf : WellFormed cb)
    (side : PieceSide) {r c : Int} (h : playable r c) :
    Total (fun pm => gen_possible_moves_for_cannon cb pm r c side) := by
  have dir : ∀ rGap cGap, isUnitDir rGap cGap →
      Total (fun pm => gen_possible_moves_for_cannon_one_direction cb pm r c rGap cGap side) := by
    intro rGap cGap hd pm
    obtain ⟨k0, _, _, _, _, caps, hrun, _⟩ := cannon_direction_wf hwf h hd side
    exact ⟨_, hrun pm⟩
  unfold gen_possible_moves_for_cannon
  exact Total_bind (dir _ _ (Or.inl ⟨rfl, rfl⟩))
    (Total_bind (dir _ _ (Or.inr (Or.inl ⟨rfl, rfl⟩)))
      (Total_bind (dir _ _ (Or.inr (Or.inr (Or.inl ⟨rfl, rfl⟩))))
        (dir _ _ (Or.inr (Or.inr (Or.inr ⟨rfl, rfl⟩))))))

theorem gen_possible_moves_for_rook_total {cb : ChessBoard} (hwf : WellFormed cb)
    (side : PieceSide) {r c : Int} (h : playable r c) :
    Total (fun pm => gen_possible_moves_for_rook cb pm r c side) := by
  have dir : ∀ rGap cGap, isUnitDir rGap cGap →
      Total (fun pm => gen_possible_moves_for_rook_one_direction cb pm r c rGap cGap side) := by
    intro rGap cGap hd pm
    obtain ⟨k0, _, _, _, _, _, hscan⟩ := scan_empty_cells_wf hwf h hd
    unfold gen_possible_moves_for_rook_one_direction
    simp only [hscan, Option.bind_eq_bind, Option.some_bind]
    split <;> exact ⟨_, rfl⟩
  unfold gen_possible_moves_for_rook
  exact Total_bind (dir _ _ (Or.inl ⟨rfl, rfl⟩))
    (Total_bind (dir _ _ (Or.inr (Or.inl ⟨rfl, rfl⟩)))
      (Total_bind (dir _ _ (Or.inr (Or.inr (Or.inl ⟨rfl, rfl⟩))))
        (dir _ _ (Or.inr (Or.inr (Or.inr ⟨rfl, rfl⟩))))))

theorem gen_possible_moves_cell_total {cb : ChessBoard} (hwf : WellFormed cb)
    (side : PieceSide) {r c : Int} (h : playable r c) :
    Total (gen_possible_moves_cell cb side r c) := by
  unfold gen_possible_moves_cell
  refine Total_read cb (playable_inGrid h) ?_
  refine Total_ite _ (fun _ => ?_) (fun _ => Total_pure)
  cases piece_get_type (cb.cell r c) <;> simp only
  · intro pm
    obtain ⟨pm1, h1⟩ := gen_possible_moves_for_pawn_total cb side h pm
    exact ⟨pm, by simp only [h1, Option.bind_eq_bind, Option.some_bind]⟩
  · exact gen_possible_moves_for_cannon_total hwf side h
  · exact gen_possible_moves_for_rook_total hwf side h
  · exact gen_possible_moves_for_knight_total cb side h
  · exact gen_possible_moves_for_bishop_total cb side h
  · exact gen_possible_moves_for_advisor_total cb side h
  · exact gen_possible_moves_for_general_total cb side h
  · exact Total_pure
  · exact Total_pure

theorem gen_possible_moves_row_total {cb : ChessBoard} (hwf : WellFormed cb)
    (side : PieceSide) {r : Int} (hr : r ∈ playableRows) (cols : List Int)
    (hc : ∀ c ∈ cols, c ∈ playableCols) :
    Total (gen_possible_moves_row cb side r cols) := by
  induction cols with
  | nil => exact Total_pure
  | cons c cs ih =>
    exact Total_bind
      (gen_possible_moves_cell_total hwf side
        (playable_iff.mpr ⟨hr, hc c (List.mem_cons_self _ _)⟩))
      (ih (fun c1 h1 => hc c1 (List.mem_cons_of_mem _ h1)))

theorem gen_possible_moves_rows_total {cb : ChessBoard} (hwf : WellFormed cb)
    (side : PieceSide) (rows : List Int) (hr : ∀ r ∈ rows, r ∈ playableRows) :
    Total (gen_possible_moves_rows cb side rows) := by
  induction rows with
  | nil => exact Total_pure
  | cons r rs ih =>
    exact Total_bind
      (gen_possible_moves_row_total hwf side (hr r (List.mem_cons_self _ _)) playableCols
        (fun _ h => h))
      (ih (fun r1 h1 => hr r1 (List.mem_cons_of_mem _ h1)))

/-- On a well-formed board the generator returns, for every side. -/
theorem gen_possible_moves_total {cb : ChessBoard} (hwf : WellFormed cb) (side : PieceSide) :
    ∃ ms, gen_possible_moves cb side = some ms :=
  gen_possible_moves_rows_total hwf side playableRows (fun _ h => h) []

/-! ## Properties of the generated moves -/

theorem gen_possible_moves_pseudo_legal {cb : ChessBoard} {side : PieceSide}
    {ms : PossibleMoves} (h : gen_possible_moves cb side = some ms) {m : MoveNode}
    (hm : m ∈ ms) : playable m.beginRow m.beginCol ∧ PseudoLegal cb side m := by
  obtain ⟨r, hr, c, hc, ⟨h1, h2, h3⟩, _⟩ := gen_possible_moves_sound h hm
  refine ⟨?_, h3⟩
  rw [h1, h2]
  exact playable_iff.mpr ⟨hr, hc⟩

theorem PseudoLegal.inGrid {cb : ChessBoard} {side : PieceSide} {m : MoveNode}
    (h : PseudoLegal cb side m) : m.inGrid := by
  obtain ⟨bp, ep, hb, _, he, _, _⟩ := h
  exact ⟨inGrid_of_get hb, inGrid_of_get he⟩

/-- C1. Applying a move whose coordinates lie inside the grid, in particular a move that
`gen_possible_moves` returned for the board, and then undoing it gives back the same board:
the same grid and the same history. -/
theorem move_then_undo_restores (cb : ChessBoard) (m : MoveNode)
    (h : m.inGrid ∨ ∃ side ms, gen_possible_moves cb side = some ms ∧ m ∈ ms) :
    (cb.move m).bind ChessBoard.undo = some cb := by
  rcases h with h | ⟨side, ms, h, hm⟩
  · exact move_undo cb m h
  · exact move_undo cb m (gen_possible_moves_pseudo_legal h hm).2.inGrid

/-- An instance of C1: on the starting board, the knight move from (11, 3) to (9, 4), which
the generator returns for the lower side, is applied and undone. -/
theorem move_then_undo_restores_witness :
    (∃ side ms, gen_possible_moves ChessBoard.new side = some ms ∧
      (⟨11, 3, 9, 4⟩ : MoveNode) ∈ ms) ∧
    (ChessBoard.new.move ⟨11, 3, 9, 4⟩).bind ChessBoard.undo = some ChessBoard.new :=
  ⟨⟨PS_DOWN, by decide⟩,
    move_then_undo_restores ChessBoard.new ⟨11, 3, 9, 4⟩ (Or.inr ⟨PS_DOWN, by decide⟩)⟩

/-- C2. On a well-formed board, for every side and so for the upper and the lower one, the
generator returns, and every move it returns has a begin cell different from its end cell, a
begin cell holding a piece of that side, and an end cell that is not `P_EO` and does not hold
a piece of that side. -/
theorem generated_moves_well_targeted (cb : ChessBoard) (hwf : WellFormed cb)
    (side : PieceSide) :
    ∃ ms, gen_possible_moves cb side = some ms ∧
      ∀ m ∈ ms, (m.beginRow, m.beginCol) ≠ (m.endRow, m.endCol) ∧
        piece_get_side (cb.cell m.beginRow m.beginCol) = side ∧
        cb.cell m.endRow m.endCol ≠ P_EO ∧
        piece_get_side (cb.cell m.endRow m.endCol) ≠ side := by
  obtain ⟨ms, h⟩ := gen_possible_moves_total hwf side
  refine ⟨ms, h, fun m hm => ?_⟩
  obtain ⟨_, bp, ep, hb, hs, he, hne, hse⟩ := gen_possible_moves_pseudo_legal h hm
  rw [cell_of_get hb, cell_of_get he]
  refine ⟨?_, hs, hne, hse⟩
  intro e
  rw [Prod.mk.injEq] at e
  rw [e.1, e.2, he] at hb
  rw [Option.some.inj hb] at hse
  exact hse hs

/-- An instance of C2: the starting board and the lower side. -/
theorem generated_moves_well_targeted_witness :
    WellFormed ChessBoard.new ∧
    ∃ ms, gen_possible_moves ChessBoard.new PS_DOWN = some ms ∧
      ∀ m ∈ ms, (m.beginRow, m.beginCol) ≠ (m.endRow, m.endCol) ∧
        piece_get_side (ChessBoard.new.cell m.beginRow m.beginCol) = PS_DOWN ∧
        ChessBoard.new.cell m.endRow m.endCol ≠ P_EO ∧
        piece_get_side (ChessBoard.new.cell m.endRow m.endCol) ≠ PS_DOWN :=
  ⟨by decide, generated_moves_well_targeted ChessBoard.new (by decide) PS_DOWN⟩

/-- C3, as the code behaves. `gen_possible_moves_for_pawn` fills a copy of the vector, so no
move that the generator returns starts on a pawn, on any board. On the starting board the lower
pawn on (8, 2) faces the empty cell (7, 2), and the move (8, 2) -> (7, 2) is not among the
moves returned for the lower side. -/
theorem pawn_moves_are_not_generated :
    (∀ (cb : ChessBoard) (side : PieceSide) (ms : PossibleMoves),
      gen_possible_moves cb side = some ms →
      ∀ m ∈ ms, piece_get_type (cb.cell m.beginRow m.beginCol) ≠ PT_PAWN) ∧
    WellFormed ChessBoard.new ∧
    ChessBoard.new.cell 8 2 = P_DP ∧ ChessBoard.new.cell 7 2 = P_EE ∧
    ∃ ms, gen_possible_moves ChessBoard.new PS_DOWN = some ms ∧
      (⟨8, 2, 7, 2⟩ : MoveNode) ∉ ms := by
  refine ⟨?_, by decide, by decide, by decide, by decide⟩
  intro cb side ms h m hm
  obtain ⟨_, _, _, _, ⟨_, _, bp, _, hb, _⟩, hnp⟩ := gen_possible_moves_sound h hm
  rw [cell_of_get hb]
  exact hnp bp hb

/-- C4, as the code behaves: on the freshly constructed board the generator returns 39 moves
for the lower side, the 44 of the standard opening position less the five pawn moves. -/
theorem opening_move_count_is_39 :
    (gen_possible_moves ChessBoard.new PS_DOWN).map List.length = some 39 := by
  decide

/-- C8, as the code behaves. On a well-formed board with both generals in their palaces and
facing each other on an open file, the upper general's flying capture (2, 6) -> (11, 6) is
generated for the upper side and lands on the lower general; after it only the upper general
remains, and `check_winner` returns `PS_DOWN`. The mirrored capture by the lower general also
gives `PS_DOWN`. -/
theorem winner_after_flying_capture :
    WellFormed facingGeneralsBoard ∧
    upperGeneralInPalace facingGeneralsBoard ∧ lowerGeneralInPalace facingGeneralsBoard ∧
    (∃ ms, gen_possible_moves facingGeneralsBoard PS_UP = some ms ∧
      (⟨2, 6, 11, 6⟩ : MoveNode) ∈ ms) ∧
    facingGeneralsBoard.cell 11 6 = P_DG ∧
    (∃ cb, facingGeneralsBoard.move ⟨2, 6, 11, 6⟩ = some cb ∧ cb.cell 11 6 = P_UG ∧
      cb.cell 2 6 = P_EE ∧ check_winner cb = some PS_DOWN) ∧
    (facingGeneralsBoard.move ⟨11, 6, 2, 6⟩).bind check_winner = some PS_DOWN := by
  refine ⟨by decide, ⟨2, 6, by decide, by decide⟩, ⟨11, 6, by decide, by decide⟩, by decide,
    by decide, ?_, by decide⟩
  obtain ⟨cb, h, _, hg⟩ := move_spec facingGeneralsBoard ⟨2, 6, 11, 6⟩ (by decide)
  refine ⟨cb, h, ?_, ?_, ?_⟩
  · exact cell_of_get (by rw [hg]; decide)
  · exact cell_of_get (by rw [hg]; decide)
  · have : (facingGeneralsBoard.move ⟨2, 6, 11, 6⟩).bind check_winner = some PS_DOWN := by
      decide
    rw [h] at this
    exact this

/-! ## The moves of one cell among the generated moves -/

theorem filter_eq_nil_of_forall_not {l : List MoveNode} {q : MoveNode → Bool}
    (h : ∀ m ∈ l, q m = false) : l.filter q = [] := by
  rw [List.filter_eq_nil_iff]
  intro m hm
  simp [h m hm]

/-- Filtering the result of the row loop by a predicate that only accepts moves starting on
`(r, c)`: only the step at `(r, c)`, which appends `l`, contributes. -/
theorem gen_possible_moves_row_filter (cb : ChessBoard) (side : PieceSide) (r c : Int)
    (l : List MoveNode) (hl : ∀ pm, gen_possible_moves_cell cb side r c pm = some (pm ++ l))
    (q : MoveNode → Bool) (hq : ∀ m, q m = true → startsAt r c m) (r1 : Int)
    (cols : List Int) (hnd : cols.Nodup) :
    ∀ pm pm1, gen_possible_moves_row cb side r1 cols pm = some pm1 →
      pm1.filter q = pm.filter q ++ (if r1 = r ∧ c ∈ cols then l.filter q else []) := by
  induction cols with
  | nil =>
    intro pm pm1 h
    simp only [gen_possible_moves_row, Option.some.injEq] at h
    simp [h]
  | cons c1 cs ih =>
    intro pm pm2 h
    unfold gen_possible_moves_row at h
    cases h1 : gen_possible_moves_cell cb side r1 c1 pm with
    | none => simp [h1] at h
    | some pm1 =>
      simp only [h1, Option.bind_eq_bind, Option.some_bind] at h
      have hnd1 := List.nodup_cons.mp hnd
      rw [ih hnd1.2 pm1 pm2 h]
      by_cases e : r1 = r ∧ c1 = c
      · obtain ⟨rfl, rfl⟩ := e
        rw [hl pm, Option.some.injEq] at h1
        subst h1
        simp [hnd1.1, List.filter_append]
      · obtain ⟨l1, e1, p1⟩ := gen_possible_moves_cell_ext cb side r1 c1 pm pm1 h1
        have hnil : l1.filter q = [] := by
          apply filter_eq_nil_of_forall_not
          intro m hm
          by_contra hqm
          have hs := hq m (by simpa using hqm)
          obtain ⟨⟨hb1, hb2, _⟩, _⟩ := p1 m hm
          exact e ⟨hb1.symm.trans hs.1, hb2.symm.trans hs.2⟩
        rw [e1, List.filter_append, hnil, List.append_nil]
        congr 1
        by_cases hr : r1 = r
        · have hc : c1 ≠ c := fun hc => e ⟨hr, hc⟩
          simp [hr, List.mem_cons, Ne.symm hc]
        · simp [hr]

theorem gen_possible_moves_rows_filter (cb : ChessBoard) (side : PieceSide) (r c : Int)
    (hc : c ∈ playableCols)
    (l : List MoveNode) (hl : ∀ pm, gen_possible_moves_cell cb side r c pm = some (pm ++ l))
    (q : MoveNode → Bool) (hq : ∀ m, q m = true → startsAt r c m)
    (rows : List Int) (hnd : rows.Nodup) :
    ∀ pm pm1, gen_possible_moves_rows cb side rows pm = some pm1 →
      pm1.filter q = pm.filter q ++ (if r ∈ rows then l.filter q else []) := by
  induction rows with
  | nil =>
    intro pm pm1 h
    simp only [gen_possible_moves_rows, Option.some.injEq] at h
    simp [h]
  | cons r1 rs ih =>
    intro pm pm2 h
    unfold gen_possible_moves_rows at h
    cases h1 : gen_possible_moves_row cb side r1 playableCols pm with
    | none => simp [h1] at h
    | some pm1 =>
      simp only [h1, Option.bind_eq_bind, Option.some_bind] at h
      have hnd1 := List.nodup_cons.mp hnd
      rw [ih hnd1.2 pm1 pm2 h,
        gen_possible_moves_row_filter cb side r c l hl q hq r1 playableCols (by decide) pm pm1 h1]
      by_cases e : r1 = r
      · subst e
        simp [hnd1.1, hc]
      · simp [e, List.mem_cons, Ne.symm e]

/-- Among the moves the generator returns, those accepted by a predicate that only accepts
moves starting on the playable cell `(r, c)` are those of the list `l` that the loop body
appends at `(r, c)`, in the same order. -/
theorem gen_possible_moves_filter_cell {cb : ChessBoard} {side : PieceSide} {r c : Int}
    (hpl : playable r c) {l : List MoveNode}
    (hl : ∀ pm, gen_possible_moves_cell cb side r c pm = some (pm ++ l))
    {q : MoveNode → Bool} (hq : ∀ m, q m = true → startsAt r c m)
    {ms : PossibleMoves} (h : gen_possible_moves cb side = some ms) :
    ms.filter q = l.filter q := by
  have hrc := playable_iff.mp hpl
  have := gen_possible_moves_rows_filter cb side r c hrc.2 l hl q hq playableRows (by decide)
    [] ms h
  simpa [hrc.1] using this

/-! ## The cannon -/

theorem rayMove_onRay_iff (r c : Int) {rGap cGap rGap1 cGap1 : Int}
    (hd : isUnitDir rGap cGap) (hd1 : isUnitDir rGap1 cGap1) {k : Nat} (h1 : 1 ≤ k)
    (h13 : k ≤ 13) :
    onRay r c rGap cGap (rayMove r c rGap1 cGap1 k) ↔ rGap = rGap1 ∧ cGap = cGap1 := by
  unfold onRay rayMove
  simp only [List.mem_range]
  constructor
  · rintro ⟨j, hj, hj1, e1, e2⟩
    rcases hd with ⟨rfl, rfl⟩ | ⟨rfl, rfl⟩ | ⟨rfl, rfl⟩ | ⟨rfl, rfl⟩ <;>
      rcases hd1 with ⟨rfl, rfl⟩ | ⟨rfl, rfl⟩ | ⟨rfl, rfl⟩ | ⟨rfl, rfl⟩ <;>
      first
        | exact ⟨rfl, rfl⟩
        | (exfalso; omega)
  · rintro ⟨rfl, rfl⟩
    exact ⟨k, by omega, h1, rfl, rfl⟩

theorem filter_ray_same {r c rGap cGap : Int} (hd : isUnitDir rGap cGap)
    {L : List MoveNode} (hL : AllOnRay r c rGap cGap L) :
    L.filter (fun m => decide (startsAt r c m ∧ onRay r c rGap cGap m)) = L := by
  rw [List.filter_eq_self]
  intro m hm
  obtain ⟨k, h1, h10, rfl⟩ := hL m hm
  simp only [decide_eq_true_eq]
  exact ⟨⟨rfl, rfl⟩, (rayMove_onRay_iff r c hd hd h1 (by omega)).mpr ⟨rfl, rfl⟩⟩

theorem filter_ray_other {r c rGap cGap rGap1 cGap1 : Int} (hd : isUnitDir rGap cGap)
    (hd1 : isUnitDir rGap1 cGap1) (hne : ¬ (rGap = rGap1 ∧ cGap = cGap1))
    {L : List MoveNode} (hL : AllOnRay r c rGap1 cGap1 L) :
    L.filter (fun m => decide (startsAt r c m ∧ onRay r c rGap cGap m)) = [] := by
  apply filter_eq_nil_of_forall_not
  intro m hm
  obtain ⟨k, h1, h10, rfl⟩ := hL m hm
  simp only [decide_eq_false_iff_not, not_and]
  intro _ h
  exact hne ((rayMove_onRay_iff r c hd hd1 h1 (by omega)).mp h)

/-- One direction of the cannon on a well-formed board: the moves it appends are a list `L`
that does not depend on the vector it appends to, and that is what `CannonRay` describes. -/
theorem cannon_direction_emits {cb : ChessBoard} (hwf : WellFormed cb) {r c : Int}
    (hpl : playable r c) {rGap cGap : Int} (hd : isUnitDir rGap cGap) (side : PieceSide) :
    ∃ L, (∀ pm, gen_possible_moves_for_cannon_one_direction cb pm r c rGap cGap side =
        some (pm ++ L)) ∧
      CannonRay cb side r c rGap cGap L ∧ AllOnRay r c rGap cGap L := by
  obtain ⟨k0, h1, h10, hempty, hne, caps, hrun, hout, hcap⟩ :=
    cannon_direction_wf hwf hpl hd side
  refine ⟨_, hrun, ⟨k0, h1, hempty, hne, caps, rfl, hout, ?_⟩, ?_⟩
  · intro hs
    obtain ⟨k1, hlt, _, he1, hne1, hc⟩ := hcap hs
    exact ⟨k1, hlt, he1, hne1, hc⟩
  · intro m hm
    rcases List.mem_append.mp hm with hm | hm
    · obtain ⟨i, hi, rfl⟩ := List.mem_map.mp hm
      rw [List.mem_range] at hi
      exact ⟨i + 1, by omega, by omega, rfl⟩
    · by_cases hs : cb.cell (r + k0 * rGap) (c + k0 * cGap) = P_EO
      · rw [hout hs] at hm
        simp at hm
      · obtain ⟨k1, hlt, hk10, _, _, hc⟩ := hcap hs
        rw [hc] at hm
        split at hm
        · rw [List.mem_singleton] at hm
          exact ⟨k1, by omega, hk10, hm⟩
        · simp at hm

theorem gen_possible_moves_cell_cannon {cb : ChessBoard} {side : PieceSide} {r c : Int}
    (hpl : playable r c) (ht : piece_get_type (cb.cell r c) = PT_CANNON)
    (hs : piece_get_side (cb.cell r c) = side) (pm : PossibleMoves) :
    gen_possible_moves_cell cb side r c pm = gen_possible_moves_for_cannon cb pm r c side := by
  unfold gen_possible_moves_cell
  simp only [get_eq_cell cb (playable_inGrid hpl), Option.bind_eq_bind, Option.some_bind, hs,
    if_true, ht]

/-- When the distances of the screen and of the first piece beyond it are known, and that
piece is an enemy, `CannonRay` fixes the list: the moves to the empty cells before the screen,
then the one capture. -/
theorem cannonRay_with_screen {cb : ChessBoard} {side : PieceSide} {r c rGap cGap : Int}
    {L : List MoveNode} (h : CannonRay cb side r c rGap cGap L) {k0 k1 : Nat}
    (h0 : 1 ≤ k0) (h01 : k0 < k1)
    (hbefore : ∀ i : Nat, 1 ≤ i → i < k0 → cb.cell (r + i * rGap) (c + i * cGap) = P_EE)
    (hscreen : cb.cell (r + k0 * rGap) (c + k0 * cGap) ≠ P_EE ∧
      cb.cell (r + k0 * rGap) (c + k0 * cGap) ≠ P_EO)
    (hbetween : ∀ i : Nat, k0 < i → i < k1 → cb.cell (r + i * rGap) (c + i * cGap) = P_EE)
    (henemy : piece_get_side (cb.cell (r + k1 * rGap) (c + k1 * cGap)) =
      piece_side_get_reverse side)
    (hside : side ≠ PS_EXTRA) :
    L = (List.range (k0 - 1)).map (fun i => rayMove r c rGap cGap (i + 1)) ++
      [rayMove r c rGap cGap k1] := by
  obtain ⟨j0, hj0, hb, hs, caps, hL, _, hcap⟩ := h
  have e0 : j0 = k0 := by
    rcases Nat.lt_trichotomy j0 k0 with hlt | heq | hgt
    · exact absurd (hbefore j0 hj0 hlt) hs
    · exact heq
    · exact absurd (hb k0 h0 hgt) hscreen.1
  subst e0
  obtain ⟨j1, hj1, hbt, hs1, hc⟩ := hcap hscreen.2
  have hk1 : cb.cell (r + k1 * rGap) (c + k1 * cGap) ≠ P_EE := by
    intro e
    rw [e] at henemy
    cases side <;> simp [piece_get_side, piece_side_get_reverse] at henemy hside
  have e1 : j1 = k1 := by
    rcases Nat.lt_trichotomy j1 k1 with hlt | heq | hgt
    · exact absurd (hbetween j1 hj1 hlt) hs1
    · exact heq
    · exact absurd (hbt k1 h01 hgt) hk1
  subst e1
  rw [hL, hc, if_pos henemy]

/-- C10. On a well-formed board, for a cannon of `side` on the playable cell `(r, c)` and
each of the four directions, the generator returns for `side`, and the moves it returns that
start on `(r, c)` and end on that ray are, in order, what `CannonRay` describes: one move to
each empty cell before the screen, then, when the screen is a piece, one move onto the first
cell beyond the screen that is not empty if and only if that cell holds an enemy piece. In
particular, with a piece `k0` steps away as the only thing between the cannon and an enemy
piece `k1` steps away, these moves are the `k0 - 1` moves to the empty cells before the screen
and the one capture onto the enemy piece: no move onto the screen, none to an empty cell
beyond it. -/
theorem cannon_moves_on_ray (cb : ChessBoard) (hwf : WellFormed cb) (side : PieceSide)
    (r c : Int) (hpl : playable r c) (ht : piece_get_type (cb.cell r c) = PT_CANNON)
    (hs : piece_get_side (cb.cell r c) = side) (rGap cGap : Int)
    (hd : isUnitDir rGap cGap) :
    ∃ ms, gen_possible_moves cb side = some ms ∧
      CannonRay cb side r c rGap cGap
        (ms.filter (fun m => decide (startsAt r c m ∧ onRay r c rGap cGap m))) ∧
      ∀ k0 k1 : Nat, 1 ≤ k0 → k0 < k1 →
        (∀ i : Nat, 1 ≤ i → i < k0 → cb.cell (r + i * rGap) (c + i * cGap) = P_EE) →
        (cb.cell (r + k0 * rGap) (c + k0 * cGap) ≠ P_EE ∧
          cb.cell (r + k0 * rGap) (c + k0 * cGap) ≠ P_EO) →
        (∀ i : Nat, k0 < i → i < k1 → cb.cell (r + i * rGap) (c + i * cGap) = P_EE) →
        piece_get_side (cb.cell (r + k1 * rGap) (c + k1 * cGap)) =
          piece_side_get_reverse side →
        ms.filter (fun m => decide (startsAt r c m ∧ onRay r c rGap cGap m)) =
          (List.range (k0 - 1)).map (fun i => rayMove r c rGap cGap (i + 1)) ++
            [rayMove r c rGap cGap k1] := by
  obtain ⟨ms, hms⟩ := gen_possible_moves_total hwf side
  have hside : side ≠ PS_EXTRA := by
    rw [← hs]
    revert ht
    cases cb.cell r c <;> simp [piece_get_type, piece_get_side]
  suffices hray : CannonRay cb side r c rGap cGap
      (ms.filter (fun m => decide (startsAt r c m ∧ onRay r c rGap cGap m))) from
    ⟨ms, hms, hray, fun k0 k1 h0 h01 hb hsc hbt hen =>
      cannonRay_with_screen hray h0 h01 hb hsc hbt hen hside⟩
  have dU : isUnitDir (-1) 0 := Or.inl ⟨rfl, rfl⟩
  have dD : isUnitDir 1 0 := Or.inr (Or.inl ⟨rfl, rfl⟩)
  have dL : isUnitDir 0 (-1) := Or.inr (Or.inr (Or.inl ⟨rfl, rfl⟩))
  have dR : isUnitDir 0 1 := Or.inr (Or.inr (Or.inr ⟨rfl, rfl⟩))
  obtain ⟨L1, run1, ray1, on1⟩ := cannon_direction_emits hwf hpl dU side
  obtain ⟨L2, run2, ray2, on2⟩ := cannon_direction_emits hwf hpl dD side
  obtain ⟨L3, run3, ray3, on3⟩ := cannon_direction_emits hwf hpl dL side
  obtain ⟨L4, run4, ray4, on4⟩ := cannon_direction_emits hwf hpl dR side
  have hl : ∀ pm, gen_possible_moves_cell cb side r c pm =
      some (pm ++ (L1 ++ (L2 ++ (L3 ++ L4)))) := by
    intro pm
    rw [gen_possible_moves_cell_cannon hpl ht hs]
    unfold gen_possible_moves_for_cannon
    simp only [run1, run2, run3, run4, Option.bind_eq_bind, Option.some_bind,
      List.append_assoc]
  rw [gen_possible_moves_filter_cell hpl hl (fun m hm => (of_decide_eq_true hm).1) hms]
  simp only [List.filter_append]
  rcases hd with ⟨rfl, rfl⟩ | ⟨rfl, rfl⟩ | ⟨rfl, rfl⟩ | ⟨rfl, rfl⟩
  · rw [filter_ray_same dU on1, filter_ray_other dU dD (by decide) on2,
      filter_ray_other dU dL (by decide) on3, filter_ray_other dU dR (by decide) on4]
    simpa using ray1
  · rw [filter_ray_other dD dU (by decide) on1, filter_ray_same dD on2,
      filter_ray_other dD dL (by decide) on3, filter_ray_other dD dR (by decide) on4]
    simpa using ray2
  · rw [filter_ray_other dL dU (by decide) on1, filter_ray_other dL dD (by decide) on2,
      filter_ray_same dL on3, filter_ray_other dL dR (by decide) on4]
    simpa using ray3
  · rw [filter_ray_other dR dU (by decide) on1, filter_ray_other dR dD (by decide) on2,
      filter_ray_other dR dL (by decide) on3, filter_ray_same dR on4]
    simpa using ray4

/-- An instance of C10: the lower cannon on (9, 3) of the starting board, looking up. The
upper cannon on (4, 3) is its screen, five steps away, and the upper knight on (2, 3), seven
steps away, is captured. -/
theorem cannon_moves_on_ray_witness :
    WellFormed ChessBoard.new ∧ playable 9 3 ∧
    piece_get_type (ChessBoard.new.cell 9 3) = PT_CANNON ∧
    piece_get_side (ChessBoard.new.cell 9 3) = PS_DOWN ∧ isUnitDir (-1) 0 ∧
    ∃ ms, gen_possible_moves ChessBoard.new PS_DOWN = some ms ∧
      ms.filter (fun m => decide (startsAt 9 3 m ∧ onRay 9 3 (-1) 0 m)) =
        [⟨9, 3, 8, 3⟩, ⟨9, 3, 7, 3⟩, ⟨9, 3, 6, 3⟩, ⟨9, 3, 5, 3⟩, ⟨9, 3, 2, 3⟩] := by
  refine ⟨by decide, by decide, by decide, by decide, Or.inl ⟨rfl, rfl⟩, ?_⟩
  obtain ⟨ms, hms, _, h⟩ := cannon_moves_on_ray ChessBoard.new (by decide) PS_DOWN 9 3
    (by decide) (by decide) (by decide) (-1) 0 (Or.inl ⟨rfl, rfl⟩)
  refine ⟨ms, hms, ?_⟩
  have hbefore : ∀ i : Nat, 1 ≤ i → i < 5 →
      ChessBoard.new.cell (9 + i * (-1)) (3 + i * 0) = P_EE := by
    intro i h1 h5
    have : i = 1 ∨ i = 2 ∨ i = 3 ∨ i = 4 := by omega
    rcases this with rfl | rfl | rfl | rfl <;> decide
  have hbetween : ∀ i : Nat, 5 < i → i < 7 →
      ChessBoard.new.cell (9 + i * (-1)) (3 + i * 0) = P_EE := by
    intro i h5 h7
    obtain rfl : i = 6 := by omega
    decide
  rw [h 5 7 (by decide) (by decide) hbefore (by decide) hbetween (by decide)]
  decide

/-! ## Moves keep boards well-formed -/

theorem wf_of_cells {cb : ChessBoard}
    (h : ∀ r c, inGrid r c →
      (playable r c → cb.cell r c ≠ P_EO) ∧ (¬ playable r c → cb.cell r c = P_EO)) :
    WellFormed cb := by
  intro i j
  have hij : inGrid (i.val : Int) (j.val : Int) := by
    unfold inGrid BOARD_ROW_LEN BOARD_COL_LEN; omega
  have hcell : cb.cell (i.val : Int) (j.val : Int) = (cb.data.get i).get j := by
    simp [ChessBoard.cell, ChessBoard.get, hij]
  rw [← hcell]
  by_cases hp : playable (i.val : Int) (j.val : Int)
  · rw [if_pos hp]; exact (h _ _ hij).1 hp
  · rw [if_neg hp]; exact (h _ _ hij).2 hp

/-- A move between two playable cells of a well-formed board succeeds and leaves a
well-formed board. -/
theorem move_preserves_wf {cb : ChessBoard} (hwf : WellFormed cb) {m : MoveNode}
    (hb : playable m.beginRow m.beginCol) (he : playable m.endRow m.endCol) :
    ∃ cb1, cb.move m = some cb1 ∧ WellFormed cb1 := by
  have hin : m.inGrid := ⟨playable_inGrid hb, playable_inGrid he⟩
  obtain ⟨cb1, h1, _, hg⟩ := move_spec cb m hin
  refine ⟨cb1, h1, wf_of_cells (fun r c hrc => ?_)⟩
  have hc : cb1.cell r c =
      if r = m.endRow ∧ c = m.endCol then cb.cell m.beginRow m.beginCol
      else if r = m.beginRow ∧ c = m.beginCol then P_EE else cb.cell r c := by
    unfold ChessBoard.cell
    rw [hg]
    split
    · rfl
    · split <;> rfl
  rw [hc]
  by_cases e1 : r = m.endRow ∧ c = m.endCol
  · rw [if_pos e1, e1.1, e1.2]
    exact ⟨fun _ => (wf_cell hwf hin.1).1 hb, fun hn => absurd he hn⟩
  · rw [if_neg e1]
    by_cases e2 : r = m.beginRow ∧ c = m.beginCol
    · rw [if_pos e2, e2.1, e2.2]
      exact ⟨fun _ => by decide, fun hn => absurd hb hn⟩
    · rw [if_neg e2]
      exact wf_cell hwf hrc

/-- A generated move, applied to the well-formed board it was generated for: the move
succeeds, the board it gives is well-formed, and undoing it gives back the board. -/
theorem generated_move_applies {cb : ChessBoard} (hwf : WellFormed cb) {side : PieceSide}
    {ms : PossibleMoves} (h : gen_possible_moves cb side = some ms) {m : MoveNode}
    (hm : m ∈ ms) :
    ∃ cb1, cb.move m = some cb1 ∧ WellFormed cb1 ∧ cb1.undo = some cb := by
  obtain ⟨hb, hp⟩ := gen_possible_moves_pseudo_legal h hm
  obtain ⟨_, ep, _, _, he, hne, _⟩ := hp
  have hpe : playable m.endRow m.endCol :=
    playable_of_ne_out hwf (inGrid_of_get he) (by rw [cell_of_get he]; exact hne)
  obtain ⟨cb1, h1, hwf1⟩ := move_preserves_wf hwf hb hpe
  refine ⟨cb1, h1, hwf1, ?_⟩
  have := move_undo cb m ⟨playable_inGrid hb, playable_inGrid hpe⟩
  rwa [h1, Option.some_bind] at this

/-! ## The score -/

theorem board_calc_score_row_total (V : ValueTables) (cb : ChessBoard) {r : Int}
    (hr : r ∈ playableRows) (cols : List Int) (hc : ∀ c ∈ cols, c ∈ playableCols)
    (total : Int) : ∃ s, board_calc_score_row V cb r cols total = some s := by
  induction cols generalizing total with
  | nil => exact ⟨total, rfl⟩
  | cons c cs ih =>
    have hin : inGrid r c :=
      playable_inGrid (playable_iff.mpr ⟨hr, hc c (List.mem_cons_self _ _)⟩)
    have ih1 := fun t => ih (fun c1 h1 => hc c1 (List.mem_cons_of_mem _ h1)) t
    unfold board_calc_score_row
    simp only [get_eq_cell cb hin, Option.bind_eq_bind, Option.some_bind]
    split
    · exact ih1 _
    · exact ih1 _

theorem board_calc_score_rows_total (V : ValueTables) (cb : ChessBoard) (rows : List Int)
    (hr : ∀ r ∈ rows, r ∈ playableRows) (total : Int) :
    ∃ s, board_calc_score_rows V cb rows total = some s := by
  induction rows generalizing total with
  | nil => exact ⟨total, rfl⟩
  | cons r rs ih =>
    obtain ⟨s1, h1⟩ := board_calc_score_row_total V cb (hr r (List.mem_cons_self _ _))
      playableCols (fun _ h => h) total
    obtain ⟨s2, h2⟩ := ih (fun r1 h => hr r1 (List.mem_cons_of_mem _ h)) s1
    exact ⟨s2, by simp only [board_calc_score_rows, h1, Option.bind_eq_bind,
      Option.some_bind, h2]⟩

/-- The score is defined on every board: the loops only read playable cells. -/
theorem board_calc_score_total (V : ValueTables) (cb : ChessBoard) :
    ∃ s, board_calc_score V cb = some s :=
  board_calc_score_rows_total V cb playableRows (fun _ h => h) 0

/-! ## The search leaves the board as it found it -/

theorem min_max_loop_up_frame (child : ChessBoard → Int → Int → Option (Int × ChessBoard))
    (cb : ChessBoard) (moves : List MoveNode)
    (hm : ∀ m ∈ moves, ∃ cb1, cb.move m = some cb1 ∧ cb1.undo = some cb ∧
      ∀ alpha beta, ∃ v, child cb1 alpha beta = some (v, cb1)) :
    ∀ alpha beta minValue,
      ∃ v, min_max_loop_up child moves cb alpha beta minValue = some (v, cb) := by
  induction moves with
  | nil => intro alpha beta minValue; exact ⟨minValue, rfl⟩
  | cons m rest ih =>
    intro alpha beta minValue
    obtain ⟨cb1, h1, h2, h3⟩ := hm m (List.mem_cons_self _ _)
    obtain ⟨v, hv⟩ := h3 alpha beta
    have ih1 := ih (fun m1 h => hm m1 (List.mem_cons_of_mem _ h))
    unfold min_max_loop_up
    simp only [h1, hv, h2, Option.bind_eq_bind, Option.some_bind]
    split
    · exact ⟨_, rfl⟩
    · exact ih1 _ _ _

theorem min_max_loop_down_frame (child : ChessBoard → Int → Int → Option (Int × ChessBoard))
    (cb : ChessBoard) (moves : List MoveNode)
    (hm : ∀ m ∈ moves, ∃ cb1, cb.move m = some cb1 ∧ cb1.undo = some cb ∧
      ∀ alpha beta, ∃ v, child cb1 alpha beta = some (v, cb1)) :
    ∀ alpha beta maxValue,
      ∃ v, min_max_loop_down child moves cb alpha beta maxValue = some (v, cb) := by
  induction moves with
  | nil => intro alpha beta maxValue; exact ⟨maxValue, rfl⟩
  | cons m rest ih =>
    intro alpha beta maxValue
    obtain ⟨cb1, h1, h2, h3⟩ := hm m (List.mem_cons_self _ _)
    obtain ⟨v, hv⟩ := h3 alpha beta
    have ih1 := ih (fun m1 h => hm m1 (List.mem_cons_of_mem _ h))
    unfold min_max_loop_down
    simp only [h1, hv, h2, Option.bind_eq_bind, Option.some_bind]
    split
    · exact ⟨_, rfl⟩
    · exact ih1 _ _ _

/-- On a well-formed board `min_max` returns, and the board it leaves is the board it was
given. -/
theorem min_max_frame (V : ValueTables) (searchDepth : Nat) :
    ∀ (cb : ChessBoard), WellFormed cb → ∀ (alpha beta : Int) (side : PieceSide),
      ∃ v, min_max V cb searchDepth alpha beta side = some (v, cb) := by
  induction searchDepth with
  | zero =>
    intro cb _ alpha beta side
    obtain ⟨s, hs⟩ := board_calc_score_total V cb
    exact ⟨s, by simp only [min_max, hs, Option.bind_eq_bind, Option.some_bind]⟩
  | succ d ih =>
    intro cb hwf alpha beta side
    have hchild : ∀ (s1 s2 : PieceSide) (ms : PossibleMoves),
        gen_possible_moves cb s1 = some ms →
        ∀ m ∈ ms, ∃ cb1, cb.move m = some cb1 ∧ cb1.undo = some cb ∧
          ∀ a b, ∃ v, min_max V cb1 d a b s2 = some (v, cb1) := by
      intro s1 s2 ms hms m hm
      obtain ⟨cb1, h1, hwf1, h2⟩ := generated_move_applies hwf hms hm
      exact ⟨cb1, h1, h2, fun a b => ih cb1 hwf1 a b s2⟩
    unfold min_max
    by_cases hu : side = PS_UP
    · obtain ⟨ms, hms⟩ := gen_possible_moves_total hwf PS_UP
      simp only [hu, if_true, hms, Option.bind_eq_bind, Option.some_bind]
      exact min_max_loop_up_frame _ cb ms (hchild PS_UP PS_DOWN ms hms) _ _ _
    · by_cases hd : side = PS_DOWN
      · obtain ⟨ms, hms⟩ := gen_possible_moves_total hwf PS_DOWN
        simp only [hd, if_true, hms, Option.bind_eq_bind, Option.some_bind]
        exact min_max_loop_down_frame _ cb ms (hchild PS_DOWN PS_UP ms hms) _ _ _
      · simp only [hu, hd, if_false]
        exact ⟨0, rfl⟩

theorem gen_best_move_loop_up_frame (V : ValueTables) (searchDepth : Nat) (alpha beta : Int)
    (cb : ChessBoard) (moves : List MoveNode)
    (hm : ∀ m ∈ moves, ∃ cb1, cb.move m = some cb1 ∧ cb1.undo = some cb ∧ WellFormed cb1) :
    ∀ minValue bestMove, ∃ mv,
      gen_best_move_loop_up V searchDepth alpha beta moves cb minValue bestMove =
        some (mv, cb) := by
  induction moves with
  | nil => intro minValue bestMove; exact ⟨bestMove, rfl⟩
  | cons m rest ih =>
    intro minValue bestMove
    obtain ⟨cb1, h1, h2, hwf1⟩ := hm m (List.mem_cons_self _ _)
    obtain ⟨v, hv⟩ := min_max_frame V searchDepth cb1 hwf1 alpha beta PS_DOWN
    have ih1 := ih (fun m1 h => hm m1 (List.mem_cons_of_mem _ h))
    unfold gen_best_move_loop_up
    simp only [h1, hv, h2, Option.bind_eq_bind, Option.some_bind]
    split
    · exact ih1 _ _
    · exact ih1 _ _

theorem gen_best_move_loop_down_frame (V : ValueTables) (searchDepth : Nat)
    (alpha beta : Int) (cb : ChessBoard) (moves : List MoveNode)
    (hm : ∀ m ∈ moves, ∃ cb1, cb.move m = some cb1 ∧ cb1.undo = some cb ∧ WellFormed cb1) :
    ∀ maxValue bestMove, ∃ mv,
      gen_best_move_loop_down V searchDepth alpha beta moves cb maxValue bestMove =
        some (mv, cb) := by
  induction moves with
  | nil => intro maxValue bestMove; exact ⟨bestMove, rfl⟩
  | cons m rest ih =>
    intro maxValue bestMove
    obtain ⟨cb1, h1, h2, hwf1⟩ := hm m (List.mem_cons_self _ _)
    obtain ⟨v, hv⟩ := min_max_frame V searchDepth cb1 hwf1 alpha beta PS_UP
    have ih1 := ih (fun m1 h => hm m1 (List.mem_cons_of_mem _ h))
    unfold gen_best_move_loop_down
    simp only [h1, hv, h2, Option.bind_eq_bind, Option.some_bind]
    split
    · exact ih1 _ _
    · exact ih1 _ _

/-- C6. On a well-formed board, for every depth, window and side, `min_max` returns and
`gen_best_move` returns, and each leaves the board, grid and history, as it was at the call:
within the search every applied move, on the pruned paths too, is undone before the loop goes
on or returns. -/
theorem search_restores_board (V : ValueTables) (cb : ChessBoard) (hwf : WellFormed cb)
    (searchDepth : Nat) (alpha beta : Int) (side : PieceSide) :
    (∃ v, min_max V cb searchDepth alpha beta side = some (v, cb)) ∧
    (∃ m, gen_best_move V cb side searchDepth = some (m, cb)) := by
  refine ⟨min_max_frame V searchDepth cb hwf alpha beta side, ?_⟩
  have hchild : ∀ (s1 : PieceSide) (ms : PossibleMoves),
      gen_possible_moves cb s1 = some ms →
      ∀ m ∈ ms, ∃ cb1, cb.move m = some cb1 ∧ cb1.undo = some cb ∧ WellFormed cb1 := by
    intro s1 ms hms m hm
    obtain ⟨cb1, h1, hwf1, h2⟩ := generated_move_applies hwf hms hm
    exact ⟨cb1, h1, h2, hwf1⟩
  unfold gen_best_move
  by_cases hu : side = PS_UP
  · obtain ⟨ms, hms⟩ := gen_possible_moves_total hwf PS_UP
    simp only [hu, if_true, hms, Option.bind_eq_bind, Option.some_bind]
    exact gen_best_move_loop_up_frame V searchDepth _ _ cb ms (hchild PS_UP ms hms) _ _
  · by_cases hd : side = PS_DOWN
    · obtain ⟨ms, hms⟩ := gen_possible_moves_total hwf PS_DOWN
      simp only [hd, if_true, hms, Option.bind_eq_bind, Option.some_bind]
      exact gen_best_move_loop_down_frame V searchDepth _ _ cb ms (hchild PS_DOWN ms hms) _ _
    · simp only [hu, hd, if_false]
      exact ⟨_, rfl⟩

/-! ## Scores are 32-bit values -/

theorem wrap_int32_add (a b : Int) : wrap_int32 (wrap_int32 a + b) = wrap_int32 (a + b) := by
  unfold wrap_int32
  omega

theorem wrap_int32_of_fits {x : Int} (h : INT32_MIN ≤ x ∧ x ≤ INT32_MAX) :
    wrap_int32 x = x := by
  unfold INT32_MIN INT32_MAX at h
  unfold wrap_int32
  omega

theorem wrap_int32_fits (x : Int) : INT32_MIN ≤ wrap_int32 x ∧ wrap_int32 x ≤ INT32_MAX := by
  unfold INT32_MIN INT32_MAX wrap_int32
  omega

theorem wrap_int32_idem (x : Int) : wrap_int32 (wrap_int32 x) = wrap_int32 x :=
  wrap_int32_of_fits (wrap_int32_fits x)

/-- The inner loop, started with an accumulator that holds a 32-bit value, ends with the
accumulator plus the sum of the row, reduced to 32 bits. -/
theorem board_calc_score_row_eq (V : ValueTables) (cb : ChessBoard) {r : Int}
    (hr : r ∈ playableRows) (cols : List Int) (hc : ∀ c ∈ cols, c ∈ playableCols)
    (total : Int) (ht : wrap_int32 total = total) :
    board_calc_score_row V cb r cols total =
      some (wrap_int32 (total + (cols.map (fun c => cell_score V (cb.cell r c) r c)).sum)) := by
  induction cols generalizing total with
  | nil => simp [board_calc_score_row, ht]
  | cons c cs ih =>
    have hin : inGrid r c :=
      playable_inGrid (playable_iff.mpr ⟨hr, hc c (List.mem_cons_self _ _)⟩)
    have ih1 := fun t => ih (fun c1 h1 => hc c1 (List.mem_cons_of_mem _ h1)) t
    unfold board_calc_score_row
    simp only [get_eq_cell cb hin, Option.bind_eq_bind, Option.some_bind, List.map_cons,
      List.sum_cons]
    by_cases hp : cb.cell r c = P_EE
    · simp only [hp, ne_eq, not_true_eq_false, if_false, ih1 total ht, cell_score]
      simp
    · simp only [hp, ne_eq, not_false_eq_true, if_true, ih1 _ (wrap_int32_idem _), cell_score,
        BOARD_ACTUAL_ROW_BEGIN, BOARD_ACTUAL_COL_BEGIN, Option.some.injEq]
      rw [wrap_int32_add, add_assoc, wrap_int32_add]
      congr 1
      ring

theorem board_calc_score_rows_eq (V : ValueTables) (cb : ChessBoard) (rows : List Int)
    (hr : ∀ r ∈ rows, r ∈ playableRows) (total : Int) (ht : wrap_int32 total = total) :
    board_calc_score_rows V cb rows total =
      some (wrap_int32 (total + (rows.map (fun r =>
        (playableCols.map (fun c => cell_score V (cb.cell r c) r c)).sum)).sum)) := by
  induction rows generalizing total with
  | nil => simp [board_calc_score_rows, ht]
  | cons r rs ih =>
    unfold board_calc_score_rows
    rw [board_calc_score_row_eq V cb (hr r (List.mem_cons_self _ _)) playableCols
      (fun _ h => h) total ht]
    simp only [Option.bind_eq_bind, Option.some_bind, List.map_cons, List.sum_cons]
    rw [ih (fun r1 h => hr r1 (List.mem_cons_of_mem _ h)) _ (wrap_int32_idem _),
      wrap_int32_add, add_assoc]

/-- The score of a board is the sum over its playable cells, reduced to 32 bits. -/
theorem board_calc_score_eq_wrap (V : ValueTables) (cb : ChessBoard) :
    board_calc_score V cb = some (wrap_int32 (score_sum V cb)) := by
  unfold board_calc_score score_sum
  rw [board_calc_score_rows_eq V cb playableRows (fun _ h => h) 0 (by decide), zero_add]

/-- The scores fit in an `int32_t`, whatever the tables: the accumulator is one. -/
theorem scoresFit_all (V : ValueTables) : ScoresFitInt32 V := by
  intro cb s h
  rw [board_calc_score_eq_wrap, Option.some.injEq] at h
  rw [← h]
  exact wrap_int32_fits _

theorem sampleTables_fit : ScoresFitInt32 sampleTables :=
  scoresFit_all sampleTables

/-! ## Alpha-beta against the reference search -/

theorem foldl_min_le (vs : List Int) (a : Int) : vs.foldl min a ≤ a := by
  induction vs generalizing a with
  | nil => exact le_refl a
  | cons v vs ih =>
    have := ih (min a v)
    simp only [List.foldl_cons]
    omega

theorem le_foldl_max (vs : List Int) (a : Int) : a ≤ vs.foldl max a := by
  induction vs generalizing a with
  | nil => exact le_refl a
  | cons v vs ih =>
    have := ih (max a v)
    simp only [List.foldl_cons]
    omega

theorem foldl_min_range (vs : List Int) (lo hi : Int) (h : ∀ n ∈ vs, lo ≤ n ∧ n ≤ hi)
    (a : Int) (ha : lo ≤ a ∧ a ≤ hi) : lo ≤ vs.foldl min a ∧ vs.foldl min a ≤ hi := by
  induction vs generalizing a with
  | nil => exact ha
  | cons v vs ih =>
    have hv := h v (List.mem_cons_self _ _)
    simp only [List.foldl_cons]
    exact ih (fun n hn => h n (List.mem_cons_of_mem _ hn)) _ (by omega)

theorem foldl_max_range (vs : List Int) (lo hi : Int) (h : ∀ n ∈ vs, lo ≤ n ∧ n ≤ hi)
    (a : Int) (ha : lo ≤ a ∧ a ≤ hi) : lo ≤ vs.foldl max a ∧ vs.foldl max a ≤ hi := by
  induction vs generalizing a with
  | nil => exact ha
  | cons v vs ih =>
    have hv := h v (List.mem_cons_self _ _)
    simp only [List.foldl_cons]
    exact ih (fun n hn => h n (List.mem_cons_of_mem _ hn)) _ (by omega)

theorem minimumOr_eq_foldl (vs : List Int) (hi : Int) (h : ∀ n ∈ vs, n ≤ hi) :
    minimumOr hi vs = vs.foldl min hi := by
  cases vs with
  | nil => rfl
  | cons v vs =>
    have hv := h v (List.mem_cons_self _ _)
    simp only [minimumOr, List.foldl_cons]
    rw [min_eq_right hv]

theorem maximumOr_eq_foldl (vs : List Int) (lo : Int) (h : ∀ n ∈ vs, lo ≤ n) :
    maximumOr lo vs = vs.foldl max lo := by
  cases vs with
  | nil => rfl
  | cons v vs =>
    have hv := h v (List.mem_cons_self _ _)
    simp only [maximumOr, List.foldl_cons]
    rw [max_eq_right hv]

/-- The loop of the minimising side against the reference. `minValue` is the running minimum
of the values returned so far and `mu` the running minimum of the exact values; the loop is
entered with `beta` already lowered to `min beta minValue`. -/
theorem min_max_loop_up_spec (child : ChessBoard → Int → Int → Option (Int × ChessBoard))
    (childNaive : ChessBoard → Option Int) (cb : ChessBoard) (alpha beta : Int)
    (hA : INT32_MIN ≤ alpha) (hB : beta ≤ INT32_MAX) (moves : List MoveNode)
    (hm : ∀ m ∈ moves, ∃ cb1, cb.move m = some cb1 ∧ cb1.undo = some cb ∧
      ∃ n, childNaive cb1 = some n ∧ INT32_MIN ≤ n ∧ n ≤ INT32_MAX ∧
        ∀ a b, a < b → INT32_MIN ≤ a → b ≤ INT32_MAX →
          ∃ v, child cb1 a b = some (v, cb1) ∧ FailSoft a b n v) :
    ∃ vs, naive_values childNaive cb moves = some vs ∧
      (∀ n ∈ vs, INT32_MIN ≤ n ∧ n ≤ INT32_MAX) ∧
      ∀ minValue mu : Int, alpha < min beta minValue →
        (beta ≤ minValue → minValue ≤ mu) → (minValue < beta → minValue = mu) →
        ∃ v, min_max_loop_up child moves cb alpha (min beta minValue) minValue = some (v, cb) ∧
          FailSoft alpha beta (vs.foldl min mu) v := by
  induction moves with
  | nil =>
    refine ⟨[], rfl, by simp, ?_⟩
    intro minValue mu h1 h2 h3
    refine ⟨minValue, rfl, ?_⟩
    simp only [List.foldl_nil]
    unfold FailSoft
    omega
  | cons m rest ih =>
    obtain ⟨cb1, hmv, hun, n, hn, hn1, hn2, hch⟩ := hm m (List.mem_cons_self _ _)
    obtain ⟨vs, hvs, hrange, hloop⟩ := ih (fun m1 h => hm m1 (List.mem_cons_of_mem _ h))
    refine ⟨n :: vs, ?_, ?_, ?_⟩
    · simp only [naive_values, hmv, hn, hvs, Option.bind_eq_bind, Option.some_bind]
    · intro x hx
      rcases List.mem_cons.mp hx with rfl | hx
      · exact ⟨hn1, hn2⟩
      · exact hrange x hx
    · intro minValue mu h1 h2 h3
      obtain ⟨v1, hv1, hfs⟩ := hch alpha (min beta minValue) h1 hA (by omega)
      unfold min_max_loop_up
      simp only [hmv, hv1, hun, Option.bind_eq_bind, Option.some_bind, List.foldl_cons]
      have hle := foldl_min_le vs (min mu n)
      unfold FailSoft at hfs
      by_cases hc : alpha ≥ min (min beta minValue) (min minValue v1)
      · rw [if_pos hc]
        refine ⟨_, rfl, ?_⟩
        unfold FailSoft
        omega
      · rw [if_neg hc]
        have e : min (min beta minValue) (min minValue v1) = min beta (min minValue v1) := by
          omega
        rw [e]
        exact hloop (min minValue v1) (min mu n) (by omega) (by omega) (by omega)

/-- The loop of the maximising side against the reference, the mirror image of
`min_max_loop_up_spec`. -/
theorem min_max_loop_down_spec (child : ChessBoard → Int → Int → Option (Int × ChessBoard))
    (childNaive : ChessBoard → Option Int) (cb : ChessBoard) (alpha beta : Int)
    (hA : INT32_MIN ≤ alpha) (hB : beta ≤ INT32_MAX) (moves : List MoveNode)
    (hm : ∀ m ∈ moves, ∃ cb1, cb.move m = some cb1 ∧ cb1.undo = some cb ∧
      ∃ n, childNaive cb1 = some n ∧ INT32_MIN ≤ n ∧ n ≤ INT32_MAX ∧
        ∀ a b, a < b → INT32_MIN ≤ a → b ≤ INT32_MAX →
          ∃ v, child cb1 a b = some (v, cb1) ∧ FailSoft a b n v) :
    ∃ vs, naive_values childNaive cb moves = some vs ∧
      (∀ n ∈ vs, INT32_MIN ≤ n ∧ n ≤ INT32_MAX) ∧
      ∀ maxValue mu : Int, max alpha maxValue < beta →
        (maxValue ≤ alpha → mu ≤ maxValue) → (alpha < maxValue → maxValue = mu) →
        ∃ v, min_max_loop_down child moves cb (max alpha maxValue) beta maxValue =
            some (v, cb) ∧
          FailSoft alpha beta (vs.foldl max mu) v := by
  induction moves with
  | nil =>
    refine ⟨[], rfl, by simp, ?_⟩
    intro maxValue mu h1 h2 h3
    refine ⟨maxValue, rfl, ?_⟩
    simp only [List.foldl_nil]
    unfold FailSoft
    omega
  | cons m rest ih =>
    obtain ⟨cb1, hmv, hun, n, hn, hn1, hn2, hch⟩ := hm m (List.mem_cons_self _ _)
    obtain ⟨vs, hvs, hrange, hloop⟩ := ih (fun m1 h => hm m1 (List.mem_cons_of_mem _ h))
    refine ⟨n :: vs, ?_, ?_, ?_⟩
    · simp only [naive_values, hmv, hn, hvs, Option.bind_eq_bind, Option.some_bind]
    · intro x hx
      rcases List.mem_cons.mp hx with rfl | hx
      · exact ⟨hn1, hn2⟩
      · exact hrange x hx
    · intro maxValue mu h1 h2 h3
      obtain ⟨v1, hv1, hfs⟩ := hch (max alpha maxValue) beta h1 (by omega) hB
      unfold min_max_loop_down
      simp only [hmv, hv1, hun, Option.bind_eq_bind, Option.some_bind, List.foldl_cons]
      have hle := le_foldl_max vs (max mu n)
      unfold FailSoft at hfs
      by_cases hc : max (max alpha maxValue) (max maxValue v1) ≥ beta
      · rw [if_pos hc]
        refine ⟨_, rfl, ?_⟩
        unfold FailSoft
        omega
      · rw [if_neg hc]
        have e : max (max alpha maxValue) (max maxValue v1) = max alpha (max maxValue v1) := by
          omega
        rw [e]
        exact hloop (max maxValue v1) (max mu n) (by omega) (by omega) (by omega)

/-- Alpha-beta with any window inside the `int32_t` range, against the reference: on a
well-formed board, for the upper and the lower side, `min_max` returns a value that is
fail-soft correct for the window, and leaves the board as it was. -/
theorem min_max_fail_soft (V : ValueTables) (hV : ScoresFitInt32 V) (searchDepth : Nat) :
    ∀ (cb : ChessBoard), WellFormed cb → ∀ (side : PieceSide), side ≠ PS_EXTRA →
      ∃ n, naive V searchDepth cb side = some n ∧ INT32_MIN ≤ n ∧ n ≤ INT32_MAX ∧
        ∀ alpha beta, alpha < beta → INT32_MIN ≤ alpha → beta ≤ INT32_MAX →
          ∃ v, min_max V cb searchDepth alpha beta side = some (v, cb) ∧
            FailSoft alpha beta n v := by
  induction searchDepth with
  | zero =>
    intro cb _ side _
    obtain ⟨s, hs⟩ := board_calc_score_total V cb
    have hr := hV cb s hs
    refine ⟨s, by simp only [naive, hs], hr.1, hr.2, ?_⟩
    intro alpha beta _ _ _
    refine ⟨s, by simp only [min_max, hs, Option.bind_eq_bind, Option.some_bind], ?_⟩
    unfold FailSoft
    omega
  | succ d ih =>
    intro cb hwf side hside
    have hchild : ∀ (s1 s2 : PieceSide) (ms : PossibleMoves), s2 ≠ PS_EXTRA →
        gen_possible_moves cb s1 = some ms →
        ∀ m ∈ ms, ∃ cb1, cb.move m = some cb1 ∧ cb1.undo = some cb ∧
          ∃ n, naive V d cb1 s2 = some n ∧ INT32_MIN ≤ n ∧ n ≤ INT32_MAX ∧
            ∀ a b, a < b → INT32_MIN ≤ a → b ≤ INT32_MAX →
              ∃ v, min_max V cb1 d a b s2 = some (v, cb1) ∧ FailSoft a b n v := by
      intro s1 s2 ms hs2 hms m hm
      obtain ⟨cb1, h1, hwf1, h2⟩ := generated_move_applies hwf hms hm
      exact ⟨cb1, h1, h2, ih cb1 hwf1 s2 hs2⟩
    have hmin : INT32_MIN ≤ INT32_MAX := by decide
    cases side with
    | PS_EXTRA => exact absurd rfl hside
    | PS_UP =>
      obtain ⟨ms, hms⟩ := gen_possible_moves_total hwf PS_UP
      have key := fun alpha beta hA hB =>
        min_max_loop_up_spec (fun cb a b => min_max V cb d a b PS_DOWN)
          (fun cb1 => naive V d cb1 PS_DOWN) cb alpha beta hA hB ms
          (hchild PS_UP PS_DOWN ms (by decide) hms)
      obtain ⟨vs, hvs, hrange, _⟩ := key INT32_MIN INT32_MAX (le_refl _) (le_refl _)
      have hfold := foldl_min_range vs INT32_MIN INT32_MAX hrange INT32_MAX ⟨hmin, le_refl _⟩
      have heq := minimumOr_eq_foldl vs INT32_MAX (fun n hn => (hrange n hn).2)
      refine ⟨vs.foldl min INT32_MAX, ?_, hfold.1, hfold.2, ?_⟩
      · simp only [naive, hms, hvs, heq, Option.bind_eq_bind, Option.some_bind]
      · intro alpha beta hab hA hB
        obtain ⟨vs1, hvs1, _, hloop⟩ := key alpha beta hA hB
        rw [hvs, Option.some.injEq] at hvs1
        subst hvs1
        have := hloop INT32_MAX INT32_MAX (by omega) (by omega) (by omega)
        rw [min_eq_left hB] at this
        simpa only [min_max, if_true, hms, Option.bind_eq_bind, Option.some_bind] using this
    | PS_DOWN =>
      obtain ⟨ms, hms⟩ := gen_possible_moves_total hwf PS_DOWN
      have key := fun alpha beta hA hB =>
        min_max_loop_down_spec (fun cb a b => min_max V cb d a b PS_UP)
          (fun cb1 => naive V d cb1 PS_UP) cb alpha beta hA hB ms
          (hchild PS_DOWN PS_UP ms (by decide) hms)
      obtain ⟨vs, hvs, hrange, _⟩ := key INT32_MIN INT32_MAX (le_refl _) (le_refl _)
      have hfold := foldl_max_range vs INT32_MIN INT32_MAX hrange INT32_MIN ⟨le_refl _, hmin⟩
      have heq := maximumOr_eq_foldl vs INT32_MIN (fun n hn => (hrange n hn).1)
      refine ⟨vs.foldl max INT32_MIN, ?_, hfold.1, hfold.2, ?_⟩
      · simp only [naive, hms, hvs, heq, Option.bind_eq_bind, Option.some_bind]
      · intro alpha beta hab hA hB
        obtain ⟨vs1, hvs1, _, hloop⟩ := key alpha beta hA hB
        rw [hvs, Option.some.injEq] at hvs1
        subst hvs1
        have := hloop INT32_MIN INT32_MIN (by omega) (by omega) (by omega)
        rw [max_eq_left hA] at this
        simpa only [min_max, if_true, hms, Option.bind_eq_bind, Option.some_bind,
          reduceCtorEq, if_false] using this

/-- C5. With board scores that fit in an `int32_t`, on a well-formed board, for the upper and
the lower side and every depth, `min_max` with the full window `(INT32_MIN, INT32_MAX)`
returns the value of the unpruned reference minimax `naive`. -/
theorem min_max_eq_naive (V : ValueTables) (hV : ScoresFitInt32 V) (cb : ChessBoard)
    (hwf : WellFormed cb) (side : PieceSide) (hside : side = PS_UP ∨ side = PS_DOWN)
    (searchDepth : Nat) :
    ∃ v, min_max V cb searchDepth INT32_MIN INT32_MAX side = some (v, cb) ∧
      naive V searchDepth cb side = some v := by
  have hne : side ≠ PS_EXTRA := by rcases hside with rfl | rfl <;> decide
  obtain ⟨n, hn, h1, h2, hfs⟩ := min_max_fail_soft V hV searchDepth cb hwf side hne
  obtain ⟨v, hv, hf⟩ := hfs INT32_MIN INT32_MAX (by decide) (le_refl _) (le_refl _)
  refine ⟨v, hv, ?_⟩
  rw [hn]
  congr 1
  unfold FailSoft at hf
  omega

/-- An instance of C5: the starting board, the lower side to move, depth 3, with the sample
value tables. -/
theorem min_max_eq_naive_witness :
    ScoresFitInt32 sampleTables ∧ WellFormed ChessBoard.new ∧
    ∃ v, min_max sampleTables ChessBoard.new 3 INT32_MIN INT32_MAX PS_DOWN =
        some (v, ChessBoard.new) ∧
      naive sampleTables 3 ChessBoard.new PS_DOWN = some v :=
  ⟨sampleTables_fit, by decide,
    min_max_eq_naive sampleTables sampleTables_fit ChessBoard.new (by decide) PS_DOWN
      (Or.inr rfl) 3⟩

/-! ## The best move -/

theorem min_max_full_window_range (V : ValueTables) (hV : ScoresFitInt32 V)
    (searchDepth : Nat) {cb : ChessBoard} (hwf : WellFormed cb) {side : PieceSide}
    (hside : side ≠ PS_EXTRA) :
    ∃ v, min_max V cb searchDepth INT32_MIN INT32_MAX side = some (v, cb) ∧
      INT32_MIN ≤ v ∧ v ≤ INT32_MAX := by
  obtain ⟨n, _, h1, h2, hfs⟩ := min_max_fail_soft V hV searchDepth cb hwf side hside
  obtain ⟨v, hv, hf⟩ := hfs INT32_MIN INT32_MAX (by decide) (le_refl _) (le_refl _)
  refine ⟨v, hv, ?_⟩
  unfold FailSoft at hf
  omega

/-- The loop of the upper side in `gen_best_move`: either it returns a move of the list, the
one with the largest index among those whose value is the least, that value being at most the
`minValue` it started with; or every value exceeds that `minValue` and it returns the
`bestMove` it started with. -/
theorem gen_best_move_loop_up_spec (V : ValueTables) (searchDepth : Nat) (cb : ChessBoard)
    (moves : List MoveNode)
    (hm : ∀ m ∈ moves, ∃ cb1, cb.move m = some cb1 ∧ cb1.undo = some cb ∧
      ∃ v, min_max V cb1 searchDepth INT32_MIN INT32_MAX PS_DOWN = some (v, cb1)) :
    ∀ minValue bestMove,
      (∃ (k : Nat) (m : MoveNode) (v : Int), moves[k]? = some m ∧
        gen_best_move_loop_up V searchDepth INT32_MIN INT32_MAX moves cb minValue bestMove =
          some (m, cb) ∧
        childValue V cb searchDepth PS_DOWN m = some v ∧ v ≤ minValue ∧
        ∀ (j : Nat) (mj : MoveNode), moves[j]? = some mj →
          ∃ w, childValue V cb searchDepth PS_DOWN mj = some w ∧ v ≤ w ∧ (k < j → v < w)) ∨
      (gen_best_move_loop_up V searchDepth INT32_MIN INT32_MAX moves cb minValue bestMove =
          some (bestMove, cb) ∧
        ∀ (j : Nat) (mj : MoveNode), moves[j]? = some mj →
          ∃ w, childValue V cb searchDepth PS_DOWN mj = some w ∧ minValue < w) := by
  induction moves with
  | nil =>
    intro minValue bestMove
    exact Or.inr ⟨rfl, fun j mj h => by simp at h⟩
  | cons m rest ih =>
    intro minValue bestMove
    obtain ⟨cb1, hmv, hun, w0, hw0⟩ := hm m (List.mem_cons_self _ _)
    have ih1 := ih (fun m1 h => hm m1 (List.mem_cons_of_mem _ h))
    have hcv : childValue V cb searchDepth PS_DOWN m = some w0 := by
      simp only [childValue, hmv, hw0, Option.bind_eq_bind, Option.some_bind]
    unfold gen_best_move_loop_up
    simp only [hmv, hw0, hun, Option.bind_eq_bind, Option.some_bind]
    by_cases hc : w0 ≤ minValue
    · rw [if_pos hc]
      rcases ih1 w0 m with ⟨k, m1, v, hk, hres, hv, hle, hall⟩ | ⟨hres, hall⟩
      · refine Or.inl ⟨k + 1, m1, v, by simpa using hk, hres, hv, by omega, ?_⟩
        intro j mj hj
        cases j with
        | zero =>
          simp only [List.getElem?_cons_zero, Option.some.injEq] at hj
          subst hj
          exact ⟨w0, hcv, hle, fun h => by omega⟩
        | succ j =>
          simp only [List.getElem?_cons_succ] at hj
          obtain ⟨w, hw, h1, h2⟩ := hall j mj hj
          exact ⟨w, hw, h1, fun h => h2 (by omega)⟩
      · refine Or.inl ⟨0, m, w0, by simp, hres, hcv, hc, ?_⟩
        intro j mj hj
        cases j with
        | zero =>
          simp only [List.getElem?_cons_zero, Option.some.injEq] at hj
          subst hj
          exact ⟨w0, hcv, le_refl _, fun h => by omega⟩
        | succ j =>
          simp only [List.getElem?_cons_succ] at hj
          obtain ⟨w, hw, h1⟩ := hall j mj hj
          exact ⟨w, hw, by omega, fun _ => h1⟩
    · rw [if_neg hc]
      rcases ih1 minValue bestMove with ⟨k, m1, v, hk, hres, hv, hle, hall⟩ | ⟨hres, hall⟩
      · refine Or.inl ⟨k + 1, m1, v, by simpa using hk, hres, hv, hle, ?_⟩
        intro j mj hj
        cases j with
        | zero =>
          simp only [List.getElem?_cons_zero, Option.some.injEq] at hj
          subst hj
          exact ⟨w0, hcv, by omega, fun h => by omega⟩
        | succ j =>
          simp only [List.getElem?_cons_succ] at hj
          obtain ⟨w, hw, h1, h2⟩ := hall j mj hj
          exact ⟨w, hw, h1, fun h => h2 (by omega)⟩
      · refine Or.inr ⟨hres, ?_⟩
        intro j mj hj
        cases j with
        | zero =>
          simp only [List.getElem?_cons_zero, Option.some.injEq] at hj
          subst hj
          exact ⟨w0, hcv, by omega⟩
        | succ j =>
          simp only [List.getElem?_cons_succ] at hj
          exact hall j mj hj

/-- The loop of the lower side in `gen_best_move`, the mirror image of
`gen_best_move_loop_up_spec`. -/
theorem gen_best_move_loop_down_spec (V : ValueTables) (searchDepth : Nat) (cb : ChessBoard)
    (moves : List MoveNode)
    (hm : ∀ m ∈ moves, ∃ cb1, cb.move m = some cb1 ∧ cb1.undo = some cb ∧
      ∃ v, min_max V cb1 searchDepth INT32_MIN INT32_MAX PS_UP = some (v, cb1)) :
    ∀ maxValue bestMove,
      (∃ (k : Nat) (m : MoveNode) (v : Int), moves[k]? = some m ∧
        gen_best_move_loop_down V searchDepth INT32_MIN INT32_MAX moves cb maxValue bestMove =
          some (m, cb) ∧
        childValue V cb searchDepth PS_UP m = some v ∧ maxValue ≤ v ∧
        ∀ (j : Nat) (mj : MoveNode), moves[j]? = some mj →
          ∃ w, childValue V cb searchDepth PS_UP mj = some w ∧ w ≤ v ∧ (k < j → w < v)) ∨
      (gen_best_move_loop_down V searchDepth INT32_MIN INT32_MAX moves cb maxValue bestMove =
          some (bestMove, cb) ∧
        ∀ (j : Nat) (mj : MoveNode), moves[j]? = some mj →
          ∃ w, childValue V cb searchDepth PS_UP mj = some w ∧ w < maxValue) := by
  induction moves with
  | nil =>
    intro maxValue bestMove
    exact Or.inr ⟨rfl, fun j mj h => by simp at h⟩
  | cons m rest ih =>
    intro maxValue bestMove
    obtain ⟨cb1, hmv, hun, w0, hw0⟩ := hm m (List.mem_cons_self _ _)
    have ih1 := ih (fun m1 h => hm m1 (List.mem_cons_of_mem _ h))
    have hcv : childValue V cb searchDepth PS_UP m = some w0 := by
      simp only [childValue, hmv, hw0, Option.bind_eq_bind, Option.some_bind]
    unfold gen_best_move_loop_down
    simp only [hmv, hw0, hun, Option.bind_eq_bind, Option.some_bind]
    by_cases hc : w0 ≥ maxValue
    · rw [if_pos hc]
      rcases ih1 w0 m with ⟨k, m1, v, hk, hres, hv, hle, hall⟩ | ⟨hres, hall⟩
      · refine Or.inl ⟨k + 1, m1, v, by simpa using hk, hres, hv, by omega, ?_⟩
        intro j mj hj
        cases j with
        | zero =>
          simp only [List.getElem?_cons_zero, Option.some.injEq] at hj
          subst hj
          exact ⟨w0, hcv, hle, fun h => by omega⟩
        | succ j =>
          simp only [List.getElem?_cons_succ] at hj
          obtain ⟨w, hw, h1, h2⟩ := hall j mj hj
          exact ⟨w, hw, h1, fun h => h2 (by omega)⟩
      · refine Or.inl ⟨0, m, w0, by simp, hres, hcv, hc, ?_⟩
        intro j mj hj
        cases j with
        | zero =>
          simp only [List.getElem?_cons_zero, Option.some.injEq] at hj
          subst hj
          exact ⟨w0, hcv, le_refl _, fun h => by omega⟩
        | succ j =>
          simp only [List.getElem?_cons_succ] at hj
          obtain ⟨w, hw, h1⟩ := hall j mj hj
          exact ⟨w, hw, by omega, fun _ => h1⟩
    · rw [if_neg hc]
      rcases ih1 maxValue bestMove with ⟨k, m1, v, hk, hres, hv, hle, hall⟩ | ⟨hres, hall⟩
      · refine Or.inl ⟨k + 1, m1, v, by simpa using hk, hres, hv, hle, ?_⟩
        intro j mj hj
        cases j with
        | zero =>
          simp only [List.getElem?_cons_zero, Option.some.injEq] at hj
          subst hj
          exact ⟨w0, hcv, by omega, fun h => by omega⟩
        | succ j =>
          simp only [List.getElem?_cons_succ] at hj
          obtain ⟨w, hw, h1, h2⟩ := hall j mj hj
          exact ⟨w, hw, h1, fun h => h2 (by omega)⟩
      · refine Or.inr ⟨hres, ?_⟩
        intro j mj hj
        cases j with
        | zero =>
          simp only [List.getElem?_cons_zero, Option.some.injEq] at hj
          subst hj
          exact ⟨w0, hcv, by omega⟩
        | succ j =>
          simp only [List.getElem?_cons_succ] at hj
          exact hall j mj hj

/-- C7. With board scores that fit in an `int32_t`, on a well-formed board for which the
generator returns a non-empty list `ms` for the side `side`, upper or lower, `gen_best_move`
returns the move `ms[k]`, leaving the board as it was, where `k` is the largest index whose
value `v`, that of `min_max` with the full window for the other side on the board after the
move, is extremal: for the upper side `v` is at most every value and less than the values at
the indices after `k`; for the lower side `v` is at least every value and more than the values
at the indices after `k`. -/
theorem gen_best_move_last_extremum (V : ValueTables) (hV : ScoresFitInt32 V)
    (cb : ChessBoard) (hwf : WellFormed cb) (searchDepth : Nat) (side : PieceSide)
    (hside : side = PS_UP ∨ side = PS_DOWN) (ms : PossibleMoves)
    (hms : gen_possible_moves cb side = some ms) (hne : ms ≠ []) :
    ∃ (k : Nat) (m : MoveNode) (v : Int), ms[k]? = some m ∧ m ∈ ms ∧
      gen_best_move V cb side searchDepth = some (m, cb) ∧
      childValue V cb searchDepth (piece_side_get_reverse side) m = some v ∧
      ∀ (j : Nat) (mj : MoveNode), ms[j]? = some mj →
        ∃ w, childValue V cb searchDepth (piece_side_get_reverse side) mj = some w ∧
          (side = PS_UP → v ≤ w ∧ (k < j → v < w)) ∧
          (side = PS_DOWN → w ≤ v ∧ (k < j → w < v)) := by
  have hchild : ∀ s2 : PieceSide, s2 ≠ PS_EXTRA →
      ∀ m ∈ ms, ∃ cb1, cb.move m = some cb1 ∧ cb1.undo = some cb ∧
        ∃ v, min_max V cb1 searchDepth INT32_MIN INT32_MAX s2 = some (v, cb1) ∧
          INT32_MIN ≤ v ∧ v ≤ INT32_MAX := by
    intro s2 hs2 m hm
    obtain ⟨cb1, h1, hwf1, h2⟩ := generated_move_applies hwf hms hm
    exact ⟨cb1, h1, h2, min_max_full_window_range V hV searchDepth hwf1 hs2⟩
  obtain ⟨m0, rest, rfl⟩ := List.exists_cons_of_ne_nil hne
  rcases hside with rfl | rfl
  · have hc := hchild PS_DOWN (by decide)
    rcases gen_best_move_loop_up_spec V searchDepth cb (m0 :: rest)
        (fun m hm => by
          obtain ⟨cb1, h1, h2, v, hv, _⟩ := hc m hm
          exact ⟨cb1, h1, h2, v, hv⟩) INT32_MAX MoveNode.zero with
      ⟨k, m, v, hk, hres, hv, _, hall⟩ | ⟨_, hall⟩
    · refine ⟨k, m, v, hk, List.getElem?_mem hk, ?_, hv, ?_⟩
      · simp only [gen_best_move, if_true, hms, Option.bind_eq_bind, Option.some_bind]
        exact hres
      · intro j mj hj
        obtain ⟨w, hw, h1, h2⟩ := hall j mj hj
        exact ⟨w, hw, fun _ => ⟨h1, h2⟩, fun h => absurd h (by decide)⟩
    · exfalso
      obtain ⟨w, hw, hlt⟩ := hall 0 m0 (by simp)
      obtain ⟨cb1, h1, _, v, hv, _, hle⟩ := hc m0 (List.mem_cons_self _ _)
      simp only [childValue, h1, hv, Option.bind_eq_bind, Option.some_bind,
        Option.some.injEq] at hw
      omega
  · have hc := hchild PS_UP (by decide)
    rcases gen_best_move_loop_down_spec V searchDepth cb (m0 :: rest)
        (fun m hm => by
          obtain ⟨cb1, h1, h2, v, hv, _⟩ := hc m hm
          exact ⟨cb1, h1, h2, v, hv⟩) INT32_MIN MoveNode.zero with
      ⟨k, m, v, hk, hres, hv, _, hall⟩ | ⟨_, hall⟩
    · refine ⟨k, m, v, hk, List.getElem?_mem hk, ?_, hv, ?_⟩
      · simp only [gen_best_move, reduceCtorEq, if_false, if_true, hms, Option.bind_eq_bind,
          Option.some_bind]
        exact hres
      · intro j mj hj
        obtain ⟨w, hw, h1, h2⟩ := hall j mj hj
        exact ⟨w, hw, fun h => absurd h (by decide), fun _ => ⟨h1, h2⟩⟩
    · exfalso
      obtain ⟨w, hw, hlt⟩ := hall 0 m0 (by simp)
      obtain ⟨cb1, h1, _, v, hv, hge, _⟩ := hc m0 (List.mem_cons_self _ _)
      simp only [childValue, h1, hv, Option.bind_eq_bind, Option.some_bind,
        Option.some.injEq] at hw
      omega

/-- An instance of C7: the starting board, the lower side, depth 2, with the sample value
tables. -/
theorem gen_best_move_last_extremum_witness :
    ScoresFitInt32 sampleTables ∧ WellFormed ChessBoard.new ∧
    gen_possible_moves ChessBoard.new PS_DOWN = some lowerOpeningMoves ∧
    lowerOpeningMoves ≠ [] ∧
    ∃ (k : Nat) (m : MoveNode) (v : Int), lowerOpeningMoves[k]? = some m ∧
      m ∈ lowerOpeningMoves ∧
      gen_best_move sampleTables ChessBoard.new PS_DOWN 2 = some (m, ChessBoard.new) ∧
      childValue sampleTables ChessBoard.new 2 (piece_side_get_reverse PS_DOWN) m = some v ∧
      ∀ (j : Nat) (mj : MoveNode), lowerOpeningMoves[j]? = some mj →
        ∃ w, childValue sampleTables ChessBoard.new 2 (piece_side_get_reverse PS_DOWN) mj =
            some w ∧
          (PS_DOWN = PS_UP → v ≤ w ∧ (k < j → v < w)) ∧
          (PS_DOWN = PS_DOWN → w ≤ v ∧ (k < j → w < v)) :=
  ⟨sampleTables_fit, by decide, by decide, by decide,
    gen_best_move_last_extremum sampleTables sampleTables_fit ChessBoard.new (by decide) 2
      PS_DOWN (Or.inr rfl) lowerOpeningMoves (by decide) (by decide)⟩

/-- An instance of C6: the starting board, depth 2, the window (-100, 100), the upper
side. -/
theorem search_restores_board_witness :
    WellFormed ChessBoard.new ∧
    (∃ v, min_max sampleTables ChessBoard.new 2 (-100) 100 PS_UP = some (v, ChessBoard.new)) ∧
    (∃ m, gen_best_move sampleTables ChessBoard.new PS_UP 2 = some (m, ChessBoard.new)) :=
  ⟨by decide, search_restores_board sampleTables ChessBoard.new (by decide) 2 (-100) 100 PS_UP⟩

/-! ## Frame of `move`, `undo` on an empty history, depth 0, the side `PS_EXTRA` -/

/-- C13. A move with coordinates inside the grid and a begin cell different from its end cell
succeeds; after it the begin cell holds `P_EE`, the end cell holds the piece that was on the
begin cell, every other cell reads as before, and the history is the previous history with one
entry appended, recording the move, the piece that was on the begin cell and the piece that
was on the end cell. -/
theorem move_changes_two_cells (cb : ChessBoard) (m : MoveNode) (h : m.inGrid)
    (hne : (m.beginRow, m.beginCol) ≠ (m.endRow, m.endCol)) :
    ∃ cb1, cb.move m = some cb1 ∧
      cb1.cell m.beginRow m.beginCol = P_EE ∧
      cb1.cell m.endRow m.endCol = cb.cell m.beginRow m.beginCol ∧
      (∀ r c, (r, c) ≠ (m.beginRow, m.beginCol) → (r, c) ≠ (m.endRow, m.endCol) →
        cb1.get r c = cb.get r c) ∧
      cb1.history = cb.history ++
        [⟨m, cb.cell m.beginRow m.beginCol, cb.cell m.endRow m.endCol⟩] := by
  obtain ⟨cb1, h1, hh, hg⟩ := move_spec cb m h
  refine ⟨cb1, h1, ?_, ?_, ?_, hh⟩
  · apply cell_of_get
    rw [hg]
    have : ¬ (m.beginRow = m.endRow ∧ m.beginCol = m.endCol) := by
      rintro ⟨e1, e2⟩
      exact hne (by rw [e1, e2])
    rw [if_neg this, if_pos ⟨rfl, rfl⟩]
  · apply cell_of_get
    rw [hg, if_pos ⟨rfl, rfl⟩]
  · intro r c hb he
    rw [hg]
    have n1 : ¬ (r = m.endRow ∧ c = m.endCol) := by
      rintro ⟨e1, e2⟩
      exact he (by rw [e1, e2])
    have n2 : ¬ (r = m.beginRow ∧ c = m.beginCol) := by
      rintro ⟨e1, e2⟩
      exact hb (by rw [e1, e2])
    rw [if_neg n1, if_neg n2]

/-- An instance of C13: the knight move (11, 3) -> (9, 4) on the starting board. -/
theorem move_changes_two_cells_witness :
    ∃ cb1, ChessBoard.new.move ⟨11, 3, 9, 4⟩ = some cb1 ∧
      cb1.cell 11 3 = P_EE ∧
      cb1.cell 9 4 = ChessBoard.new.cell 11 3 ∧
      (∀ r c, (r, c) ≠ ((11 : Int), (3 : Int)) → (r, c) ≠ ((9 : Int), (4 : Int)) →
        cb1.get r c = ChessBoard.new.get r c) ∧
      cb1.history = ChessBoard.new.history ++
        [⟨⟨11, 3, 9, 4⟩, ChessBoard.new.cell 11 3, ChessBoard.new.cell 9 4⟩] :=
  move_changes_two_cells ChessBoard.new ⟨11, 3, 9, 4⟩ (by decide) (by decide)

/-- C14. On a board whose history is empty, `undo` returns and leaves the board, grid and
history, unchanged; so does calling it twice. -/
theorem undo_on_empty_history (cb : ChessBoard) (h : cb.history = []) :
    cb.undo = some cb ∧ cb.undo.bind ChessBoard.undo = some cb := by
  have h1 : cb.undo = some cb := by
    simp only [ChessBoard.undo, h, List.getLast?_nil]
  exact ⟨h1, by rw [h1, Option.some_bind, h1]⟩

/-- An instance of C14: the freshly constructed board. -/
theorem undo_on_empty_history_witness :
    ChessBoard.new.history = [] ∧ ChessBoard.new.undo = some ChessBoard.new ∧
      ChessBoard.new.undo.bind ChessBoard.undo = some ChessBoard.new :=
  ⟨rfl, undo_on_empty_history ChessBoard.new rfl⟩

/-- C15. At depth 0, for every board, window and side, `PS_EXTRA` included, `min_max` returns
the value of `board_calc_score`, which is defined on every board, and the board as it was. -/
theorem min_max_depth_zero (V : ValueTables) (cb : ChessBoard) (alpha beta : Int)
    (side : PieceSide) :
    ∃ s, board_calc_score V cb = some s ∧ min_max V cb 0 alpha beta side = some (s, cb) := by
  obtain ⟨s, hs⟩ := board_calc_score_total V cb
  exact ⟨s, hs, by simp only [min_max, hs, Option.bind_eq_bind, Option.some_bind]⟩

/-- C19. For the side `PS_EXTRA`, on every board and at every depth, `gen_best_move` returns
the zero move (0, 0, 0, 0) and the board as it was. -/
theorem gen_best_move_extra (V : ValueTables) (cb : ChessBoard) (searchDepth : Nat) :
    gen_best_move V cb PS_EXTRA searchDepth = some (⟨0, 0, 0, 0⟩, cb) := by
  simp only [gen_best_move, reduceCtorEq, if_false, MoveNode.zero]

/-! ## The legality check -/

/-- C12. On a well-formed board, for a move whose begin cell is inside the grid, the generator
returns for the side of the piece on the begin cell, and `check_rule` returns true exactly
when the move is one of the moves generated for that side. -/
theorem check_rule_iff_generated (cb : ChessBoard) (hwf : WellFormed cb) (m : MoveNode)
    (hin : inGrid m.beginRow m.beginCol) :
    ∃ ms, gen_possible_moves cb (piece_get_side (cb.cell m.beginRow m.beginCol)) = some ms ∧
      check_rule cb m = some (decide (m ∈ ms)) := by
  obtain ⟨ms, hms⟩ := gen_possible_moves_total hwf
    (piece_get_side (cb.cell m.beginRow m.beginCol))
  refine ⟨ms, hms, ?_⟩
  simp only [check_rule, get_eq_cell cb hin, hms, Option.bind_eq_bind, Option.some_bind,
    Option.some.injEq]
  by_cases hm : m ∈ ms
  · simp [hm]
  · simp [hm]

/-- An instance of C12: on the starting board the knight move (11, 3) -> (9, 4) is accepted,
and so `check_rule` returns true for it. -/
theorem check_rule_iff_generated_witness :
    WellFormed ChessBoard.new ∧ inGrid 11 3 ∧
    check_rule ChessBoard.new ⟨11, 3, 9, 4⟩ = some true ∧
    ∃ ms, gen_possible_moves ChessBoard.new
        (piece_get_side (ChessBoard.new.cell 11 3)) = some ms ∧
      check_rule ChessBoard.new ⟨11, 3, 9, 4⟩ = some (decide ((⟨11, 3, 9, 4⟩ : MoveNode) ∈ ms)) :=
  ⟨by decide, by decide, by decide,
    check_rule_iff_generated ChessBoard.new (by decide) ⟨11, 3, 9, 4⟩ (by decide)⟩

/-! ## Move notation -/

theorem char_toNat_bounds {lo hi ch : Char} (h1 : lo ≤ ch) (h2 : ch ≤ hi) :
    lo.toNat ≤ ch.toNat ∧ ch.toNat ≤ hi.toNat := by
  rw [Char.le_def] at h1 h2
  exact ⟨h1, h2⟩

theorem int_to_char_of_toNat (ch : Char) (h : ch.toNat < 256) :
    int_to_char (ch.toNat : Int) = ch := by
  unfold int_to_char
  have : ((ch.toNat : Int) % 256).toNat = ch.toNat := by omega
  rw [this, Char.ofNat_toNat]

theorem file_letter_round_trip {ch : Char} (h1 : 'a' ≤ ch) (h2 : ch ≤ 'i') :
    int_to_char (char_to_int ch - char_to_int 'a' + BOARD_ACTUAL_COL_BEGIN -
      BOARD_ACTUAL_COL_BEGIN + char_to_int 'a') = ch := by
  have hb := char_toNat_bounds h1 h2
  have ha : ('i' : Char).toNat = 105 := by decide
  have e : char_to_int ch - char_to_int 'a' + BOARD_ACTUAL_COL_BEGIN -
      BOARD_ACTUAL_COL_BEGIN + char_to_int 'a' = (ch.toNat : Int) := by
    unfold char_to_int; ring
  rw [e]
  exact int_to_char_of_toNat ch (by omega)

theorem rank_digit_round_trip {ch : Char} (h1 : '0' ≤ ch) (h2 : ch ≤ '9') :
    int_to_char (9 - (9 - (char_to_int ch - char_to_int '0') + BOARD_ACTUAL_ROW_BEGIN -
      BOARD_ACTUAL_ROW_BEGIN) + char_to_int '0') = ch := by
  have hb := char_toNat_bounds h1 h2
  have ha : ('9' : Char).toNat = 57 := by decide
  have e : 9 - (9 - (char_to_int ch - char_to_int '0') + BOARD_ACTUAL_ROW_BEGIN -
      BOARD_ACTUAL_ROW_BEGIN) + char_to_int '0' = (ch.toNat : Int) := by
    unfold char_to_int; ring
  rw [e]
  exact int_to_char_of_toNat ch (by omega)

theorem col_round_trip {x : Int} (h1 : 2 ≤ x) (h2 : x ≤ 10) :
    char_to_int (int_to_char (x - BOARD_ACTUAL_COL_BEGIN + char_to_int 'a')) -
      char_to_int 'a' + BOARD_ACTUAL_COL_BEGIN = x := by
  have : x = 2 ∨ x = 3 ∨ x = 4 ∨ x = 5 ∨ x = 6 ∨ x = 7 ∨ x = 8 ∨ x = 9 ∨ x = 10 := by omega
  rcases this with rfl | rfl | rfl | rfl | rfl | rfl | rfl | rfl | rfl <;> decide

theorem row_round_trip {x : Int} (h1 : 2 ≤ x) (h2 : x ≤ 11) :
    9 - (char_to_int (int_to_char (9 - (x - BOARD_ACTUAL_ROW_BEGIN) + char_to_int '0')) -
      char_to_int '0') + BOARD_ACTUAL_ROW_BEGIN = x := by
  have : x = 2 ∨ x = 3 ∨ x = 4 ∨ x = 5 ∨ x = 6 ∨ x = 7 ∨ x = 8 ∨ x = 9 ∨ x = 10 ∨ x = 11 := by
    omega
  rcases this with rfl | rfl | rfl | rfl | rfl | rfl | rfl | rfl | rfl | rfl <;> decide

/-- C16. The two conversions are inverse to each other: a string of four characters, file
letters in 'a'..'i' at positions 0 and 2 and rank digits in '0'..'9' at positions 1 and 3, is
given back by `convert_move_to_str` after `convert_input_to_move`; and a move whose rows lie in
2..11 and whose columns lie in 2..10 is given back by `convert_input_to_move` after
`convert_move_to_str`. -/
theorem notation_round_trip :
    (∀ c0 c1 c2 c3 : Char, 'a' ≤ c0 ∧ c0 ≤ 'i' → '0' ≤ c1 ∧ c1 ≤ '9' →
      'a' ≤ c2 ∧ c2 ≤ 'i' → '0' ≤ c3 ∧ c3 ≤ '9' →
      (convert_input_to_move [c0, c1, c2, c3]).map convert_move_to_str =
        some [c0, c1, c2, c3]) ∧
    (∀ m : MoveNode, 2 ≤ m.beginRow ∧ m.beginRow ≤ 11 → 2 ≤ m.beginCol ∧ m.beginCol ≤ 10 →
      2 ≤ m.endRow ∧ m.endRow ≤ 11 → 2 ≤ m.endCol ∧ m.endCol ≤ 10 →
      convert_input_to_move (convert_move_to_str m) = some m) := by
  constructor
  · intro c0 c1 c2 c3 h0 h1 h2 h3
    simp only [convert_input_to_move, convert_move_to_str, List.getElem?_cons_zero,
      List.getElem?_cons_succ, Option.bind_eq_bind, Option.some_bind, Option.map_some',
      file_letter_round_trip h0.1 h0.2, rank_digit_round_trip h1.1 h1.2,
      file_letter_round_trip h2.1 h2.2, rank_digit_round_trip h3.1 h3.2]
  · intro m hbr hbc her hec
    simp only [convert_input_to_move, convert_move_to_str, List.getElem?_cons_zero,
      List.getElem?_cons_succ, Option.bind_eq_bind, Option.some_bind,
      col_round_trip hbc.1 hbc.2, row_round_trip hbr.1 hbr.2, col_round_trip hec.1 hec.2,
      row_round_trip her.1 her.2]

/-- An instance of C16: the string "b2e2" and the move it denotes, (9, 3) -> (9, 6). -/
theorem notation_round_trip_witness :
    convert_input_to_move ['b', '2', 'e', '2'] = some ⟨9, 3, 9, 6⟩ ∧
    (convert_input_to_move ['b', '2', 'e', '2']).map convert_move_to_str =
      some ['b', '2', 'e', '2'] ∧
    convert_input_to_move (convert_move_to_str ⟨9, 3, 9, 6⟩) = some ⟨9, 3, 9, 6⟩ :=
  ⟨by decide,
    notation_round_trip.1 'b' '2' 'e' '2' (by decide) (by decide) (by decide) (by decide),
    notation_round_trip.2 ⟨9, 3, 9, 6⟩ (by decide) (by decide) (by decide) (by decide)⟩

/-- C17. A string that `check_input_is_a_move` accepts has four leading characters `c0 c1 c2
c3`; `convert_input_to_move` turns it into the move from column `2 + (c0 - 'a')`, row
`11 - (c1 - '0')` to column `2 + (c2 - 'a')`, row `11 - (c3 - '0')`, and both cells lie in the
playable area. So rank '9' is row 2, the uppermost playable row, and rank '0' is row 11, the
lowermost. -/
theorem accepted_input_is_playable (input : StdString)
    (h : check_input_is_a_move input = some true) :
    ∃ c0 c1 c2 c3 m, input[0]? = some c0 ∧ input[1]? = some c1 ∧ input[2]? = some c2 ∧
      input[3]? = some c3 ∧ convert_input_to_move input = some m ∧
      m.beginCol = 2 + (char_to_int c0 - char_to_int 'a') ∧
      m.beginRow = 11 - (char_to_int c1 - char_to_int '0') ∧
      m.endCol = 2 + (char_to_int c2 - char_to_int 'a') ∧
      m.endRow = 11 - (char_to_int c3 - char_to_int '0') ∧
      playable m.beginRow m.beginCol ∧ playable m.endRow m.endCol := by
  unfold check_input_is_a_move at h
  split at h
  · simp at h
  · rename_i hlen
    obtain ⟨c0, c1, c2, c3, rest, rfl⟩ :
        ∃ c0 c1 c2 c3 rest, input = c0 :: c1 :: c2 :: c3 :: rest := by
      match input, hlen with
      | c0 :: c1 :: c2 :: c3 :: rest, _ => exact ⟨c0, c1, c2, c3, rest, rfl⟩
      | [], h => simp at h
      | [_], h => simp at h
      | [_, _], h => simp at h
      | [_, _, _], h => simp at h
    simp only [List.getElem?_cons_zero, List.getElem?_cons_succ, Option.bind_eq_bind,
      Option.some_bind, Option.some.injEq, Bool.and_eq_true, decide_eq_true_eq, ge_iff_le]
      at h
    obtain ⟨⟨⟨h0, h1⟩, h2⟩, h3⟩ := h
    have b0 := char_toNat_bounds h0.1 h0.2
    have b1 := char_toNat_bounds h1.1 h1.2
    have b2 := char_toNat_bounds h2.1 h2.2
    have b3 := char_toNat_bounds h3.1 h3.2
    have ea : ('a' : Char).toNat = 97 := by decide
    have ei : ('i' : Char).toNat = 105 := by decide
    have e0 : ('0' : Char).toNat = 48 := by decide
    have e9 : ('9' : Char).toNat = 57 := by decide
    refine ⟨c0, c1, c2, c3,
      ⟨9 - (char_to_int c1 - char_to_int '0') + BOARD_ACTUAL_ROW_BEGIN,
        char_to_int c0 - char_to_int 'a' + BOARD_ACTUAL_COL_BEGIN,
        9 - (char_to_int c3 - char_to_int '0') + BOARD_ACTUAL_ROW_BEGIN,
        char_to_int c2 - char_to_int 'a' + BOARD_ACTUAL_COL_BEGIN⟩,
      by simp, by simp, by simp, by simp, ?_, ?_, ?_, ?_, ?_, ?_, ?_⟩
    · simp only [convert_input_to_move, List.getElem?_cons_zero, List.getElem?_cons_succ,
        Option.bind_eq_bind, Option.some_bind]
    all_goals
      simp only [playable, BOARD_ACTUAL_ROW_BEGIN, BOARD_ACTUAL_COL_BEGIN,
        BOARD_ACTUAL_ROW_LEN, BOARD_ACTUAL_COL_LEN, char_to_int]
      omega

/-- An instance of C17: "a9i0" goes from the upper left playable cell (2, 2) to the lower
right one (11, 10). -/
theorem accepted_input_is_playable_witness :
    check_input_is_a_move ['a', '9', 'i', '0'] = some true ∧
    convert_input_to_move ['a', '9', 'i', '0'] = some ⟨2, 2, 11, 10⟩ ∧
    ∃ c0 c1 c2 c3 m, (['a', '9', 'i', '0'] : StdString)[0]? = some c0 ∧
      (['a', '9', 'i', '0'] : StdString)[1]? = some c1 ∧
      (['a', '9', 'i', '0'] : StdString)[2]? = some c2 ∧
      (['a', '9', 'i', '0'] : StdString)[3]? = some c3 ∧
      convert_input_to_move ['a', '9', 'i', '0'] = some m ∧
      m.beginCol = 2 + (char_to_int c0 - char_to_int 'a') ∧
      m.beginRow = 11 - (char_to_int c1 - char_to_int '0') ∧
      m.endCol = 2 + (char_to_int c2 - char_to_int 'a') ∧
      m.endRow = 11 - (char_to_int c3 - char_to_int '0') ∧
      playable m.beginRow m.beginCol ∧ playable m.endRow m.endCol :=
  ⟨by decide, by decide, accepted_input_is_playable ['a', '9', 'i', '0'] (by decide)⟩

/-! ## The score as a sum -/

/-- C18. On every board `board_calc_score` returns the sum, over the 90 playable cells, of
the value plus the position value of the piece on the cell, empty cells adding nothing, as its
`int32_t` accumulator holds it: reduced modulo `2^32`. Whenever that sum fits in an `int32_t`
the score is the sum itself. Two boards that agree on the playable cells have the same score,
whatever their padding cells and their histories. -/
theorem board_calc_score_is_sum (V : ValueTables) (cb : ChessBoard) :
    board_calc_score V cb = some (wrap_int32 (score_sum V cb)) ∧
    (INT32_MIN ≤ score_sum V cb ∧ score_sum V cb ≤ INT32_MAX →
      board_calc_score V cb = some (score_sum V cb)) ∧
    ∀ cb2 : ChessBoard, (∀ r c, playable r c → cb2.cell r c = cb.cell r c) →
      board_calc_score V cb2 = board_calc_score V cb := by
  refine ⟨board_calc_score_eq_wrap V cb, fun hfit => ?_, fun cb2 h => ?_⟩
  · rw [board_calc_score_eq_wrap, wrap_int32_of_fits hfit]
  · rw [board_calc_score_eq_wrap, board_calc_score_eq_wrap]
    congr 2
    unfold score_sum
    congr 1
    apply List.map_congr_left
    intro r hr
    congr 1
    apply List.map_congr_left
    intro c hc
    rw [h r c (playable_iff.mpr ⟨hr, hc⟩)]

/-- An instance of C18: with the sample tables the sum over the board left by the upper
general's flying capture is -6000, which fits in an `int32_t`, and it is the score of that
board; the same grid without its history entry has the same score. -/
theorem board_calc_score_is_sum_witness :
    score_sum sampleTables afterFlyingCaptureBoard = -6000 ∧
    (INT32_MIN ≤ score_sum sampleTables afterFlyingCaptureBoard ∧
      score_sum sampleTables afterFlyingCaptureBoard ≤ INT32_MAX) ∧
    board_calc_score sampleTables afterFlyingCaptureBoard =
      some (score_sum sampleTables afterFlyingCaptureBoard) ∧
    board_calc_score sampleTables { afterFlyingCaptureBoard with history := [] } =
      board_calc_score sampleTables afterFlyingCaptureBoard :=
  ⟨by decide, by decide,
    (board_calc_score_is_sum sampleTables afterFlyingCaptureBoard).2.1 (by decide),
    (board_calc_score_is_sum sampleTables afterFlyingCaptureBoard).2.2 _ (fun _ _ _ => rfl)⟩

/-! ## The knight -/

theorem check_possible_move_and_insert_emits (cb : ChessBoard) {r c r1 c1 : Int}
    (h : inGrid r c) (h1 : inGrid r1 c1) (pm : PossibleMoves) :
    check_possible_move_and_insert cb pm r c r1 c1 = some (pm ++ insertList cb r c r1 c1) := by
  unfold check_possible_move_and_insert insertList
  simp only [get_eq_cell cb h, get_eq_cell cb h1, Option.bind_eq_bind, Option.some_bind]
  split <;> simp

theorem knight_leg_emits (cb : ChessBoard) {r c lr lc r1 c1 r2 c2 : Int}
    (h : inGrid r c) (hl : inGrid lr lc) (h1 : inGrid r1 c1) (h2 : inGrid r2 c2)
    (pm : PossibleMoves) :
    knight_leg cb pm r c lr lc r1 c1 r2 c2 =
      some (pm ++ legList cb r c lr lc r1 c1 r2 c2) := by
  unfold knight_leg legList
  simp only [get_eq_cell cb hl, Option.bind_eq_bind, Option.some_bind]
  split
  · simp only [check_possible_move_and_insert_emits cb h h1,
      check_possible_move_and_insert_emits cb h h2, Option.some_bind, List.append_assoc]
  · simp

theorem mem_insertList {cb : ChessBoard} {r c r1 c1 R C : Int} :
    (⟨r, c, R, C⟩ : MoveNode) ∈ insertList cb r c r1 c1 ↔
      (R = r1 ∧ C = c1) ∧ cb.cell r1 c1 ≠ P_EO ∧
        piece_get_side (cb.cell r c) ≠ piece_get_side (cb.cell r1 c1) := by
  unfold insertList
  split
  · rename_i h
    simp only [List.mem_singleton, MoveNode.mk.injEq, true_and]
    exact ⟨fun e => ⟨e, h⟩, fun e => e.1⟩
  · rename_i h
    simp only [List.not_mem_nil, false_iff]
    exact fun e => h e.2

theorem mem_legList {cb : ChessBoard} {r c lr lc r1 c1 r2 c2 : Int} {m : MoveNode} :
    m ∈ legList cb r c lr lc r1 c1 r2 c2 ↔
      cb.cell lr lc = P_EE ∧ (m ∈ insertList cb r c r1 c1 ∨ m ∈ insertList cb r c r2 c2) := by
  unfold legList
  split
  · rename_i h
    simp [h]
  · rename_i h
    simp [h]

/-- The moves of a knight, in full: on a well-formed board, with a knight of `side` on the
playable cell `(r, c)`, the move `(r, c) -> (R, C)` is generated for `side` exactly when
`(R, C)` is one of the eight knight destinations, the leg on the way to it is empty, and the
cell `(R, C)` is on the board and does not hold a piece of `side`. -/
theorem knight_cell_moves {cb : ChessBoard} (hwf : WellFormed cb) {side : PieceSide}
    {r c : Int} (hpl : playable r c) (ht : piece_get_type (cb.cell r c) = PT_KNIGHT)
    (hs : piece_get_side (cb.cell r c) = side) :
    ∃ ms, gen_possible_moves cb side = some ms ∧
      ∀ R C : Int, (⟨r, c, R, C⟩ : MoveNode) ∈ ms ↔
        cb.cell R C ≠ P_EO ∧ piece_get_side (cb.cell R C) ≠ side ∧
          ∃ la lb, KnightStep (R - r) (C - c) la lb ∧ cb.cell (r + la) (c + lb) = P_EE := by
  obtain ⟨ms, hms⟩ := gen_possible_moves_total hwf side
  refine ⟨ms, hms, fun R C => ?_⟩
  have h0 := playable_inGrid hpl
  have n : ∀ {r1 c1 : Int}, (r - 2 ≤ r1 ∧ r1 ≤ r + 2) → (c - 2 ≤ c1 ∧ c1 ≤ c + 2) →
      inGrid r1 c1 := fun hr hc => near_inGrid hpl hr hc
  have hl : ∀ pm, gen_possible_moves_cell cb side r c pm = some (pm ++
      (legList cb r c (r + 1) c (r + 2) (c + 1) (r + 2) (c - 1) ++
        (legList cb r c (r - 1) c (r - 2) (c + 1) (r - 2) (c - 1) ++
          (legList cb r c r (c + 1) (r + 1) (c + 2) (r - 1) (c + 2) ++
            legList cb r c r (c - 1) (r + 1) (c - 2) (r - 1) (c - 2))))) := by
    intro pm
    unfold gen_possible_moves_cell
    simp only [get_eq_cell cb h0, Option.bind_eq_bind, Option.some_bind, hs, if_true, ht]
    unfold gen_possible_moves_for_knight
    simp only [Option.bind_eq_bind,
      knight_leg_emits cb h0 (n (by omega) (by omega) : inGrid (r + 1) c)
        (n (by omega) (by omega) : inGrid (r + 2) (c + 1))
        (n (by omega) (by omega) : inGrid (r + 2) (c - 1)),
      knight_leg_emits cb h0 (n (by omega) (by omega) : inGrid (r - 1) c)
        (n (by omega) (by omega) : inGrid (r - 2) (c + 1))
        (n (by omega) (by omega) : inGrid (r - 2) (c - 1)),
      knight_leg_emits cb h0 (n (by omega) (by omega) : inGrid r (c + 1))
        (n (by omega) (by omega) : inGrid (r + 1) (c + 2))
        (n (by omega) (by omega) : inGrid (r - 1) (c + 2)),
      knight_leg_emits cb h0 (n (by omega) (by omega) : inGrid r (c - 1))
        (n (by omega) (by omega) : inGrid (r + 1) (c - 2))
        (n (by omega) (by omega) : inGrid (r - 1) (c - 2)),
      Option.some_bind, List.append_assoc]
  have hfil := gen_possible_moves_filter_cell hpl hl
    (q := fun m => decide (m = (⟨r, c, R, C⟩ : MoveNode)))
    (fun m hm => by
      have := of_decide_eq_true hm
      subst this
      exact ⟨rfl, rfl⟩) hms
  have hmem : (⟨r, c, R, C⟩ : MoveNode) ∈ ms ↔ (⟨r, c, R, C⟩ : MoveNode) ∈
      (legList cb r c (r + 1) c (r + 2) (c + 1) (r + 2) (c - 1) ++
        (legList cb r c (r - 1) c (r - 2) (c + 1) (r - 2) (c - 1) ++
          (legList cb r c r (c + 1) (r + 1) (c + 2) (r - 1) (c + 2) ++
            legList cb r c r (c - 1) (r + 1) (c - 2) (r - 1) (c - 2)))) := by
    constructor
    · intro h
      have : (⟨r, c, R, C⟩ : MoveNode) ∈
          ms.filter (fun m => decide (m = (⟨r, c, R, C⟩ : MoveNode))) :=
        List.mem_filter.mpr ⟨h, by simp⟩
      rw [hfil] at this
      exact (List.mem_filter.mp this).1
    · intro h
      have : (⟨r, c, R, C⟩ : MoveNode) ∈
          List.filter (fun m => decide (m = (⟨r, c, R, C⟩ : MoveNode)))
            (legList cb r c (r + 1) c (r + 2) (c + 1) (r + 2) (c - 1) ++
              (legList cb r c (r - 1) c (r - 2) (c + 1) (r - 2) (c - 1) ++
                (legList cb r c r (c + 1) (r + 1) (c + 2) (r - 1) (c + 2) ++
                  legList cb r c r (c - 1) (r + 1) (c - 2) (r - 1) (c - 2)))) :=
        List.mem_filter.mpr ⟨h, by simp⟩
      rw [← hfil] at this
      exact (List.mem_filter.mp this).1
  rw [hmem]
  simp only [List.mem_append, mem_legList, mem_insertList, hs]
  have side_ne : ∀ {r1 c1 : Int}, R = r1 → C = c1 →
      (side ≠ piece_get_side (cb.cell r1 c1) ↔ piece_get_side (cb.cell R C) ≠ side) := by
    intro r1 c1 e1 e2
    subst e1 e2
    exact ⟨fun h e => h e.symm, fun h e => h e.symm⟩
  constructor
  · rintro (⟨hleg, (⟨⟨e1, e2⟩, h1, h2⟩ | ⟨⟨e1, e2⟩, h1, h2⟩)⟩ |
      ⟨hleg, (⟨⟨e1, e2⟩, h1, h2⟩ | ⟨⟨e1, e2⟩, h1, h2⟩)⟩ |
      ⟨hleg, (⟨⟨e1, e2⟩, h1, h2⟩ | ⟨⟨e1, e2⟩, h1, h2⟩)⟩ |
      ⟨hleg, (⟨⟨e1, e2⟩, h1, h2⟩ | ⟨⟨e1, e2⟩, h1, h2⟩)⟩)
    · exact ⟨by rw [e1, e2]; exact h1, (side_ne e1 e2).mp h2, 1, 0,
        by unfold KnightStep; omega, by simpa using hleg⟩
    · exact ⟨by rw [e1, e2]; exact h1, (side_ne e1 e2).mp h2, 1, 0,
        by unfold KnightStep; omega, by simpa using hleg⟩
    · exact ⟨by rw [e1, e2]; exact h1, (side_ne e1 e2).mp h2, -1, 0,
        by unfold KnightStep; omega, by simpa [sub_eq_add_neg] using hleg⟩
    · exact ⟨by rw [e1, e2]; exact h1, (side_ne e1 e2).mp h2, -1, 0,
        by unfold KnightStep; omega, by simpa [sub_eq_add_neg] using hleg⟩
    · exact ⟨by rw [e1, e2]; exact h1, (side_ne e1 e2).mp h2, 0, 1,
        by unfold KnightStep; omega, by simpa using hleg⟩
    · exact ⟨by rw [e1, e2]; exact h1, (side_ne e1 e2).mp h2, 0, 1,
        by unfold KnightStep; omega, by simpa using hleg⟩
    · exact ⟨by rw [e1, e2]; exact h1, (side_ne e1 e2).mp h2, 0, -1,
        by unfold KnightStep; omega, by simpa [sub_eq_add_neg] using hleg⟩
    · exact ⟨by rw [e1, e2]; exact h1, (side_ne e1 e2).mp h2, 0, -1,
        by unfold KnightStep; omega, by simpa [sub_eq_add_neg] using hleg⟩
  · rintro ⟨h1, h2, la, lb, hk, hleg⟩
    unfold KnightStep at hk
    rcases hk with ⟨hA, hB, rfl, rfl⟩ | ⟨hA, hB, rfl, rfl⟩ | ⟨hB, hA, rfl, rfl⟩ |
      ⟨hB, hA, rfl, rfl⟩
    · have eR : R = r + 2 := by omega
      have hleg1 : cb.cell (r + 1) c = P_EE := by simpa using hleg
      rcases hB with hB | hB
      · have eC : C = c + 1 := by omega
        exact Or.inl ⟨hleg1, Or.inl ⟨⟨eR, eC⟩, by rw [← eR, ← eC]; exact h1,
          (side_ne eR eC).mpr h2⟩⟩
      · have eC : C = c - 1 := by omega
        exact Or.inl ⟨hleg1, Or.inr ⟨⟨eR, eC⟩, by rw [← eR, ← eC]; exact h1,
          (side_ne eR eC).mpr h2⟩⟩
    · have eR : R = r - 2 := by omega
      have hleg1 : cb.cell (r - 1) c = P_EE := by simpa [sub_eq_add_neg] using hleg
      rcases hB with hB | hB
      · have eC : C = c + 1 := by omega
        exact Or.inr (Or.inl ⟨hleg1, Or.inl ⟨⟨eR, eC⟩, by rw [← eR, ← eC]; exact h1,
          (side_ne eR eC).mpr h2⟩⟩)
      · have eC : C = c - 1 := by omega
        exact Or.inr (Or.inl ⟨hleg1, Or.inr ⟨⟨eR, eC⟩, by rw [← eR, ← eC]; exact h1,
          (side_ne eR eC).mpr h2⟩⟩)
    · have eC : C = c + 2 := by omega
      have hleg1 : cb.cell r (c + 1) = P_EE := by simpa using hleg
      rcases hA with hA | hA
      · have eR : R = r + 1 := by omega
        exact Or.inr (Or.inr (Or.inl ⟨hleg1, Or.inl ⟨⟨eR, eC⟩, by rw [← eR, ← eC]; exact h1,
          (side_ne eR eC).mpr h2⟩⟩))
      · have eR : R = r - 1 := by omega
        exact Or.inr (Or.inr (Or.inl ⟨hleg1, Or.inr ⟨⟨eR, eC⟩, by rw [← eR, ← eC]; exact h1,
          (side_ne eR eC).mpr h2⟩⟩))
    · have eC : C = c - 2 := by omega
      have hleg1 : cb.cell r (c - 1) = P_EE := by simpa [sub_eq_add_neg] using hleg
      rcases hA with hA | hA
      · have eR : R = r + 1 := by omega
        exact Or.inr (Or.inr (Or.inr ⟨hleg1, Or.inl ⟨⟨eR, eC⟩, by rw [← eR, ← eC]; exact h1,
          (side_ne eR eC).mpr h2⟩⟩))
      · have eR : R = r - 1 := by omega
        exact Or.inr (Or.inr (Or.inr ⟨hleg1, Or.inr ⟨⟨eR, eC⟩, by rw [← eR, ← eC]; exact h1,
          (side_ne eR eC).mpr h2⟩⟩))

theorem knightStep_of_dirs {dr dc dr1 dc1 : Int} (hd : isUnitDir dr dc)
    (hd1 : isUnitDir dr1 dc1) (hperp : dr * dr1 + dc * dc1 = 0) (la lb : Int) :
    KnightStep (2 * dr + dr1) (2 * dc + dc1) la lb ↔ la = dr ∧ lb = dc := by
  unfold KnightStep
  rcases hd with ⟨rfl, rfl⟩ | ⟨rfl, rfl⟩ | ⟨rfl, rfl⟩ | ⟨rfl, rfl⟩ <;>
    rcases hd1 with ⟨rfl, rfl⟩ | ⟨rfl, rfl⟩ | ⟨rfl, rfl⟩ | ⟨rfl, rfl⟩ <;>
    omega

/-- C11, with the destinations of the two knight moves over a leg as they are: from `(r, c)`
over the leg `(r + dr, c + dc)` to `(r + 2 dr + dr1, c + 2 dc + dc1)`, where `(dr1, dc1)` is a
unit step perpendicular to `(dr, dc)`. On a well-formed board, for a knight of `side` on the
playable cell `(r, c)`, such a move is generated exactly when the leg is empty and the
destination is on the board and does not hold a piece of `side`; so with the leg occupied
neither of the two moves over it is generated. -/
theorem knight_moves_over_leg (cb : ChessBoard) (hwf : WellFormed cb) (side : PieceSide)
    (r c : Int) (hpl : playable r c) (ht : piece_get_type (cb.cell r c) = PT_KNIGHT)
    (hs : piece_get_side (cb.cell r c) = side) (dr dc : Int) (hd : isUnitDir dr dc)
    (dr1 dc1 : Int) (hd1 : isUnitDir dr1 dc1) (hperp : dr * dr1 + dc * dc1 = 0) :
    ∃ ms, gen_possible_moves cb side = some ms ∧
      ((⟨r, c, r + 2 * dr + dr1, c + 2 * dc + dc1⟩ : MoveNode) ∈ ms ↔
        cb.cell (r + dr) (c + dc) = P_EE ∧
          cb.cell (r + 2 * dr + dr1) (c + 2 * dc + dc1) ≠ P_EO ∧
          piece_get_side (cb.cell (r + 2 * dr + dr1) (c + 2 * dc + dc1)) ≠ side) := by
  obtain ⟨ms, hms, hall⟩ := knight_cell_moves hwf hpl ht hs
  refine ⟨ms, hms, ?_⟩
  rw [hall]
  have eA : r + 2 * dr + dr1 - r = 2 * dr + dr1 := by ring
  have eB : c + 2 * dc + dc1 - c = 2 * dc + dc1 := by ring
  rw [eA, eB]
  constructor
  · rintro ⟨h1, h2, la, lb, hk, hleg⟩
    obtain ⟨rfl, rfl⟩ := (knightStep_of_dirs hd hd1 hperp la lb).mp hk
    exact ⟨hleg, h1, h2⟩
  · rintro ⟨hleg, h1, h2⟩
    exact ⟨h1, h2, dr, dc, (knightStep_of_dirs hd hd1 hperp dr dc).mpr ⟨rfl, rfl⟩, hleg⟩

/-- An instance of C11 as amended: the lower knight on (11, 3) of the starting board, the leg
(10, 3) above it, and the step (0, 1) to the right: the move to (9, 4). -/
theorem knight_moves_over_leg_witness :
    WellFormed ChessBoard.new ∧ playable 11 3 ∧
    piece_get_type (ChessBoard.new.cell 11 3) = PT_KNIGHT ∧
    piece_get_side (ChessBoard.new.cell 11 3) = PS_DOWN ∧
    isUnitDir (-1) 0 ∧ isUnitDir 0 1 ∧ (-1 : Int) * 0 + 0 * 1 = 0 ∧
    ∃ ms, gen_possible_moves ChessBoard.new PS_DOWN = some ms ∧
      ((⟨11, 3, 11 + 2 * (-1) + 0, 3 + 2 * 0 + 1⟩ : MoveNode) ∈ ms ↔
        ChessBoard.new.cell (11 + (-1)) (3 + 0) = P_EE ∧
          ChessBoard.new.cell (11 + 2 * (-1) + 0) (3 + 2 * 0 + 1) ≠ P_EO ∧
          piece_get_side (ChessBoard.new.cell (11 + 2 * (-1) + 0) (3 + 2 * 0 + 1)) ≠
            PS_DOWN) :=
  ⟨by decide, by decide, by decide, by decide, Or.inl ⟨rfl, rfl⟩,
    Or.inr (Or.inr (Or.inr ⟨rfl, rfl⟩)), by decide,
    knight_moves_over_leg ChessBoard.new (by decide) PS_DOWN 11 3 (by decide) (by decide)
      (by decide) (-1) 0 (Or.inl ⟨rfl, rfl⟩) 0 1 (Or.inr (Or.inr (Or.inr ⟨rfl, rfl⟩)))
      (by decide)⟩

/-- C11 as written fails. The claim puts the destinations at `(r + 2 dr + dc1, c + 2 dc +
dr1)`, the perpendicular step added with its coordinates exchanged. On the starting board take
the lower knight on (11, 3), the direction `(dr, dc) = (-1, 0)` and the perpendicular step
`(dr1, dc1) = (0, 1)`: the leg (10, 3) is empty and the destination as written is (10, 3),
which is on the board and holds no lower piece, yet the move (11, 3) -> (10, 3) is not
generated. -/
theorem knight_destination_as_written_fails :
    WellFormed ChessBoard.new ∧ playable 11 3 ∧
    piece_get_type (ChessBoard.new.cell 11 3) = PT_KNIGHT ∧
    piece_get_side (ChessBoard.new.cell 11 3) = PS_DOWN ∧
    isUnitDir (-1) 0 ∧ isUnitDir 0 1 ∧ (-1 : Int) * 0 + 0 * 1 = 0 ∧
    ChessBoard.new.cell (11 + (-1)) (3 + 0) = P_EE ∧
    ChessBoard.new.cell (11 + 2 * (-1) + 1) (3 + 2 * 0 + 0) ≠ P_EO ∧
    piece_get_side (ChessBoard.new.cell (11 + 2 * (-1) + 1) (3 + 2 * 0 + 0)) ≠ PS_DOWN ∧
    ∃ ms, gen_possible_moves ChessBoard.new PS_DOWN = some ms ∧
      (⟨11, 3, 11 + 2 * (-1) + 1, 3 + 2 * 0 + 0⟩ : MoveNode) ∉ ms := by
  refine ⟨by decide, by decide, by decide, by decide, Or.inl ⟨rfl, rfl⟩,
    Or.inr (Or.inr (Or.inr ⟨rfl, rfl⟩)), by decide, by decide, by decide, by decide,
    by decide⟩

/-! ## The general -/

/-- Lifting a property of the moves each cell appends to the moves the generator returns. -/
theorem gen_possible_moves_of_cells {cb : ChessBoard} {side : PieceSide}
    (P : Int → Int → MoveNode → Prop)
    (hP : ∀ r c, Ext (P r c) (gen_possible_moves_cell cb side r c))
    {ms : PossibleMoves} (h : gen_possible_moves cb side = some ms) {m : MoveNode}
    (hm : m ∈ ms) : ∃ r c, P r c m := by
  have hrow : ∀ (r : Int) (cols : List Int),
      Ext (fun m => ∃ r c, P r c m) (gen_possible_moves_row cb side r cols) := by
    intro r cols
    induction cols with
    | nil => exact Ext_pure
    | cons c cs ih =>
      exact Ext_bind (Ext_mono (fun m hm => ⟨r, c, hm⟩) (hP r c)) ih
  have hrows : ∀ rows : List Int,
      Ext (fun m => ∃ r c, P r c m) (gen_possible_moves_rows cb side rows) := by
    intro rows
    induction rows with
    | nil => exact Ext_pure
    | cons r rs ih => exact Ext_bind (hrow r playableCols) ih
  obtain ⟨l, el, pl⟩ := hrows playableRows [] ms h
  rw [List.nil_append] at el
  subst el
  exact pl m hm

theorem insert_when_ext_guard (cond : Prop) [Decidable cond] (cb : ChessBoard)
    (r c r1 c1 : Int) :
    Ext (fun m => cond ∧ m.endRow = r1 ∧ m.endCol = c1)
      (fun pm => insert_when cond cb pm r c r1 c1) := by
  unfold insert_when check_possible_move_and_insert
  refine Ext_ite _ (fun hc => ?_) (fun _ => Ext_pure)
  refine Ext_read cb r c (fun _ _ => ?_)
  refine Ext_read cb r1 c1 (fun _ _ => ?_)
  exact Ext_ite _ (fun _ => Ext_push _ ⟨hc, rfl, rfl⟩) (fun _ => Ext_pure)

theorem scan_general_up_ext_target (cb : ChessBoard) (r c : Int) (fuel : Nat) (row : Int) :
    Ext (fun m => cb.cell m.endRow m.endCol = P_DG)
      (fun pm => scan_general_up cb r c fuel row pm) := by
  induction fuel generalizing row with
  | zero => intro pm pm1 h; simp [scan_general_up] at h
  | succ n ih =>
    unfold scan_general_up
    refine Ext_ite _ (fun _ => ?_) (fun _ => Ext_pure)
    refine Ext_read cb row c (fun p hp => ?_)
    refine Ext_ite _ (fun _ => ih (row + 1)) (fun _ => ?_)
    refine Ext_ite _ (fun e => ?_) (fun _ => Ext_pure)
    subst e
    exact Ext_push _ (cell_of_get hp)

theorem scan_general_down_ext_target (cb : ChessBoard) (r c : Int) (fuel : Nat) (row : Int) :
    Ext (fun m => cb.cell m.endRow m.endCol = P_UG)
      (fun pm => scan_general_down cb r c fuel row pm) := by
  induction fuel generalizing row with
  | zero => intro pm pm1 h; simp [scan_general_down] at h
  | succ n ih =>
    unfold scan_general_down
    refine Ext_ite _ (fun _ => ?_) (fun _ => Ext_pure)
    refine Ext_read cb row c (fun p hp => ?_)
    refine Ext_ite _ (fun _ => ih (row - 1)) (fun _ => ?_)
    refine Ext_ite _ (fun e => ?_) (fun _ => Ext_pure)
    subst e
    exact Ext_push _ (cell_of_get hp)

/-- Every move that `gen_possible_moves_for_general` appends is a `GeneralMove`: this holds on
every board and for every cell. -/
theorem gen_possible_moves_for_general_ext_moves (cb : ChessBoard) (side : PieceSide)
    (r c : Int) :
    Ext (GeneralMove cb side r c)
      (fun pm => gen_possible_moves_for_general cb pm r c side) := by
  unfold gen_possible_moves_for_general
  refine Ext_ite _ (fun e => ?_) (fun _ => Ext_ite _ (fun e => ?_) (fun _ => Ext_pure))
  · subst e
    refine Ext_bind (Ext_mono (fun m hm => ?_) (insert_when_ext_guard _ cb r c _ _))
      (Ext_bind (Ext_mono (fun m hm => ?_) (insert_when_ext_guard _ cb r c _ _))
        (Ext_bind (Ext_mono (fun m hm => ?_) (insert_when_ext_guard _ cb r c _ _))
          (Ext_bind (Ext_mono (fun m hm => ?_) (insert_when_ext_guard _ cb r c _ _))
            (Ext_mono (fun m hm => ?_) (scan_general_up_ext_target cb r c _ _)))))
    · exact Or.inr (Or.inl ⟨rfl, Or.inl hm⟩)
    · exact Or.inr (Or.inl ⟨rfl, Or.inr (Or.inl hm)⟩)
    · exact Or.inr (Or.inl ⟨rfl, Or.inr (Or.inr (Or.inl hm))⟩)
    · exact Or.inr (Or.inl ⟨rfl, Or.inr (Or.inr (Or.inr hm))⟩)
    · exact Or.inl hm
  · subst e
    refine Ext_bind (Ext_mono (fun m hm => ?_) (insert_when_ext_guard _ cb r c _ _))
      (Ext_bind (Ext_mono (fun m hm => ?_) (insert_when_ext_guard _ cb r c _ _))
        (Ext_bind (Ext_mono (fun m hm => ?_) (insert_when_ext_guard _ cb r c _ _))
          (Ext_bind (Ext_mono (fun m hm => ?_) (insert_when_ext_guard _ cb r c _ _))
            (Ext_mono (fun m hm => ?_) (scan_general_down_ext_target cb r c _ _)))))
    · exact Or.inr (Or.inr ⟨rfl, Or.inl hm⟩)
    · exact Or.inr (Or.inr ⟨rfl, Or.inr (Or.inl hm)⟩)
    · exact Or.inr (Or.inr ⟨rfl, Or.inr (Or.inr (Or.inl hm))⟩)
    · exact Or.inr (Or.inr ⟨rfl, Or.inr (Or.inr (Or.inr hm))⟩)
    · exact Or.inl hm

/-- The moves appended at a cell that holds a general are `GeneralMove`s. -/
theorem gen_possible_moves_cell_ext_general (cb : ChessBoard) (side : PieceSide) (r c : Int) :
    Ext (fun m => startsAt r c m ∧
        (piece_get_type (cb.cell r c) = PT_GENERAL → GeneralMove cb side r c m))
      (gen_possible_moves_cell cb side r c) := by
  by_cases hg : piece_get_type (cb.cell r c) = PT_GENERAL
  · have hstart : Ext (fun m => startsAt r c m) (gen_possible_moves_cell cb side r c) :=
      Ext_mono (fun m hm => ⟨hm.1.1, hm.1.2.1⟩) (gen_possible_moves_cell_ext cb side r c)
    have hmoves : Ext (GeneralMove cb side r c) (gen_possible_moves_cell cb side r c) := by
      unfold gen_possible_moves_cell
      refine Ext_read cb r c (fun p hp => ?_)
      refine Ext_ite _ (fun _ => ?_) (fun _ => Ext_pure)
      rw [cell_of_get hp] at hg
      simp only [hg]
      exact gen_possible_moves_for_general_ext_moves cb side r c
    intro pm pm1 h
    obtain ⟨l1, e1, p1⟩ := hstart pm pm1 h
    obtain ⟨l2, e2, p2⟩ := hmoves pm pm1 h
    have : l1 = l2 := List.append_cancel_left (e1.symm.trans e2)
    subst this
    exact ⟨l1, e1, fun m hm => ⟨p1 m hm, fun _ => p2 m hm⟩⟩
  · exact Ext_mono (fun m hm => ⟨⟨hm.1.1, hm.1.2.1⟩, fun h => absurd h hg⟩)
      (gen_possible_moves_cell_ext cb side r c)

/-- C20, for a general that stands inside its palace. On a well-formed board, for the upper
and the lower side, the generator returns, and every move it returns that starts on a cell
of the side's palace box holding the side's general, and whose destination does not hold the
enemy general, is one step up, down, left or right, ending inside the palace box. -/
theorem general_steps_stay_in_palace (cb : ChessBoard) (hwf : WellFormed cb)
    (side : PieceSide) (hside : side = PS_UP ∨ side = PS_DOWN) :
    ∃ ms, gen_possible_moves cb side = some ms ∧
      ∀ m ∈ ms, cb.cell m.beginRow m.beginCol = generalOf side →
        inPalace side m.beginRow m.beginCol →
        cb.cell m.endRow m.endCol ≠ generalOf (piece_side_get_reverse side) →
        oneStepOrthogonal m ∧ inPalace side m.endRow m.endCol := by
  obtain ⟨ms, hms⟩ := gen_possible_moves_total hwf side
  refine ⟨ms, hms, fun m hm hgen hpal hne => ?_⟩
  obtain ⟨r, c, ⟨hr, hc⟩, hmove⟩ := gen_possible_moves_of_cells _
    (gen_possible_moves_cell_ext_general cb side) hms hm
  subst hr hc
  have htype : piece_get_type (cb.cell m.beginRow m.beginCol) = PT_GENERAL := by
    rw [hgen]; rcases hside with rfl | rfl <;> rfl
  have hgm := hmove htype
  unfold GeneralMove at hgm
  unfold oneStepOrthogonal
  rcases hside with rfl | rfl
  · simp only [inPalace, inUpperPalace, BOARD_9_PALACE_UP_TOP, BOARD_9_PALACE_UP_BOTTOM,
      BOARD_9_PALACE_UP_LEFT, BOARD_9_PALACE_UP_RIGHT, BOARD_ACTUAL_ROW_BEGIN,
      BOARD_ACTUAL_COL_BEGIN] at hpal hgm ⊢
    rcases hgm with h | ⟨_, h⟩ | ⟨h, _⟩
    · exact absurd h hne
    · omega
    · exact absurd h (by decide)
  · simp only [inPalace, inLowerPalace, BOARD_9_PALACE_DOWN_TOP, BOARD_9_PALACE_DOWN_BOTTOM,
      BOARD_9_PALACE_DOWN_LEFT, BOARD_9_PALACE_DOWN_RIGHT, BOARD_ACTUAL_ROW_BEGIN,
      BOARD_ACTUAL_COL_BEGIN] at hpal hgm ⊢
    rcases hgm with h | ⟨h, _⟩ | ⟨_, h⟩
    · exact absurd h hne
    · exact absurd h (by decide)
    · omega

/-- An instance of C20 as amended: the starting board and the lower side, whose general on
(11, 6) has the one move (11, 6) -> (10, 6). -/
theorem general_steps_stay_in_palace_witness :
    WellFormed ChessBoard.new ∧
    ChessBoard.new.cell 11 6 = generalOf PS_DOWN ∧ inPalace PS_DOWN 11 6 ∧
    ∃ ms, gen_possible_moves ChessBoard.new PS_DOWN = some ms ∧
      (⟨11, 6, 10, 6⟩ : MoveNode) ∈ ms ∧
      ∀ m ∈ ms, ChessBoard.new.cell m.beginRow m.beginCol = generalOf PS_DOWN →
        inPalace PS_DOWN m.beginRow m.beginCol →
        ChessBoard.new.cell m.endRow m.endCol ≠ generalOf (piece_side_get_reverse PS_DOWN) →
        oneStepOrthogonal m ∧ inPalace PS_DOWN m.endRow m.endCol := by
  refine ⟨by decide, by decide, by decide, ?_⟩
  obtain ⟨ms, hms, h⟩ :=
    general_steps_stay_in_palace ChessBoard.new (by decide) PS_DOWN (Or.inr rfl)
  refine ⟨ms, hms, ?_, h⟩
  have : gen_possible_moves ChessBoard.new PS_DOWN = some lowerOpeningMoves := by decide
  rw [this, Option.some.injEq] at hms
  subst hms
  decide

/-- C20 as written fails, on a board that play reaches. `afterFlyingCaptureBoard` is what the
upper general's flying capture leaves of `facingGeneralsBoard`; it is well-formed, and the
upper general stands on (11, 6). The generator returns the move (11, 6) -> (10, 6) for the
upper side: it starts on the upper general, its destination is empty, and its destination is
not inside the upper palace. The guard `r - 1 >= BOARD_9_PALACE_UP_TOP` holds of it. -/
theorem general_step_outside_palace :
    facingGeneralsBoard.move ⟨2, 6, 11, 6⟩ = some afterFlyingCaptureBoard ∧
    WellFormed afterFlyingCaptureBoard ∧
    (∃ ms, gen_possible_moves afterFlyingCaptureBoard PS_UP = some ms ∧
      (⟨11, 6, 10, 6⟩ : MoveNode) ∈ ms) ∧
    afterFlyingCaptureBoard.cell 11 6 = generalOf PS_UP ∧
    afterFlyingCaptureBoard.cell 10 6 ≠ generalOf (piece_side_get_reverse PS_UP) ∧
    ¬ inPalace PS_UP 10 6 := by
  refine ⟨by decide, by decide, by decide, by decide, by decide, by decide⟩

/-! ## Well-formedness is kept by play -/

/-- C27. Well-formedness is an invariant of play. The freshly constructed board is well-formed;
and on every well-formed board, for every side, the generator returns a list of moves, and for
every move `m` of it `ChessBoard::move(m)` succeeds and leaves a well-formed board, on which
`ChessBoard::undo()` succeeds and leaves a well-formed board again. -/
theorem well_formed_is_invariant (cb : ChessBoard) (hwf : WellFormed cb) (side : PieceSide) :
    WellFormed ChessBoard.new ∧
    ∃ ms, gen_possible_moves cb side = some ms ∧
      ∀ m ∈ ms, ∃ cb1, cb.move m = some cb1 ∧ WellFormed cb1 ∧
        ∃ cb2, cb1.undo = some cb2 ∧ WellFormed cb2 := by
  refine ⟨by decide, ?_⟩
  obtain ⟨ms, hms⟩ := gen_possible_moves_total hwf side
  refine ⟨ms, hms, fun m hm => ?_⟩
  obtain ⟨cb1, h1, hwf1, hu⟩ := generated_move_applies hwf hms hm
  exact ⟨cb1, h1, hwf1, cb, hu, hwf⟩

/-- An instance of C27: the board after the opening move (11, 2) -> (10, 2) of the lower rook,
and the lower side to move on it. -/
theorem well_formed_is_invariant_witness :
    WellFormed ((ChessBoard.new.move ⟨11, 2, 10, 2⟩).getD ChessBoard.new) ∧
    WellFormed ChessBoard.new ∧
    ∃ ms, gen_possible_moves ((ChessBoard.new.move ⟨11, 2, 10, 2⟩).getD ChessBoard.new)
        PS_DOWN = some ms ∧
      ∀ m ∈ ms, ∃ cb1,
        ((ChessBoard.new.move ⟨11, 2, 10, 2⟩).getD ChessBoard.new).move m = some cb1 ∧
        WellFormed cb1 ∧ ∃ cb2, cb1.undo = some cb2 ∧ WellFormed cb2 :=
  ⟨by decide, well_formed_is_invariant _ (by decide) PS_DOWN⟩

/-! ## A side without moves -/

/-- C26. At every depth `d >= 1` and for every window: when the generator returns no move for
the upper side, `min_max` for the upper side returns `INT32_MAX`, and when it returns no move
for the lower side, `min_max` for the lower side returns `INT32_MIN`; the board is returned
unchanged. -/
theorem min_max_without_moves (V : ValueTables) (cb : ChessBoard) (d : Nat) (hd : 1 ≤ d)
    (alpha beta : Int) :
    (gen_possible_moves cb PS_UP = some [] →
      min_max V cb d alpha beta PS_UP = some (INT32_MAX, cb)) ∧
    (gen_possible_moves cb PS_DOWN = some [] →
      min_max V cb d alpha beta PS_DOWN = some (INT32_MIN, cb)) := by
  obtain ⟨n, rfl⟩ : ∃ n, d = n + 1 := ⟨d - 1, by omega⟩
  constructor
  · intro h
    simp [min_max, h, min_max_loop_up]
  · intro h
    simp [min_max, h, min_max_loop_down]

/-- An instance of C26: the well-formed board without pieces, at depth 3 with the window
`(-50, 50)`; neither side has a move. -/
theorem min_max_without_moves_witness :
    WellFormed emptyBoard ∧ 1 ≤ 3 ∧
    gen_possible_moves emptyBoard PS_UP = some [] ∧
    gen_possible_moves emptyBoard PS_DOWN = some [] ∧
    min_max sampleTables emptyBoard 3 (-50) 50 PS_UP = some (INT32_MAX, emptyBoard) ∧
    min_max sampleTables emptyBoard 3 (-50) 50 PS_DOWN = some (INT32_MIN, emptyBoard) :=
  ⟨by decide, by decide, by decide, by decide,
    (min_max_without_moves sampleTables emptyBoard 3 (by decide) (-50) 50).1 (by decide),
    (min_max_without_moves sampleTables emptyBoard 3 (by decide) (-50) 50).2 (by decide)⟩

/-! ## Reads stay inside the grid -/

/-- C25. In this development a read `cb.get r c` is defined exactly on the cells of the 14 x 13
grid, rows 0..13 and columns 0..12, and a generator that reads any other cell, or whose ray
scan does not stop within `SCAN_FUEL` steps, returns nothing. On every well-formed board and
for every side the generator returns a list of moves: every cell it reads is in the grid and
every ray scan stops. Every cell of the grid outside the playable area reads as `P_EO`. -/
theorem generator_reads_stay_in_grid (cb : ChessBoard) (hwf : WellFormed cb)
    (side : PieceSide) :
    (∃ ms, gen_possible_moves cb side = some ms) ∧
    (∀ r c : Int, cb.get r c = none ↔ ¬ (0 ≤ r ∧ r ≤ 13 ∧ 0 ≤ c ∧ c ≤ 12)) ∧
    (∀ r c : Int, (0 ≤ r ∧ r ≤ 13 ∧ 0 ≤ c ∧ c ≤ 12) → ¬ playable r c →
      cb.get r c = some P_EO) := by
  have hg : ∀ r c : Int, inGrid r c ↔ (0 ≤ r ∧ r ≤ 13 ∧ 0 ≤ c ∧ c ≤ 12) := by
    intro r c
    unfold inGrid BOARD_ROW_LEN BOARD_COL_LEN
    omega
  refine ⟨gen_possible_moves_total hwf side, fun r c => ?_, fun r c hin hnp => ?_⟩
  · rw [← hg]
    constructor
    · intro h hin
      rw [get_eq_cell cb hin] at h
      exact absurd h (by simp)
    · exact fun h => get_eq_none cb h
  · have hin1 := (hg r c).mpr hin
    rw [get_eq_cell cb hin1, (wf_cell hwf hin1).2 hnp]

/-- An instance of C25: the starting board and the upper side. -/
theorem generator_reads_stay_in_grid_witness :
    WellFormed ChessBoard.new ∧
    (∃ ms, gen_possible_moves ChessBoard.new PS_UP = some ms) ∧
    (∀ r c : Int, ChessBoard.new.get r c = none ↔ ¬ (0 ≤ r ∧ r ≤ 13 ∧ 0 ≤ c ∧ c ≤ 12)) ∧
    (∀ r c : Int, (0 ≤ r ∧ r ≤ 13 ∧ 0 ≤ c ∧ c ≤ 12) → ¬ playable r c →
      ChessBoard.new.get r c = some P_EO) :=
  ⟨by decide, generator_reads_stay_in_grid ChessBoard.new (by decide) PS_UP⟩

/-! ## The rook -/

/-- Membership form of `gen_possible_moves_filter_cell`: a move that starts on the playable
cell `(r, c)` is returned by the generator exactly when it is in the list `l` that the loop
body appends at `(r, c)`. -/
theorem gen_possible_moves_mem_cell {cb : ChessBoard} {side : PieceSide} {r c : Int}
    (hpl : playable r c) {l : List MoveNode}
    (hl : ∀ pm, gen_possible_moves_cell cb side r c pm = some (pm ++ l))
    {ms : PossibleMoves} (h : gen_possible_moves cb side = some ms) {m : MoveNode}
    (hm : startsAt r c m) : m ∈ ms ↔ m ∈ l := by
  have hfil := gen_possible_moves_filter_cell hpl hl
    (q := fun m1 => decide (m1 = m))
    (fun m1 hm1 => by
      have := of_decide_eq_true hm1
      subst this
      exact hm) h
  constructor
  · intro hin
    have : m ∈ ms.filter (fun m1 => decide (m1 = m)) := List.mem_filter.mpr ⟨hin, by simp⟩
    rw [hfil] at this
    exact (List.mem_filter.mp this).1
  · intro hin
    have : m ∈ l.filter (fun m1 => decide (m1 = m)) := List.mem_filter.mpr ⟨hin, by simp⟩
    rw [← hfil] at this
    exact (List.mem_filter.mp this).1

/-- One direction of the rook on a well-formed board, from a playable cell: with the first
cell of the ray that is not empty at distance `k0`, it appends the moves to the `k0 - 1` empty
cells before it, nearest first, then the move onto that cell when it holds an enemy piece. -/
theorem rook_direction_emits {cb : ChessBoard} (hwf : WellFormed cb) {r c : Int}
    (hpl : playable r c) {rGap cGap : Int} (hd : isUnitDir rGap cGap) (side : PieceSide) :
    ∃ k0 : Nat, 1 ≤ k0 ∧ k0 ≤ 10 ∧
      (∀ i : Nat, 1 ≤ i → i < k0 → cb.cell (r + i * rGap) (c + i * cGap) = P_EE) ∧
      cb.cell (r + k0 * rGap) (c + k0 * cGap) ≠ P_EE ∧
      ∀ pm, gen_possible_moves_for_rook_one_direction cb pm r c rGap cGap side =
        some (pm ++ rookRayList cb side r c rGap cGap k0) := by
  obtain ⟨k0, h1, h10, hempty, hin, hne, hscan⟩ := scan_empty_cells_wf hwf hpl hd
  refine ⟨k0, h1, h10, fun i hi hik => cell_of_get (hempty i hi hik), hne, ?_⟩
  intro pm
  unfold gen_possible_moves_for_rook_one_direction rookRayList
  simp only [hscan, Option.bind_eq_bind, Option.some_bind]
  split
  · simp [rayMove]
  · simp

theorem rookRayList_on_ray (cb : ChessBoard) (side : PieceSide) (r c rGap cGap : Int)
    {k0 : Nat} (h10 : k0 ≤ 10) (h1 : 1 ≤ k0) :
    AllOnRay r c rGap cGap (rookRayList cb side r c rGap cGap k0) := by
  intro m hm
  unfold rookRayList at hm
  rcases List.mem_append.mp hm with hm | hm
  · obtain ⟨i, hi, rfl⟩ := List.mem_map.mp hm
    rw [List.mem_range] at hi
    exact ⟨i + 1, by omega, by omega, rfl⟩
  · split at hm
    · rw [List.mem_singleton] at hm
      exact ⟨k0, h1, h10, hm⟩
    · simp at hm

theorem gen_possible_moves_cell_rook {cb : ChessBoard} {side : PieceSide} {r c : Int}
    (hpl : playable r c) (ht : piece_get_type (cb.cell r c) = PT_ROOK)
    (hs : piece_get_side (cb.cell r c) = side) (pm : PossibleMoves) :
    gen_possible_moves_cell cb side r c pm = gen_possible_moves_for_rook cb pm r c side := by
  unfold gen_possible_moves_cell
  simp only [get_eq_cell cb (playable_inGrid hpl), Option.bind_eq_bind, Option.some_bind, hs,
    if_true, ht]

theorem rayMove_injective {r c rGap cGap : Int} (hd : isUnitDir rGap cGap) {i j : Nat}
    (h : rayMove r c rGap cGap i = rayMove r c rGap cGap j) : i = j := by
  unfold rayMove at h
  rw [MoveNode.mk.injEq] at h
  rcases hd with ⟨rfl, rfl⟩ | ⟨rfl, rfl⟩ | ⟨rfl, rfl⟩ | ⟨rfl, rfl⟩ <;> omega

/-- C22. On a well-formed board, for a rook of `side` on the playable cell `(r, c)` and each
of the four directions, the generator returns for `side`, and with `k0` the distance of the
first cell of the ray that is not empty, the moves it returns that start on `(r, c)` and end on
that ray are, in order, those of `rookRayList`: one move to each of the `k0 - 1` empty cells
before that cell, then one move onto that cell if and only if it holds an enemy piece, and no
other move; when that cell is off-board or holds a piece of `side` the move onto it is not
returned. -/
theorem rook_moves_on_ray (cb : ChessBoard) (hwf : WellFormed cb) (side : PieceSide)
    (r c : Int) (hpl : playable r c) (ht : piece_get_type (cb.cell r c) = PT_ROOK)
    (hs : piece_get_side (cb.cell r c) = side) (rGap cGap : Int)
    (hd : isUnitDir rGap cGap) :
    ∃ ms, gen_possible_moves cb side = some ms ∧
      ∃ k0 : Nat, 1 ≤ k0 ∧
        (∀ i : Nat, 1 ≤ i → i < k0 → cb.cell (r + i * rGap) (c + i * cGap) = P_EE) ∧
        cb.cell (r + k0 * rGap) (c + k0 * cGap) ≠ P_EE ∧
        ms.filter (fun m => decide (startsAt r c m ∧ onRay r c rGap cGap m)) =
          rookRayList cb side r c rGap cGap k0 ∧
        (cb.cell (r + k0 * rGap) (c + k0 * cGap) = P_EO ∨
            piece_get_side (cb.cell (r + k0 * rGap) (c + k0 * cGap)) = side →
          rayMove r c rGap cGap k0 ∉ ms) := by
  obtain ⟨ms, hms⟩ := gen_possible_moves_total hwf side
  refine ⟨ms, hms, ?_⟩
  have hside : side = PS_UP ∨ side = PS_DOWN := by
    rw [← hs]
    revert ht
    cases cb.cell r c <;> simp [piece_get_type, piece_get_side]
  have dU : isUnitDir (-1) 0 := Or.inl ⟨rfl, rfl⟩
  have dD : isUnitDir 1 0 := Or.inr (Or.inl ⟨rfl, rfl⟩)
  have dL : isUnitDir 0 (-1) := Or.inr (Or.inr (Or.inl ⟨rfl, rfl⟩))
  have dR : isUnitDir 0 1 := Or.inr (Or.inr (Or.inr ⟨rfl, rfl⟩))
  obtain ⟨k1, a1, b1, e1, n1, run1⟩ := rook_direction_emits hwf hpl dU side
  obtain ⟨k2, a2, b2, e2, n2, run2⟩ := rook_direction_emits hwf hpl dD side
  obtain ⟨k3, a3, b3, e3, n3, run3⟩ := rook_direction_emits hwf hpl dL side
  obtain ⟨k4, a4, b4, e4, n4, run4⟩ := rook_direction_emits hwf hpl dR side
  have on1 := rookRayList_on_ray cb side r c (-1) 0 b1 a1
  have on2 := rookRayList_on_ray cb side r c 1 0 b2 a2
  have on3 := rookRayList_on_ray cb side r c 0 (-1) b3 a3
  have on4 := rookRayList_on_ray cb side r c 0 1 b4 a4
  have hl : ∀ pm, gen_possible_moves_cell cb side r c pm =
      some (pm ++ (rookRayList cb side r c (-1) 0 k1 ++ (rookRayList cb side r c 1 0 k2 ++
        (rookRayList cb side r c 0 (-1) k3 ++ rookRayList cb side r c 0 1 k4)))) := by
    intro pm
    rw [gen_possible_moves_cell_rook hpl ht hs]
    unfold gen_possible_moves_for_rook
    simp only [run1, run2, run3, run4, Option.bind_eq_bind, Option.some_bind,
      List.append_assoc]
  have hfil := gen_possible_moves_filter_cell hpl hl
    (q := fun m => decide (startsAt r c m ∧ onRay r c rGap cGap m))
    (fun m hm => (of_decide_eq_true hm).1) hms
  simp only [List.filter_append] at hfil
  -- the description of one ray gives the last clause
  have fin : ∀ (k0 : Nat), 1 ≤ k0 → k0 ≤ 10 →
      ms.filter (fun m => decide (startsAt r c m ∧ onRay r c rGap cGap m)) =
        rookRayList cb side r c rGap cGap k0 →
      (cb.cell (r + k0 * rGap) (c + k0 * cGap) = P_EO ∨
          piece_get_side (cb.cell (r + k0 * rGap) (c + k0 * cGap)) = side →
        rayMove r c rGap cGap k0 ∉ ms) := by
    intro k0 h1 h10 hf hown hin
    have hno : ¬ piece_get_side (cb.cell (r + k0 * rGap) (c + k0 * cGap)) =
        piece_side_get_reverse side := by
      rcases hown with ho | ho
      · rw [ho]
        rcases hside with rfl | rfl <;> decide
      · rw [ho]
        rcases hside with rfl | rfl <;> decide
    have : rayMove r c rGap cGap k0 ∈
        ms.filter (fun m => decide (startsAt r c m ∧ onRay r c rGap cGap m)) :=
      List.mem_filter.mpr ⟨hin, by
        simp only [decide_eq_true_eq]
        exact ⟨⟨rfl, rfl⟩, (rayMove_onRay_iff r c hd hd h1 (by omega)).mpr ⟨rfl, rfl⟩⟩⟩
    rw [hf] at this
    unfold rookRayList at this
    rw [if_neg hno, List.append_nil] at this
    obtain ⟨i, hi, e⟩ := List.mem_map.mp this
    rw [List.mem_range] at hi
    have := rayMove_injective hd e
    omega
  rcases hd with ⟨rfl, rfl⟩ | ⟨rfl, rfl⟩ | ⟨rfl, rfl⟩ | ⟨rfl, rfl⟩
  · rw [filter_ray_same dU on1, filter_ray_other dU dD (by decide) on2,
      filter_ray_other dU dL (by decide) on3, filter_ray_other dU dR (by decide) on4] at hfil
    simp only [List.append_nil] at hfil
    exact ⟨k1, a1, e1, n1, hfil, fin k1 a1 b1 hfil⟩
  · rw [filter_ray_other dD dU (by decide) on1, filter_ray_same dD on2,
      filter_ray_other dD dL (by decide) on3, filter_ray_other dD dR (by decide) on4] at hfil
    simp only [List.append_nil, List.nil_append] at hfil
    exact ⟨k2, a2, e2, n2, hfil, fin k2 a2 b2 hfil⟩
  · rw [filter_ray_other dL dU (by decide) on1, filter_ray_other dL dD (by decide) on2,
      filter_ray_same dL on3, filter_ray_other dL dR (by decide) on4] at hfil
    simp only [List.append_nil, List.nil_append] at hfil
    exact ⟨k3, a3, e3, n3, hfil, fin k3 a3 b3 hfil⟩
  · rw [filter_ray_other dR dU (by decide) on1, filter_ray_other dR dD (by decide) on2,
      filter_ray_other dR dL (by decide) on3, filter_ray_same dR on4] at hfil
    simp only [List.append_nil, List.nil_append] at hfil
    exact ⟨k4, a4, e4, n4, hfil, fin k4 a4 b4 hfil⟩

/-- An instance of C22: the lower rook on (11, 2) of the starting board, looking up. -/
theorem rook_moves_on_ray_witness :
    WellFormed ChessBoard.new ∧ playable 11 2 ∧
    piece_get_type (ChessBoard.new.cell 11 2) = PT_ROOK ∧
    piece_get_side (ChessBoard.new.cell 11 2) = PS_DOWN ∧ isUnitDir (-1) 0 ∧
    ∃ ms, gen_possible_moves ChessBoard.new PS_DOWN = some ms ∧
      ∃ k0 : Nat, 1 ≤ k0 ∧
        (∀ i : Nat, 1 ≤ i → i < k0 → ChessBoard.new.cell (11 + i * (-1)) (2 + i * 0) = P_EE) ∧
        ChessBoard.new.cell (11 + k0 * (-1)) (2 + k0 * 0) ≠ P_EE ∧
        ms.filter (fun m => decide (startsAt 11 2 m ∧ onRay 11 2 (-1) 0 m)) =
          rookRayList ChessBoard.new PS_DOWN 11 2 (-1) 0 k0 ∧
        (ChessBoard.new.cell (11 + k0 * (-1)) (2 + k0 * 0) = P_EO ∨
            piece_get_side (ChessBoard.new.cell (11 + k0 * (-1)) (2 + k0 * 0)) = PS_DOWN →
          rayMove 11 2 (-1) 0 k0 ∉ ms) :=
  ⟨by decide, by decide, by decide, by decide, Or.inl ⟨rfl, rfl⟩,
    rook_moves_on_ray ChessBoard.new (by decide) PS_DOWN 11 2 (by decide) (by decide)
      (by decide) (-1) 0 (Or.inl ⟨rfl, rfl⟩)⟩

/-! ## The advisor and the bishop -/

theorem insert_when_emits (cond : Prop) [Decidable cond] (cb : ChessBoard) {r c r1 c1 : Int}
    (h : inGrid r c) (h1 : inGrid r1 c1) (pm : PossibleMoves) :
    insert_when cond cb pm r c r1 c1 = some (pm ++ guardList cond cb r c r1 c1) := by
  unfold insert_when guardList
  split
  · exact check_possible_move_and_insert_emits cb h h1 pm
  · simp

theorem bishop_eye_emits (cb : ChessBoard) {r c er ec r1 c1 : Int}
    (h : inGrid r c) (he : inGrid er ec) (h1 : inGrid r1 c1) (pm : PossibleMoves) :
    bishop_eye cb pm r c er ec r1 c1 = some (pm ++ eyeList cb r c er ec r1 c1) := by
  unfold bishop_eye eyeList
  simp only [get_eq_cell cb he, Option.bind_eq_bind, Option.some_bind]
  split
  · exact check_possible_move_and_insert_emits cb h h1 pm
  · simp

theorem mem_guardList {cond : Prop} [Decidable cond] {cb : ChessBoard} {r c r1 c1 R C : Int} :
    (⟨r, c, R, C⟩ : MoveNode) ∈ guardList cond cb r c r1 c1 ↔
      cond ∧ (R = r1 ∧ C = c1) ∧ cb.cell r1 c1 ≠ P_EO ∧
        piece_get_side (cb.cell r c) ≠ piece_get_side (cb.cell r1 c1) := by
  unfold guardList
  split
  · rename_i h
    simp [h, mem_insertList]
  · rename_i h
    simp [h]

theorem mem_eyeList {cb : ChessBoard} {r c er ec r1 c1 R C : Int} :
    (⟨r, c, R, C⟩ : MoveNode) ∈ eyeList cb r c er ec r1 c1 ↔
      cb.cell er ec = P_EE ∧ (R = r1 ∧ C = c1) ∧ cb.cell r1 c1 ≠ P_EO ∧
        piece_get_side (cb.cell r c) ≠ piece_get_side (cb.cell r1 c1) := by
  unfold eyeList
  split
  · rename_i h
    simp [h, mem_insertList]
  · rename_i h
    simp [h]

/-- The side of a piece that is a bishop, an advisor, a general, a rook, a knight, a cannon
or a pawn is the upper or the lower side. -/
theorem side_of_piece {p : Piece} {side : PieceSide} (hs : piece_get_side p = side)
    (ht : piece_get_type p ≠ PT_EMPTY ∧ piece_get_type p ≠ PT_OUT) :
    side = PS_UP ∨ side = PS_DOWN := by
  rw [← hs]
  revert ht
  cases p <;> simp [piece_get_type, piece_get_side]

theorem gen_possible_moves_cell_advisor {cb : ChessBoard} {side : PieceSide} {r c : Int}
    (hpl : playable r c) (ht : piece_get_type (cb.cell r c) = PT_ADVISOR)
    (hs : piece_get_side (cb.cell r c) = side) (pm : PossibleMoves) :
    gen_possible_moves_cell cb side r c pm = gen_possible_moves_for_advisor cb pm r c side := by
  unfold gen_possible_moves_cell
  simp only [get_eq_cell cb (playable_inGrid hpl), Option.bind_eq_bind, Option.some_bind, hs,
    if_true, ht]

theorem inPalace_playable {side : PieceSide} {r c : Int} (h : inPalace side r c) :
    playable r c := by
  cases side
  · simp only [inPalace, inUpperPalace, BOARD_9_PALACE_UP_TOP, BOARD_9_PALACE_UP_BOTTOM,
      BOARD_9_PALACE_UP_LEFT, BOARD_9_PALACE_UP_RIGHT, BOARD_ACTUAL_ROW_BEGIN,
      BOARD_ACTUAL_COL_BEGIN] at h
    unfold playable BOARD_ACTUAL_ROW_BEGIN BOARD_ACTUAL_ROW_LEN BOARD_ACTUAL_COL_BEGIN
      BOARD_ACTUAL_COL_LEN
    omega
  · simp only [inPalace, inLowerPalace, BOARD_9_PALACE_DOWN_TOP, BOARD_9_PALACE_DOWN_BOTTOM,
      BOARD_9_PALACE_DOWN_LEFT, BOARD_9_PALACE_DOWN_RIGHT, BOARD_ACTUAL_ROW_BEGIN,
      BOARD_ACTUAL_COL_BEGIN] at h
    unfold playable BOARD_ACTUAL_ROW_BEGIN BOARD_ACTUAL_ROW_LEN BOARD_ACTUAL_COL_BEGIN
      BOARD_ACTUAL_COL_LEN
    omega
  · exact absurd h (by simp [inPalace])

theorem inPalace_up_iff {r c : Int} :
    inPalace PS_UP r c ↔ 2 ≤ r ∧ r ≤ 4 ∧ 5 ≤ c ∧ c ≤ 7 := by
  simp only [inPalace, inUpperPalace, BOARD_9_PALACE_UP_TOP, BOARD_9_PALACE_UP_BOTTOM,
    BOARD_9_PALACE_UP_LEFT, BOARD_9_PALACE_UP_RIGHT, BOARD_ACTUAL_ROW_BEGIN,
    BOARD_ACTUAL_COL_BEGIN]
  omega

theorem inPalace_down_iff {r c : Int} :
    inPalace PS_DOWN r c ↔ 9 ≤ r ∧ r ≤ 11 ∧ 5 ≤ c ∧ c ≤ 7 := by
  simp only [inPalace, inLowerPalace, BOARD_9_PALACE_DOWN_TOP, BOARD_9_PALACE_DOWN_BOTTOM,
    BOARD_9_PALACE_DOWN_LEFT, BOARD_9_PALACE_DOWN_RIGHT, BOARD_ACTUAL_ROW_BEGIN,
    BOARD_ACTUAL_COL_BEGIN]
  omega

/-- The moves of an advisor that stands in its palace, in full. -/
theorem advisor_cell_moves {cb : ChessBoard} (hwf : WellFormed cb) {side : PieceSide}
    {r c : Int} (ht : piece_get_type (cb.cell r c) = PT_ADVISOR)
    (hs : piece_get_side (cb.cell r c) = side) (hin : inPalace side r c)
    {ms : PossibleMoves} (hms : gen_possible_moves cb side = some ms) (R C : Int) :
    (⟨r, c, R, C⟩ : MoveNode) ∈ ms ↔
      ((R = r + 1 ∨ R = r - 1) ∧ (C = c + 1 ∨ C = c - 1)) ∧ inPalace side R C ∧
        piece_get_side (cb.cell R C) ≠ side := by
  have hpl := inPalace_playable hin
  have h0 := playable_inGrid hpl
  have n : ∀ {r1 c1 : Int}, (r - 2 ≤ r1 ∧ r1 ≤ r + 2) → (c - 2 ≤ c1 ∧ c1 ≤ c + 2) →
      inGrid r1 c1 := fun hr hc => near_inGrid hpl hr hc
  have hne : inPalace side R C → cb.cell R C ≠ P_EO := fun hp =>
    (wf_cell hwf (playable_inGrid (inPalace_playable hp))).1 (inPalace_playable hp)
  have hside := side_of_piece hs (by rw [ht]; decide)
  rcases hside with rfl | rfl
  · have hl : ∀ pm, gen_possible_moves_cell cb PS_UP r c pm = some (pm ++
        (guardList (r + 1 ≤ BOARD_9_PALACE_UP_BOTTOM ∧ c + 1 ≤ BOARD_9_PALACE_UP_RIGHT)
            cb r c (r + 1) (c + 1) ++
          (guardList (r + 1 ≤ BOARD_9_PALACE_UP_BOTTOM ∧ c - 1 ≥ BOARD_9_PALACE_UP_LEFT)
              cb r c (r + 1) (c - 1) ++
            (guardList (r - 1 ≥ BOARD_9_PALACE_UP_TOP ∧ c + 1 ≤ BOARD_9_PALACE_UP_RIGHT)
                cb r c (r - 1) (c + 1) ++
              guardList (r - 1 ≥ BOARD_9_PALACE_UP_TOP ∧ c - 1 ≥ BOARD_9_PALACE_UP_LEFT)
                cb r c (r - 1) (c - 1))))) := by
      intro pm
      rw [gen_possible_moves_cell_advisor hpl ht hs]
      unfold gen_possible_moves_for_advisor
      simp only [if_true, Option.bind_eq_bind,
        insert_when_emits _ cb h0 (n (by omega) (by omega) : inGrid (r + 1) (c + 1)),
        insert_when_emits _ cb h0 (n (by omega) (by omega) : inGrid (r + 1) (c - 1)),
        insert_when_emits _ cb h0 (n (by omega) (by omega) : inGrid (r - 1) (c + 1)),
        insert_when_emits _ cb h0 (n (by omega) (by omega) : inGrid (r - 1) (c - 1)),
        Option.some_bind, List.append_assoc]
    rw [gen_possible_moves_mem_cell hpl hl hms ⟨rfl, rfl⟩]
    rw [inPalace_up_iff] at hin
    simp only [List.mem_append, mem_guardList, hs, inPalace_up_iff, BOARD_9_PALACE_UP_TOP,
      BOARD_9_PALACE_UP_BOTTOM, BOARD_9_PALACE_UP_LEFT, BOARD_9_PALACE_UP_RIGHT,
      BOARD_ACTUAL_ROW_BEGIN, BOARD_ACTUAL_COL_BEGIN]
    constructor
    · rintro (⟨hg, ⟨rfl, rfl⟩, _, h2⟩ | ⟨hg, ⟨rfl, rfl⟩, _, h2⟩ | ⟨hg, ⟨rfl, rfl⟩, _, h2⟩ |
        ⟨hg, ⟨rfl, rfl⟩, _, h2⟩) <;>
      exact ⟨by omega, by omega, fun e => h2 e.symm⟩
    · rintro ⟨⟨hR, hC⟩, hp, h2⟩
      have hne1 := hne (inPalace_up_iff.mpr hp)
      rcases hR with rfl | rfl <;> rcases hC with rfl | rfl
      · exact Or.inl ⟨by omega, ⟨rfl, rfl⟩, hne1, fun e => h2 e.symm⟩
      · exact Or.inr (Or.inl ⟨by omega, ⟨rfl, rfl⟩, hne1, fun e => h2 e.symm⟩)
      · exact Or.inr (Or.inr (Or.inl ⟨by omega, ⟨rfl, rfl⟩, hne1, fun e => h2 e.symm⟩))
      · exact Or.inr (Or.inr (Or.inr ⟨by omega, ⟨rfl, rfl⟩, hne1, fun e => h2 e.symm⟩))
  · have hl : ∀ pm, gen_possible_moves_cell cb PS_DOWN r c pm = some (pm ++
        (guardList (r + 1 ≤ BOARD_9_PALACE_DOWN_BOTTOM ∧ c + 1 ≤ BOARD_9_PALACE_DOWN_RIGHT)
            cb r c (r + 1) (c + 1) ++
          (guardList (r + 1 ≤ BOARD_9_PALACE_DOWN_BOTTOM ∧ c - 1 ≥ BOARD_9_PALACE_DOWN_LEFT)
              cb r c (r + 1) (c - 1) ++
            (guardList (r - 1 ≥ BOARD_9_PALACE_DOWN_TOP ∧ c + 1 ≤ BOARD_9_PALACE_DOWN_RIGHT)
                cb r c (r - 1) (c + 1) ++
              guardList (r - 1 ≥ BOARD_9_PALACE_DOWN_TOP ∧ c - 1 ≥ BOARD_9_PALACE_DOWN_LEFT)
                cb r c (r - 1) (c - 1))))) := by
      intro pm
      rw [gen_possible_moves_cell_advisor hpl ht hs]
      unfold gen_possible_moves_for_advisor
      simp only [if_true, Option.bind_eq_bind, (by decide : ¬ PS_DOWN = PS_UP), if_false,
        insert_when_emits _ cb h0 (n (by omega) (by omega) : inGrid (r + 1) (c + 1)),
        insert_when_emits _ cb h0 (n (by omega) (by omega) : inGrid (r + 1) (c - 1)),
        insert_when_emits _ cb h0 (n (by omega) (by omega) : inGrid (r - 1) (c + 1)),
        insert_when_emits _ cb h0 (n (by omega) (by omega) : inGrid (r - 1) (c - 1)),
        Option.some_bind, List.append_assoc]
    rw [gen_possible_moves_mem_cell hpl hl hms ⟨rfl, rfl⟩]
    rw [inPalace_down_iff] at hin
    simp only [List.mem_append, mem_guardList, hs, inPalace_down_iff, BOARD_9_PALACE_DOWN_TOP,
      BOARD_9_PALACE_DOWN_BOTTOM, BOARD_9_PALACE_DOWN_LEFT, BOARD_9_PALACE_DOWN_RIGHT,
      BOARD_ACTUAL_ROW_BEGIN, BOARD_ACTUAL_COL_BEGIN]
    constructor
    · rintro (⟨hg, ⟨rfl, rfl⟩, _, h2⟩ | ⟨hg, ⟨rfl, rfl⟩, _, h2⟩ | ⟨hg, ⟨rfl, rfl⟩, _, h2⟩ |
        ⟨hg, ⟨rfl, rfl⟩, _, h2⟩) <;>
      exact ⟨by omega, by omega, fun e => h2 e.symm⟩
    · rintro ⟨⟨hR, hC⟩, hp, h2⟩
      have hne1 := hne (inPalace_down_iff.mpr hp)
      rcases hR with rfl | rfl <;> rcases hC with rfl | rfl
      · exact Or.inl ⟨by omega, ⟨rfl, rfl⟩, hne1, fun e => h2 e.symm⟩
      · exact Or.inr (Or.inl ⟨by omega, ⟨rfl, rfl⟩, hne1, fun e => h2 e.symm⟩)
      · exact Or.inr (Or.inr (Or.inl ⟨by omega, ⟨rfl, rfl⟩, hne1, fun e => h2 e.symm⟩))
      · exact Or.inr (Or.inr (Or.inr ⟨by omega, ⟨rfl, rfl⟩, hne1, fun e => h2 e.symm⟩))

/-- C24. On a well-formed board, for an advisor of `side` that stands on a cell `(r, c)` of
`side`'s palace box, the generator returns for `side`, and a move from `(r, c)` is among the
moves it returns if and only if it is a diagonal step of one cell whose destination lies
inside `side`'s palace box and does not hold a piece of `side`; so both ends of every move it
returns from `(r, c)` lie in the palace. -/
theorem advisor_moves_in_palace (cb : ChessBoard) (hwf : WellFormed cb) (side : PieceSide)
    (r c : Int) (ht : piece_get_type (cb.cell r c) = PT_ADVISOR)
    (hs : piece_get_side (cb.cell r c) = side) (hin : inPalace side r c) :
    ∃ ms, gen_possible_moves cb side = some ms ∧
      (∀ R C : Int, (⟨r, c, R, C⟩ : MoveNode) ∈ ms ↔
        ((R = r + 1 ∨ R = r - 1) ∧ (C = c + 1 ∨ C = c - 1)) ∧ inPalace side R C ∧
          piece_get_side (cb.cell R C) ≠ side) ∧
      ∀ m ∈ ms, startsAt r c m →
        inPalace side m.beginRow m.beginCol ∧ inPalace side m.endRow m.endCol := by
  obtain ⟨ms, hms⟩ := gen_possible_moves_total hwf side
  refine ⟨ms, hms, fun R C => advisor_cell_moves hwf ht hs hin hms R C, ?_⟩
  rintro ⟨br, bc, R, C⟩ hm ⟨e1, e2⟩
  simp only at e1 e2
  subst e1 e2
  exact ⟨hin, ((advisor_cell_moves hwf ht hs hin hms R C).mp hm).2.1⟩

/-- An instance of C24: the lower advisor on (11, 5) of the starting board. -/
theorem advisor_moves_in_palace_witness :
    WellFormed ChessBoard.new ∧
    piece_get_type (ChessBoard.new.cell 11 5) = PT_ADVISOR ∧
    piece_get_side (ChessBoard.new.cell 11 5) = PS_DOWN ∧ inPalace PS_DOWN 11 5 ∧
    ∃ ms, gen_possible_moves ChessBoard.new PS_DOWN = some ms ∧
      (∀ R C : Int, (⟨11, 5, R, C⟩ : MoveNode) ∈ ms ↔
        ((R = 11 + 1 ∨ R = 11 - 1) ∧ (C = 5 + 1 ∨ C = 5 - 1)) ∧ inPalace PS_DOWN R C ∧
          piece_get_side (ChessBoard.new.cell R C) ≠ PS_DOWN) ∧
      ∀ m ∈ ms, startsAt 11 5 m →
        inPalace PS_DOWN m.beginRow m.beginCol ∧ inPalace PS_DOWN m.endRow m.endCol :=
  ⟨by decide, by decide, by decide, by decide,
    advisor_moves_in_palace ChessBoard.new (by decide) PS_DOWN 11 5 (by decide) (by decide)
      (by decide)⟩

theorem gen_possible_moves_cell_bishop {cb : ChessBoard} {side : PieceSide} {r c : Int}
    (hpl : playable r c) (ht : piece_get_type (cb.cell r c) = PT_BISHOP)
    (hs : piece_get_side (cb.cell r c) = side) (pm : PossibleMoves) :
    gen_possible_moves_cell cb side r c pm = gen_possible_moves_for_bishop cb pm r c side := by
  unfold gen_possible_moves_cell
  simp only [get_eq_cell cb (playable_inGrid hpl), Option.bind_eq_bind, Option.some_bind, hs,
    if_true, ht]

theorem mem_ite_nil {g : Prop} [Decidable g] {L : List MoveNode} {m : MoveNode} :
    (m ∈ if g then L else []) ↔ g ∧ m ∈ L := by
  split
  · rename_i h
    simp [h]
  · rename_i h
    simp [h]

theorem onOwnSide_up_iff {r : Int} : onOwnSide PS_UP r ↔ r ≤ 6 := by
  simp only [onOwnSide, BOARD_RIVER_UP, BOARD_ACTUAL_ROW_BEGIN]
  omega

theorem onOwnSide_down_iff {r : Int} : onOwnSide PS_DOWN r ↔ r ≥ 7 := by
  simp only [onOwnSide, BOARD_RIVER_DOWN, BOARD_ACTUAL_ROW_BEGIN]
  omega

/-- The moves of an upper bishop on its side of the river, in full. -/
theorem bishop_cell_moves_up {cb : ChessBoard} {r c : Int} (hpl : playable r c)
    (ht : piece_get_type (cb.cell r c) = PT_BISHOP)
    (hs : piece_get_side (cb.cell r c) = PS_UP) (hown : onOwnSide PS_UP r)
    {ms : PossibleMoves} (hms : gen_possible_moves cb PS_UP = some ms) (R C : Int) :
    (⟨r, c, R, C⟩ : MoveNode) ∈ ms ↔
      ∃ dr dc : Int, (dr = 1 ∨ dr = -1) ∧ (dc = 1 ∨ dc = -1) ∧
        R = r + 2 * dr ∧ C = c + 2 * dc ∧ cb.cell (r + dr) (c + dc) = P_EE ∧
        onOwnSide PS_UP R ∧ cb.cell R C ≠ P_EO ∧ piece_get_side (cb.cell R C) ≠ PS_UP := by
  have h0 := playable_inGrid hpl
  have n : ∀ {r1 c1 : Int}, (r - 2 ≤ r1 ∧ r1 ≤ r + 2) → (c - 2 ≤ c1 ∧ c1 ≤ c + 2) →
      inGrid r1 c1 := fun hr hc => near_inGrid hpl hr hc
  have hl : ∀ pm, gen_possible_moves_cell cb PS_UP r c pm = some (pm ++
      ((if r + 2 ≤ BOARD_RIVER_UP then
          eyeList cb r c (r + 1) (c + 1) (r + 2) (c + 2) ++
            eyeList cb r c (r + 1) (c - 1) (r + 2) (c - 2)
        else []) ++
        (eyeList cb r c (r - 1) (c + 1) (r - 2) (c + 2) ++
          eyeList cb r c (r - 1) (c - 1) (r - 2) (c - 2)))) := by
    intro pm
    rw [gen_possible_moves_cell_bishop hpl ht hs]
    unfold gen_possible_moves_for_bishop
    by_cases hg : r + 2 ≤ BOARD_RIVER_UP
    · simp only [if_true, hg, Option.bind_eq_bind,
        bishop_eye_emits cb h0 (n (by omega) (by omega) : inGrid (r + 1) (c + 1))
          (n (by omega) (by omega) : inGrid (r + 2) (c + 2)),
        bishop_eye_emits cb h0 (n (by omega) (by omega) : inGrid (r + 1) (c - 1))
          (n (by omega) (by omega) : inGrid (r + 2) (c - 2)),
        bishop_eye_emits cb h0 (n (by omega) (by omega) : inGrid (r - 1) (c + 1))
          (n (by omega) (by omega) : inGrid (r - 2) (c + 2)),
        bishop_eye_emits cb h0 (n (by omega) (by omega) : inGrid (r - 1) (c - 1))
          (n (by omega) (by omega) : inGrid (r - 2) (c - 2)),
        Option.some_bind, List.append_assoc]
    · simp only [if_true, hg, if_false, Option.bind_eq_bind,
        bishop_eye_emits cb h0 (n (by omega) (by omega) : inGrid (r - 1) (c + 1))
          (n (by omega) (by omega) : inGrid (r - 2) (c + 2)),
        bishop_eye_emits cb h0 (n (by omega) (by omega) : inGrid (r - 1) (c - 1))
          (n (by omega) (by omega) : inGrid (r - 2) (c - 2)),
        Option.some_bind, List.append_assoc, List.nil_append]
  rw [gen_possible_moves_mem_cell hpl hl hms ⟨rfl, rfl⟩]
  rw [onOwnSide_up_iff] at hown
  simp only [List.mem_append, mem_ite_nil, mem_eyeList, hs, onOwnSide_up_iff, BOARD_RIVER_UP,
    BOARD_ACTUAL_ROW_BEGIN]
  constructor
  · rintro (⟨hg, (⟨he, ⟨rfl, rfl⟩, h1, h2⟩ | ⟨he, ⟨rfl, rfl⟩, h1, h2⟩)⟩ |
      (⟨he, ⟨rfl, rfl⟩, h1, h2⟩ | ⟨he, ⟨rfl, rfl⟩, h1, h2⟩))
    · exact ⟨1, 1, Or.inl rfl, Or.inl rfl, by omega, by omega, he, by omega, h1,
        fun e => h2 e.symm⟩
    · exact ⟨1, -1, Or.inl rfl, Or.inr rfl, by omega, by omega,
        by simpa [sub_eq_add_neg] using he, by omega, h1, fun e => h2 e.symm⟩
    · exact ⟨-1, 1, Or.inr rfl, Or.inl rfl, by omega, by omega,
        by simpa [sub_eq_add_neg] using he, by omega, h1, fun e => h2 e.symm⟩
    · exact ⟨-1, -1, Or.inr rfl, Or.inr rfl, by omega, by omega,
        by simpa [sub_eq_add_neg] using he, by omega, h1, fun e => h2 e.symm⟩
  · rintro ⟨dr, dc, hdr, hdc, eR, eC, he, ho, h1, h2⟩
    rcases hdr with rfl | rfl <;> rcases hdc with rfl | rfl
    · obtain rfl : R = r + 2 := by omega
      obtain rfl : C = c + 2 := by omega
      exact Or.inl ⟨by omega, Or.inl ⟨he, ⟨rfl, rfl⟩, h1, fun e => h2 e.symm⟩⟩
    · obtain rfl : R = r + 2 := by omega
      obtain rfl : C = c - 2 := by omega
      exact Or.inl ⟨by omega, Or.inr ⟨by simpa [sub_eq_add_neg] using he, ⟨rfl, rfl⟩, h1,
        fun e => h2 e.symm⟩⟩
    · obtain rfl : R = r - 2 := by omega
      obtain rfl : C = c + 2 := by omega
      exact Or.inr (Or.inl ⟨by simpa [sub_eq_add_neg] using he, ⟨rfl, rfl⟩, h1,
        fun e => h2 e.symm⟩)
    · obtain rfl : R = r - 2 := by omega
      obtain rfl : C = c - 2 := by omega
      exact Or.inr (Or.inr ⟨by simpa [sub_eq_add_neg] using he, ⟨rfl, rfl⟩, h1,
        fun e => h2 e.symm⟩)

/-- The moves of a lower bishop on its side of the river, in full. -/
theorem bishop_cell_moves_down {cb : ChessBoard} {r c : Int} (hpl : playable r c)
    (ht : piece_get_type (cb.cell r c) = PT_BISHOP)
    (hs : piece_get_side (cb.cell r c) = PS_DOWN) (hown : onOwnSide PS_DOWN r)
    {ms : PossibleMoves} (hms : gen_possible_moves cb PS_DOWN = some ms) (R C : Int) :
    (⟨r, c, R, C⟩ : MoveNode) ∈ ms ↔
      ∃ dr dc : Int, (dr = 1 ∨ dr = -1) ∧ (dc = 1 ∨ dc = -1) ∧
        R = r + 2 * dr ∧ C = c + 2 * dc ∧ cb.cell (r + dr) (c + dc) = P_EE ∧
        onOwnSide PS_DOWN R ∧ cb.cell R C ≠ P_EO ∧
        piece_get_side (cb.cell R C) ≠ PS_DOWN := by
  have h0 := playable_inGrid hpl
  have n : ∀ {r1 c1 : Int}, (r - 2 ≤ r1 ∧ r1 ≤ r + 2) → (c - 2 ≤ c1 ∧ c1 ≤ c + 2) →
      inGrid r1 c1 := fun hr hc => near_inGrid hpl hr hc
  have hl : ∀ pm, gen_possible_moves_cell cb PS_DOWN r c pm = some (pm ++
      ((if r - 2 ≥ BOARD_RIVER_DOWN then
          eyeList cb r c (r - 1) (c + 1) (r - 2) (c + 2) ++
            eyeList cb r c (r - 1) (c - 1) (r - 2) (c - 2)
        else []) ++
        (eyeList cb r c (r + 1) (c + 1) (r + 2) (c + 2) ++
          eyeList cb r c (r + 1) (c - 1) (r + 2) (c - 2)))) := by
    intro pm
    rw [gen_possible_moves_cell_bishop hpl ht hs]
    unfold gen_possible_moves_for_bishop
    by_cases hg : r - 2 ≥ BOARD_RIVER_DOWN
    · simp only [if_true, hg, Option.bind_eq_bind, (by decide : ¬ PS_DOWN = PS_UP), if_false,
        bishop_eye_emits cb h0 (n (by omega) (by omega) : inGrid (r + 1) (c + 1))
          (n (by omega) (by omega) : inGrid (r + 2) (c + 2)),
        bishop_eye_emits cb h0 (n (by omega) (by omega) : inGrid (r + 1) (c - 1))
          (n (by omega) (by omega) : inGrid (r + 2) (c - 2)),
        bishop_eye_emits cb h0 (n (by omega) (by omega) : inGrid (r - 1) (c + 1))
          (n (by omega) (by omega) : inGrid (r - 2) (c + 2)),
        bishop_eye_emits cb h0 (n (by omega) (by omega) : inGrid (r - 1) (c - 1))
          (n (by omega) (by omega) : inGrid (r - 2) (c - 2)),
        Option.some_bind, List.append_assoc]
    · simp only [if_true, hg, if_false, Option.bind_eq_bind, (by decide : ¬ PS_DOWN = PS_UP),
        bishop_eye_emits cb h0 (n (by omega) (by omega) : inGrid (r + 1) (c + 1))
          (n (by omega) (by omega) : inGrid (r + 2) (c + 2)),
        bishop_eye_emits cb h0 (n (by omega) (by omega) : inGrid (r + 1) (c - 1))
          (n (by omega) (by omega) : inGrid (r + 2) (c - 2)),
        Option.some_bind, List.append_assoc, List.nil_append]
  rw [gen_possible_moves_mem_cell hpl hl hms ⟨rfl, rfl⟩]
  rw [onOwnSide_down_iff] at hown
  simp only [List.mem_append, mem_ite_nil, mem_eyeList, hs, onOwnSide_down_iff,
    BOARD_RIVER_DOWN, BOARD_ACTUAL_ROW_BEGIN]
  constructor
  · rintro (⟨hg, (⟨he, ⟨rfl, rfl⟩, h1, h2⟩ | ⟨he, ⟨rfl, rfl⟩, h1, h2⟩)⟩ |
      (⟨he, ⟨rfl, rfl⟩, h1, h2⟩ | ⟨he, ⟨rfl, rfl⟩, h1, h2⟩))
    · exact ⟨-1, 1, Or.inr rfl, Or.inl rfl, by omega, by omega,
        by simpa [sub_eq_add_neg] using he, by omega, h1, fun e => h2 e.symm⟩
    · exact ⟨-1, -1, Or.inr rfl, Or.inr rfl, by omega, by omega,
        by simpa [sub_eq_add_neg] using he, by omega, h1, fun e => h2 e.symm⟩
    · exact ⟨1, 1, Or.inl rfl, Or.inl rfl, by omega, by omega, he, by omega, h1,
        fun e => h2 e.symm⟩
    · exact ⟨1, -1, Or.inl rfl, Or.inr rfl, by omega, by omega,
        by simpa [sub_eq_add_neg] using he, by omega, h1, fun e => h2 e.symm⟩
  · rintro ⟨dr, dc, hdr, hdc, eR, eC, he, ho, h1, h2⟩
    rcases hdr with rfl | rfl <;> rcases hdc with rfl | rfl
    · obtain rfl : R = r + 2 := by omega
      obtain rfl : C = c + 2 := by omega
      exact Or.inr (Or.inl ⟨he, ⟨rfl, rfl⟩, h1, fun e => h2 e.symm⟩)
    · obtain rfl : R = r + 2 := by omega
      obtain rfl : C = c - 2 := by omega
      exact Or.inr (Or.inr ⟨by simpa [sub_eq_add_neg] using he, ⟨rfl, rfl⟩, h1,
        fun e => h2 e.symm⟩)
    · obtain rfl : R = r - 2 := by omega
      obtain rfl : C = c + 2 := by omega
      exact Or.inl ⟨by omega, Or.inl ⟨by simpa [sub_eq_add_neg] using he, ⟨rfl, rfl⟩, h1,
        fun e => h2 e.symm⟩⟩
    · obtain rfl : R = r - 2 := by omega
      obtain rfl : C = c - 2 := by omega
      exact Or.inl ⟨by omega, Or.inr ⟨by simpa [sub_eq_add_neg] using he, ⟨rfl, rfl⟩, h1,
        fun e => h2 e.symm⟩⟩

/-- C23. On a well-formed board, for a bishop of `side` on the playable cell `(r, c)` on
`side`'s own side of the river (upper: row at most 6, lower: row at least 7), the generator
returns for `side`, and a move from `(r, c)` to `(R, C)` is among the moves it returns if and
only if `(R, C)` is two cells away diagonally, `(r + 2 dr, c + 2 dc)` with `dr` and `dc` each
1 or -1, the eye `(r + dr, c + dc)` is empty, the row `R` is on the same side of the river, and
the cell `(R, C)` is not off-board and does not hold a piece of `side`. -/
theorem bishop_moves_this_side_of_river (cb : ChessBoard) (hwf : WellFormed cb)
    (side : PieceSide) (r c : Int) (hpl : playable r c)
    (ht : piece_get_type (cb.cell r c) = PT_BISHOP)
    (hs : piece_get_side (cb.cell r c) = side) (hown : onOwnSide side r) :
    ∃ ms, gen_possible_moves cb side = some ms ∧
      ∀ R C : Int, (⟨r, c, R, C⟩ : MoveNode) ∈ ms ↔
        ∃ dr dc : Int, (dr = 1 ∨ dr = -1) ∧ (dc = 1 ∨ dc = -1) ∧
          R = r + 2 * dr ∧ C = c + 2 * dc ∧ cb.cell (r + dr) (c + dc) = P_EE ∧
          onOwnSide side R ∧ cb.cell R C ≠ P_EO ∧ piece_get_side (cb.cell R C) ≠ side := by
  obtain ⟨ms, hms⟩ := gen_possible_moves_total hwf side
  refine ⟨ms, hms, fun R C => ?_⟩
  rcases side_of_piece hs (by rw [ht]; decide) with rfl | rfl
  · exact bishop_cell_moves_up hpl ht hs hown hms R C
  · exact bishop_cell_moves_down hpl ht hs hown hms R C

/-- An instance of C23: the lower bishop on (11, 4) of the starting board. -/
theorem bishop_moves_this_side_of_river_witness :
    WellFormed ChessBoard.new ∧ playable 11 4 ∧
    piece_get_type (ChessBoard.new.cell 11 4) = PT_BISHOP ∧
    piece_get_side (ChessBoard.new.cell 11 4) = PS_DOWN ∧ onOwnSide PS_DOWN 11 ∧
    ∃ ms, gen_possible_moves ChessBoard.new PS_DOWN = some ms ∧
      ∀ R C : Int, (⟨11, 4, R, C⟩ : MoveNode) ∈ ms ↔
        ∃ dr dc : Int, (dr = 1 ∨ dr = -1) ∧ (dc = 1 ∨ dc = -1) ∧
          R = 11 + 2 * dr ∧ C = 4 + 2 * dc ∧ ChessBoard.new.cell (11 + dr) (4 + dc) = P_EE ∧
          onOwnSide PS_DOWN R ∧ ChessBoard.new.cell R C ≠ P_EO ∧
          piece_get_side (ChessBoard.new.cell R C) ≠ PS_DOWN :=
  ⟨by decide, by decide, by decide, by decide, by decide,
    bishop_moves_this_side_of_river ChessBoard.new (by decide) PS_DOWN 11 4 (by decide)
      (by decide) (by decide) (by decide)⟩

/-! ## The flying general -/

/-- The loop of the upper general from `row`, when the next `k` cells of the column are empty
rows of the board and the cell after them holds `p`, not empty: it inserts the move onto that
cell exactly when `p` is the lower general. The loop may also stop because that cell is past
the last row, where no general stands. -/
theorem scan_general_up_run (cb : ChessBoard) (r c : Int) (k : Nat) :
    ∀ (fuel : Nat) (row : Int) (pm : PossibleMoves) (p : Piece), k < fuel →
      (∀ i : Nat, i < k → row + i < 12 ∧ cb.get (row + i) c = some P_EE) →
      cb.get (row + k) c = some p → p ≠ P_EE → (¬ row + k < 12 → p ≠ P_DG) →
      scan_general_up cb r c fuel row pm =
        some (pm ++ if p = P_DG then [⟨r, c, row + k, c⟩] else []) := by
  induction k with
  | zero =>
    intro fuel row pm p hf _ hk hp hout
    obtain ⟨n, rfl⟩ : ∃ n, fuel = n + 1 := ⟨fuel - 1, by omega⟩
    simp only [Nat.cast_zero, add_zero] at hk hout ⊢
    unfold scan_general_up
    simp only [BOARD_ACTUAL_ROW_BEGIN, BOARD_ACTUAL_ROW_LEN]
    by_cases hlt : row < 12
    · rw [if_pos (by omega)]
      simp only [hk, Option.bind_eq_bind, Option.some_bind, hp, if_false]
      split <;> simp
    · rw [if_neg (by omega), if_neg (hout hlt), List.append_nil]
  | succ k ih =>
    intro fuel row pm p hf he hk hp hout
    obtain ⟨n, rfl⟩ : ∃ n, fuel = n + 1 := ⟨fuel - 1, by omega⟩
    have h0 := he 0 (by omega)
    simp only [Nat.cast_zero, add_zero] at h0
    have e1 : ∀ i : Nat, row + 1 + i = row + ((i + 1 : Nat) : Int) := by
      intro i; push_cast; ring
    have := ih n (row + 1) pm p (by omega)
      (fun i hi => by rw [e1]; exact he (i + 1) (by omega))
      (by rw [e1]; exact hk) hp (by rw [e1]; exact hout)
    unfold scan_general_up
    simp only [BOARD_ACTUAL_ROW_BEGIN, BOARD_ACTUAL_ROW_LEN]
    rw [if_pos (by omega)]
    simp only [h0.2, Option.bind_eq_bind, Option.some_bind, if_true, this, e1]

/-- The loop of the lower general from `row`, going up the grid. -/
theorem scan_general_down_run (cb : ChessBoard) (r c : Int) (k : Nat) :
    ∀ (fuel : Nat) (row : Int) (pm : PossibleMoves) (p : Piece), k < fuel →
      (∀ i : Nat, i < k → row - i ≥ 2 ∧ cb.get (row - i) c = some P_EE) →
      cb.get (row - k) c = some p → p ≠ P_EE → (¬ row - k ≥ 2 → p ≠ P_UG) →
      scan_general_down cb r c fuel row pm =
        some (pm ++ if p = P_UG then [⟨r, c, row - k, c⟩] else []) := by
  induction k with
  | zero =>
    intro fuel row pm p hf _ hk hp hout
    obtain ⟨n, rfl⟩ : ∃ n, fuel = n + 1 := ⟨fuel - 1, by omega⟩
    simp only [Nat.cast_zero, sub_zero] at hk hout ⊢
    unfold scan_general_down
    simp only [BOARD_ACTUAL_ROW_BEGIN]
    by_cases hlt : row ≥ 2
    · rw [if_pos hlt]
      simp only [hk, Option.bind_eq_bind, Option.some_bind, hp, if_false]
      split <;> simp
    · rw [if_neg hlt, if_neg (hout hlt), List.append_nil]
  | succ k ih =>
    intro fuel row pm p hf he hk hp hout
    obtain ⟨n, rfl⟩ : ∃ n, fuel = n + 1 := ⟨fuel - 1, by omega⟩
    have h0 := he 0 (by omega)
    simp only [Nat.cast_zero, sub_zero] at h0
    have e1 : ∀ i : Nat, row - 1 - i = row - ((i + 1 : Nat) : Int) := by
      intro i; push_cast; ring
    have := ih n (row - 1) pm p (by omega)
      (fun i hi => by rw [e1]; exact he (i + 1) (by omega))
      (by rw [e1]; exact hk) hp (by rw [e1]; exact hout)
    unfold scan_general_down
    simp only [BOARD_ACTUAL_ROW_BEGIN]
    rw [if_pos h0.1]
    simp only [h0.2, Option.bind_eq_bind, Option.some_bind, if_true, this, e1]

theorem playable_rows {r c : Int} (h : playable r c) : 2 ≤ r ∧ r < 12 := by
  unfold playable BOARD_ACTUAL_ROW_BEGIN BOARD_ACTUAL_ROW_LEN at h
  omega

/-- The loop of the upper general on a well-formed board, from a playable cell: with the
first cell below it that is not empty at distance `k1`, it appends the move onto that cell
exactly when it holds the lower general. -/
theorem scan_general_up_wf {cb : ChessBoard} (hwf : WellFormed cb) {r c : Int}
    (hpl : playable r c) :
    ∃ k1 : Nat, 1 ≤ k1 ∧
      (∀ i : Nat, 1 ≤ i → i < k1 → cb.cell (r + i) c = P_EE) ∧
      cb.cell (r + k1) c ≠ P_EE ∧
      ∀ pm, scan_general_up cb r c SCAN_FUEL (r + 1) pm =
        some (pm ++ if cb.cell (r + k1) c = P_DG then [⟨r, c, r + k1, c⟩] else []) := by
  obtain ⟨k1, h1, h10, hempty, hin, hne⟩ :=
    first_nonempty_after hwf hpl (Or.inr (Or.inl ⟨rfl, rfl⟩) : isUnitDir 1 0) 0
      (by simpa using hpl)
  simp only [mul_one, mul_zero, add_zero] at hempty hin hne
  refine ⟨k1, by omega, fun i hi hik => cell_of_get (hempty i (by omega) hik), hne, ?_⟩
  intro pm
  have e1 : ∀ i : Nat, r + 1 + i = r + ((i + 1 : Nat) : Int) := by
    intro i; push_cast; ring
  have hk : k1 - 1 + 1 = k1 := by omega
  have := scan_general_up_run cb r c (k1 - 1) SCAN_FUEL (r + 1) pm (cb.cell (r + k1) c)
    (by unfold SCAN_FUEL; omega)
    (fun i hi => by
      rw [e1]
      have hg := hempty (i + 1) (by omega) (by omega)
      have hp := playable_of_ne_out hwf (inGrid_of_get hg)
        (by rw [cell_of_get hg]; decide)
      exact ⟨(playable_rows hp).2, hg⟩)
    (by rw [e1, hk]; exact get_eq_cell cb hin) hne
    (by
      rw [e1, hk]
      intro hout
      have hnp : ¬ playable (r + k1) c := fun hp => hout (playable_rows hp).2
      rw [(wf_cell hwf hin).2 hnp]
      decide)
  rw [this, e1, hk]

/-- The loop of the lower general on a well-formed board, from a playable cell. -/
theorem scan_general_down_wf {cb : ChessBoard} (hwf : WellFormed cb) {r c : Int}
    (hpl : playable r c) :
    ∃ k1 : Nat, 1 ≤ k1 ∧
      (∀ i : Nat, 1 ≤ i → i < k1 → cb.cell (r - i) c = P_EE) ∧
      cb.cell (r - k1) c ≠ P_EE ∧
      ∀ pm, scan_general_down cb r c SCAN_FUEL (r - 1) pm =
        some (pm ++ if cb.cell (r - k1) c = P_UG then [⟨r, c, r - k1, c⟩] else []) := by
  obtain ⟨k1, h1, h10, hempty, hin, hne⟩ :=
    first_nonempty_after hwf hpl (Or.inl ⟨rfl, rfl⟩ : isUnitDir (-1) 0) 0
      (by simpa using hpl)
  simp only [mul_neg, mul_one, mul_zero, add_zero, ← sub_eq_add_neg] at hempty hin hne
  refine ⟨k1, by omega, fun i hi hik => cell_of_get (hempty i (by omega) hik), hne, ?_⟩
  intro pm
  have e1 : ∀ i : Nat, r - 1 - i = r - ((i + 1 : Nat) : Int) := by
    intro i; push_cast; ring
  have hk : k1 - 1 + 1 = k1 := by omega
  have := scan_general_down_run cb r c (k1 - 1) SCAN_FUEL (r - 1) pm (cb.cell (r - k1) c)
    (by unfold SCAN_FUEL; omega)
    (fun i hi => by
      rw [e1]
      have hg := hempty (i + 1) (by omega) (by omega)
      have hp := playable_of_ne_out hwf (inGrid_of_get hg)
        (by rw [cell_of_get hg]; decide)
      exact ⟨(playable_rows hp).1, hg⟩)
    (by rw [e1, hk]; exact get_eq_cell cb hin) hne
    (by
      rw [e1, hk]
      intro hout
      have hnp : ¬ playable (r - k1) c := fun hp => hout (playable_rows hp).1
      rw [(wf_cell hwf hin).2 hnp]
      decide)
  rw [this, e1, hk]

theorem gen_possible_moves_cell_general {cb : ChessBoard} {side : PieceSide} {r c : Int}
    (hpl : playable r c) (ht : piece_get_type (cb.cell r c) = PT_GENERAL)
    (hs : piece_get_side (cb.cell r c) = side) (pm : PossibleMoves) :
    gen_possible_moves_cell cb side r c pm = gen_possible_moves_for_general cb pm r c side := by
  unfold gen_possible_moves_cell
  simp only [get_eq_cell cb (playable_inGrid hpl), Option.bind_eq_bind, Option.some_bind, hs,
    if_true, ht]

/-- The four guarded steps of a general are steps of one cell up, down, left or right,
whatever the guards. -/
theorem mem_four_steps {g1 g2 g3 g4 : Prop} [Decidable g1] [Decidable g2] [Decidable g3]
    [Decidable g4] {cb : ChessBoard} {r c R C : Int}
    (h : (⟨r, c, R, C⟩ : MoveNode) ∈ guardList g1 cb r c (r + 1) c ++
      (guardList g2 cb r c (r - 1) c ++
        (guardList g3 cb r c r (c + 1) ++ guardList g4 cb r c r (c - 1)))) :
    ((R = r + 1 ∨ R = r - 1) ∧ C = c) ∨ (R = r ∧ (C = c + 1 ∨ C = c - 1)) := by
  simp only [List.mem_append, mem_guardList] at h
  rcases h with ⟨_, ⟨e1, e2⟩, _⟩ | ⟨_, ⟨e1, e2⟩, _⟩ | ⟨_, ⟨e1, e2⟩, _⟩ | ⟨_, ⟨e1, e2⟩, _⟩
  · exact Or.inl ⟨Or.inl e1, e2⟩
  · exact Or.inl ⟨Or.inr e1, e2⟩
  · exact Or.inr ⟨e1, Or.inl e2⟩
  · exact Or.inr ⟨e1, Or.inr e2⟩

/-- The moves of the upper general on a well-formed board, in full: steps of one cell, which
the predicate `S` collects, and the capture of the lower general when it is the first piece
below the general in its column, `k1` cells away. -/
theorem general_cell_moves_up {cb : ChessBoard} (hwf : WellFormed cb) {r c : Int}
    (hpl : playable r c) (hg : cb.cell r c = P_UG) {ms : PossibleMoves}
    (hms : gen_possible_moves cb PS_UP = some ms) :
    ∃ (k1 : Nat) (S : Int → Int → Prop), 1 ≤ k1 ∧
      (∀ i : Nat, 1 ≤ i → i < k1 → cb.cell (r + i) c = P_EE) ∧
      cb.cell (r + k1) c ≠ P_EE ∧
      (∀ R C, S R C → ((R = r + 1 ∨ R = r - 1) ∧ C = c) ∨ (R = r ∧ (C = c + 1 ∨ C = c - 1))) ∧
      ∀ R C : Int, (⟨r, c, R, C⟩ : MoveNode) ∈ ms ↔
        S R C ∨ (cb.cell (r + k1) c = P_DG ∧ R = r + k1 ∧ C = c) := by
  have h0 := playable_inGrid hpl
  have n : ∀ {r1 c1 : Int}, (r - 2 ≤ r1 ∧ r1 ≤ r + 2) → (c - 2 ≤ c1 ∧ c1 ≤ c + 2) →
      inGrid r1 c1 := fun hr hc => near_inGrid hpl hr hc
  obtain ⟨k1, h1, hempty, hne, hscan⟩ := scan_general_up_wf hwf hpl
  have hl : ∀ pm, gen_possible_moves_cell cb PS_UP r c pm = some (pm ++
      ((guardList (r + 1 ≤ BOARD_9_PALACE_UP_BOTTOM) cb r c (r + 1) c ++
        (guardList (r - 1 ≥ BOARD_9_PALACE_UP_TOP) cb r c (r - 1) c ++
          (guardList (c + 1 ≤ BOARD_9_PALACE_UP_RIGHT) cb r c r (c + 1) ++
            guardList (c - 1 ≥ BOARD_9_PALACE_UP_LEFT) cb r c r (c - 1)))) ++
        (if cb.cell (r + k1) c = P_DG then [⟨r, c, r + k1, c⟩] else []))) := by
    intro pm
    rw [gen_possible_moves_cell_general hpl (by rw [hg]; rfl) (by rw [hg]; rfl)]
    unfold gen_possible_moves_for_general
    simp only [if_true, Option.bind_eq_bind,
      insert_when_emits _ cb h0 (n (by omega) (by omega) : inGrid (r + 1) c),
      insert_when_emits _ cb h0 (n (by omega) (by omega) : inGrid (r - 1) c),
      insert_when_emits _ cb h0 (n (by omega) (by omega) : inGrid r (c + 1)),
      insert_when_emits _ cb h0 (n (by omega) (by omega) : inGrid r (c - 1)),
      Option.some_bind, hscan, List.append_assoc]
  refine ⟨k1, fun R C => (⟨r, c, R, C⟩ : MoveNode) ∈
    guardList (r + 1 ≤ BOARD_9_PALACE_UP_BOTTOM) cb r c (r + 1) c ++
      (guardList (r - 1 ≥ BOARD_9_PALACE_UP_TOP) cb r c (r - 1) c ++
        (guardList (c + 1 ≤ BOARD_9_PALACE_UP_RIGHT) cb r c r (c + 1) ++
          guardList (c - 1 ≥ BOARD_9_PALACE_UP_LEFT) cb r c r (c - 1))),
    h1, hempty, hne, fun R C h => mem_four_steps h, fun R C => ?_⟩
  rw [gen_possible_moves_mem_cell hpl hl hms ⟨rfl, rfl⟩, List.mem_append, mem_ite_nil,
    List.mem_singleton, MoveNode.mk.injEq]
  constructor
  · rintro (h | ⟨hd, _, _, e1, e2⟩)
    · exact Or.inl h
    · exact Or.inr ⟨hd, e1, e2⟩
  · rintro (h | ⟨hd, e1, e2⟩)
    · exact Or.inl h
    · exact Or.inr ⟨hd, rfl, rfl, e1, e2⟩

/-- The moves of the lower general on a well-formed board, in full. -/
theorem general_cell_moves_down {cb : ChessBoard} (hwf : WellFormed cb) {r c : Int}
    (hpl : playable r c) (hg : cb.cell r c = P_DG) {ms : PossibleMoves}
    (hms : gen_possible_moves cb PS_DOWN = some ms) :
    ∃ (k1 : Nat) (S : Int → Int → Prop), 1 ≤ k1 ∧
      (∀ i : Nat, 1 ≤ i → i < k1 → cb.cell (r - i) c = P_EE) ∧
      cb.cell (r - k1) c ≠ P_EE ∧
      (∀ R C, S R C → ((R = r + 1 ∨ R = r - 1) ∧ C = c) ∨ (R = r ∧ (C = c + 1 ∨ C = c - 1))) ∧
      ∀ R C : Int, (⟨r, c, R, C⟩ : MoveNode) ∈ ms ↔
        S R C ∨ (cb.cell (r - k1) c = P_UG ∧ R = r - k1 ∧ C = c) := by
  have h0 := playable_inGrid hpl
  have n : ∀ {r1 c1 : Int}, (r - 2 ≤ r1 ∧ r1 ≤ r + 2) → (c - 2 ≤ c1 ∧ c1 ≤ c + 2) →
      inGrid r1 c1 := fun hr hc => near_inGrid hpl hr hc
  obtain ⟨k1, h1, hempty, hne, hscan⟩ := scan_general_down_wf hwf hpl
  have hl : ∀ pm, gen_possible_moves_cell cb PS_DOWN r c pm = some (pm ++
      ((guardList (r + 1 ≤ BOARD_9_PALACE_DOWN_BOTTOM) cb r c (r + 1) c ++
        (guardList (r - 1 ≥ BOARD_9_PALACE_DOWN_TOP) cb r c (r - 1) c ++
          (guardList (c + 1 ≤ BOARD_9_PALACE_DOWN_RIGHT) cb r c r (c + 1) ++
            guardList (c - 1 ≥ BOARD_9_PALACE_DOWN_LEFT) cb r c r (c - 1)))) ++
        (if cb.cell (r - k1) c = P_UG then [⟨r, c, r - k1, c⟩] else []))) := by
    intro pm
    rw [gen_possible_moves_cell_general hpl (by rw [hg]; rfl) (by rw [hg]; rfl)]
    unfold gen_possible_moves_for_general
    simp only [if_true, Option.bind_eq_bind, (by decide : ¬ PS_DOWN = PS_UP), if_false,
      insert_when_emits _ cb h0 (n (by omega) (by omega) : inGrid (r + 1) c),
      insert_when_emits _ cb h0 (n (by omega) (by omega) : inGrid (r - 1) c),
      insert_when_emits _ cb h0 (n (by omega) (by omega) : inGrid r (c + 1)),
      insert_when_emits _ cb h0 (n (by omega) (by omega) : inGrid r (c - 1)),
      Option.some_bind, hscan, List.append_assoc]
  refine ⟨k1, fun R C => (⟨r, c, R, C⟩ : MoveNode) ∈
    guardList (r + 1 ≤ BOARD_9_PALACE_DOWN_BOTTOM) cb r c (r + 1) c ++
      (guardList (r - 1 ≥ BOARD_9_PALACE_DOWN_TOP) cb r c (r - 1) c ++
        (guardList (c + 1 ≤ BOARD_9_PALACE_DOWN_RIGHT) cb r c r (c + 1) ++
          guardList (c - 1 ≥ BOARD_9_PALACE_DOWN_LEFT) cb r c r (c - 1))),
    h1, hempty, hne, fun R C h => mem_four_steps h, fun R C => ?_⟩
  rw [gen_possible_moves_mem_cell hpl hl hms ⟨rfl, rfl⟩, List.mem_append, mem_ite_nil,
    List.mem_singleton, MoveNode.mk.injEq]
  constructor
  · rintro (h | ⟨hd, _, _, e1, e2⟩)
    · exact Or.inl h
    · exact Or.inr ⟨hd, e1, e2⟩
  · rintro (h | ⟨hd, e1, e2⟩)
    · exact Or.inl h
    · exact Or.inr ⟨hd, rfl, rfl, e1, e2⟩

/-- C21. On a well-formed board with the general of `side` on the playable cell `(r, c)`,
the generator returns for `side`, and: for every cell `(r1, c)` of the same column that holds
the enemy general and lies ahead of the general (`r1 > r` for the upper side, `r1 < r` for the
lower side), the move `(r, c) -> (r1, c)` is among the moves returned if and only if every cell
of column `c` strictly between rows `r` and `r1` is empty; and every move returned from
`(r, c)` that is not a step of one cell up, down, left or right is such a capture: it stays in
column `c`, ends ahead of the general on the enemy general, and every cell strictly between is
empty. -/
theorem flying_general_capture (cb : ChessBoard) (hwf : WellFormed cb) (side : PieceSide)
    (r c : Int) (hpl : playable r c) (hg : cb.cell r c = generalOf side) :
    ∃ ms, gen_possible_moves cb side = some ms ∧
      (∀ r1 : Int, cb.cell r1 c = generalOf (piece_side_get_reverse side) →
        aheadOf side r r1 →
        ((⟨r, c, r1, c⟩ : MoveNode) ∈ ms ↔
          ∀ row : Int, (r < row ∧ row < r1) ∨ (r1 < row ∧ row < r) → cb.cell row c = P_EE)) ∧
      (∀ R C : Int, (⟨r, c, R, C⟩ : MoveNode) ∈ ms → ¬ oneStepOrthogonal ⟨r, c, R, C⟩ →
        C = c ∧ aheadOf side r R ∧ cb.cell R C = generalOf (piece_side_get_reverse side) ∧
          ∀ row : Int, (r < row ∧ row < R) ∨ (R < row ∧ row < r) → cb.cell row c = P_EE) := by
  obtain ⟨ms, hms⟩ := gen_possible_moves_total hwf side
  refine ⟨ms, hms, ?_⟩
  cases side
  · -- the upper general
    obtain ⟨k1, S, h1, hempty, hne, hstep, hmem⟩ := general_cell_moves_up hwf hpl hg hms
    simp only [piece_side_get_reverse, generalOf, aheadOf]
    have between : ∀ row : Int, (r < row ∧ row < r + k1) ∨ (r + k1 < row ∧ row < r) →
        cb.cell row c = P_EE := by
      intro row hrow
      have hi := hempty (row - r).toNat (by omega) (by omega)
      have e : r + ((row - r).toNat : Int) = row := by omega
      rwa [e] at hi
    constructor
    · intro r1 hr1 hah
      rw [hmem]
      constructor
      · rintro (hS | ⟨_, e1, _⟩)
        · intro row hrow
          have := hstep _ _ hS
          exfalso; omega
        · rw [e1]
          exact between
      · intro hbt
        have e1 : r1 = r + k1 := by
          rcases lt_trichotomy (r1 - r) (k1 : Int) with hlt | heq | hgt
          · have hi := hempty (r1 - r).toNat (by omega) (by omega)
            have e : r + ((r1 - r).toNat : Int) = r1 := by omega
            rw [e, hr1] at hi
            exact absurd hi (by decide)
          · omega
          · exact absurd (hbt (r + k1) (Or.inl ⟨by omega, by omega⟩)) hne
        exact Or.inr ⟨by rw [← e1]; exact hr1, e1, rfl⟩
    · intro R C hm hns
      rcases (hmem R C).mp hm with hS | ⟨hd, rfl, rfl⟩
      · exact absurd (hstep _ _ hS) hns
      · exact ⟨rfl, by omega, hd, between⟩
  · -- the lower general
    obtain ⟨k1, S, h1, hempty, hne, hstep, hmem⟩ := general_cell_moves_down hwf hpl hg hms
    simp only [piece_side_get_reverse, generalOf, aheadOf]
    have between : ∀ row : Int, (r < row ∧ row < r - k1) ∨ (r - k1 < row ∧ row < r) →
        cb.cell row c = P_EE := by
      intro row hrow
      have hi := hempty (r - row).toNat (by omega) (by omega)
      have e : r - ((r - row).toNat : Int) = row := by omega
      rwa [e] at hi
    constructor
    · intro r1 hr1 hah
      rw [hmem]
      constructor
      · rintro (hS | ⟨_, e1, _⟩)
        · intro row hrow
          have := hstep _ _ hS
          exfalso; omega
        · rw [e1]
          exact between
      · intro hbt
        have e1 : r1 = r - k1 := by
          rcases lt_trichotomy (r - r1) (k1 : Int) with hlt | heq | hgt
          · have hi := hempty (r - r1).toNat (by omega) (by omega)
            have e : r - ((r - r1).toNat : Int) = r1 := by omega
            rw [e, hr1] at hi
            exact absurd hi (by decide)
          · omega
          · exact absurd (hbt (r - k1) (Or.inr ⟨by omega, by omega⟩)) hne
        exact Or.inr ⟨by rw [← e1]; exact hr1, e1, rfl⟩
    · intro R C hm hns
      rcases (hmem R C).mp hm with hS | ⟨hd, rfl, rfl⟩
      · exact absurd (hstep _ _ hS) hns
      · exact ⟨rfl, by omega, hd, between⟩
  · -- no side: the cell is empty and nothing starts on it
    have hl : ∀ pm, gen_possible_moves_cell cb PS_EXTRA r c pm = some (pm ++ []) := by
      intro pm
      have he : cb.cell r c = P_EE := hg
      unfold gen_possible_moves_cell
      simp [get_eq_cell cb (playable_inGrid hpl), he, piece_get_side, piece_get_type]
    refine ⟨fun r1 _ hah => False.elim hah, fun R C hm _ => ?_⟩
    rw [gen_possible_moves_mem_cell hpl hl hms ⟨rfl, rfl⟩] at hm
    exact absurd hm (List.not_mem_nil _)

/-- An instance of C21: the upper general on (2, 6) of the starting layout without the two
pawns of the middle file; the lower general stands on (11, 6) and the cells between are
empty. -/
theorem flying_general_capture_witness :
    WellFormed facingGeneralsBoard ∧ playable 2 6 ∧
    facingGeneralsBoard.cell 2 6 = generalOf PS_UP ∧
    facingGeneralsBoard.cell 11 6 = generalOf (piece_side_get_reverse PS_UP) ∧
    aheadOf PS_UP 2 11 ∧
    ∃ ms, gen_possible_moves facingGeneralsBoard PS_UP = some ms ∧
      (∀ r1 : Int,
        facingGeneralsBoard.cell r1 6 = generalOf (piece_side_get_reverse PS_UP) →
        aheadOf PS_UP 2 r1 →
        ((⟨2, 6, r1, 6⟩ : MoveNode) ∈ ms ↔
          ∀ row : Int, (2 < row ∧ row < r1) ∨ (r1 < row ∧ row < 2) →
            facingGeneralsBoard.cell row 6 = P_EE)) ∧
      (∀ R C : Int, (⟨2, 6, R, C⟩ : MoveNode) ∈ ms → ¬ oneStepOrthogonal ⟨2, 6, R, C⟩ →
        C = 6 ∧ aheadOf PS_UP 2 R ∧
          facingGeneralsBoard.cell R C = generalOf (piece_side_get_reverse PS_UP) ∧
          ∀ row : Int, (2 < row ∧ row < R) ∨ (R < row ∧ row < 2) →
            facingGeneralsBoard.cell row 6 = P_EE) :=
  ⟨by decide, by decide, by decide, by decide, by decide,
    flying_general_capture facingGeneralsBoard (by decide) PS_UP 2 6 (by decide) (by decide)⟩

end CnChess
